import Mathlib

/-!
# Buddy allocator (`src/src/lab.c`): embedding and verification

The functions of `lab.c` are embedded as Lean functions over an explicit
machine state.  `size_t` and `uintptr_t` values are natural numbers, reduced
modulo `2 ^ 64` where the C arithmetic can wrap; a shift `1 << k` is `2 ^ k`,
which is what C defines for `k < 64`.  The header `lab.h` is not
among the sources, so its constants are taken as a parameter (`Consts`) and its
two struct types are modelled from the specification.

Memory is modelled field by field: for every `struct avail` object there is one
cell per field, addressed by a typed pointer (`Ptr`), and the payload bytes are
a separate store addressed by machine address; that header writes stay off the
payload bytes of reserved blocks is proved (`malloc_frame`, `free_frame`).  A result of `none` means that
the C program has no defined behaviour on that input: it indexed the sentinel
array outside its bounds or dereferenced a null `struct avail *`.
-/

namespace Buddy

/-- Modelled from the spec: the configuration constants of the missing `lab.h`
(`SMALLEST_K`, `MAX_K`, `DEFAULT_K`) and `HDR = sizeof(struct avail)`. -/
structure Consts where
  SMALLEST_K : Nat
  MAX_K : Nat
  DEFAULT_K : Nat
  HDR : Nat
deriving DecidableEq, Repr

/-- The constraints the specification states for the constants: the default
class is a size class, every shift `1 << k` with `k ≤ MAX_K` fits in 64 bits,
and a block of the smallest class can hold a header. -/
def Consts.Valid (c : Consts) : Prop :=
  c.SMALLEST_K ≤ c.DEFAULT_K ∧ c.DEFAULT_K < c.MAX_K ∧ c.MAX_K < 64 ∧
    0 < c.HDR ∧ c.HDR ≤ 2 ^ c.SMALLEST_K

instance (c : Consts) : Decidable c.Valid := by
  unfold Consts.Valid; infer_instance

/-- Modelled from the spec: the values the specification names as typical
(`SMALLEST_K = 6`, `MAX_K = 48`, `DEFAULT_K = 30`) and a 24-byte header
(two 16-bit fields, padding, two 64-bit pointers). -/
def labConsts : Consts := ⟨6, 48, 30, 24⟩

/-- Modelled from the spec: the three values of the `tag` field. -/
inductive Tag where
  | BLOCK_UNUSED
  | BLOCK_AVAIL
  | BLOCK_RESERVED
deriving DecidableEq, Repr

/-- A `struct avail *`: null, the address of the sentinel `pool->avail[i]`, or
the address `addr` of a header inside mapped memory. -/
inductive Ptr where
  | null
  | sentinel (i : Nat)
  | block (addr : Nat)
deriving DecidableEq, Repr

/-- A `struct buddy_pool *` argument: null or the address of the pool. -/
inductive PoolPtr where
  | null
  | addr
deriving DecidableEq, Repr

/-- The value `ENOMEM` of `errno.h`. -/
def ENOMEM : Nat := 12

/-- Modelled from the spec: the pool (`struct buddy_pool`: `kval_m`, `numbytes`,
`base`, and the sentinels `avail[i]` as the cells at `Ptr.sentinel i`), the
headers in mapped memory (the cells at `Ptr.block a`), the payload bytes and
`errno`.  `base = 0` is the null base pointer. -/
structure State where
  errno : Nat
  kval_m : Nat
  numbytes : Nat
  base : Nat
  tag : Ptr → Tag
  kval : Ptr → Nat
  next : Ptr → Ptr
  prev : Ptr → Ptr
  data : Nat → Nat

/-- The assignment `p->tag = v`. -/
def setTag (s : State) (p : Ptr) (v : Tag) : State :=
  { s with tag := Function.update s.tag p v }

/-- The assignment `p->kval = v`. -/
def setKval (s : State) (p : Ptr) (v : Nat) : State :=
  { s with kval := Function.update s.kval p v }

/-- The assignment `p->next = v`. -/
def setNext (s : State) (p : Ptr) (v : Ptr) : State :=
  { s with next := Function.update s.next p v }

/-- The assignment `p->prev = v`. -/
def setPrev (s : State) (p : Ptr) (v : Ptr) : State :=
  { s with prev := Function.update s.prev p v }

/-- The assignment `errno = e`. -/
def setErrno (s : State) (e : Nat) : State :=
  { s with errno := e }

/-- Modelled from the spec: the pool holds one sentinel for every class in
`[0, MAX_K)`, so a pointer may be dereferenced when it is not null and, for a
sentinel, when its index is below `MAX_K`. -/
def Ptr.valid (c : Consts) : Ptr → Bool
  | .null => false
  | .sentinel i => decide (i < c.MAX_K)
  | .block _ => true

/-- Dereferencing check: `none` for a pointer that may not be dereferenced. -/
def deref (c : Consts) (p : Ptr) : Option Ptr :=
  if p.valid c then some p else none

/-- The loop of `btok` (lab.c 17-20): `k` is incremented while `2^k < bytes` and
`k < MAX_K`.  The loop runs at most `MAX_K - SMALLEST_K` times, which is the
fuel `btok` passes. -/
def btok_loop (c : Consts) (bytes : Nat) : Nat → Nat → Nat
  | 0, k => k
  | fuel + 1, k =>
    if 2 ^ k < bytes ∧ k < c.MAX_K then btok_loop c bytes fuel (k + 1) else k

/-- The function `btok` (lab.c 12-23). -/
def btok (c : Consts) (bytes : Nat) : Nat :=
  btok_loop c bytes (c.MAX_K - c.SMALLEST_K) c.SMALLEST_K

/-- The function `buddy_calc` (lab.c 25-44); `block` and the result are machine
addresses, `0` is the null pointer. -/
def buddy_calc (s : State) (pool : PoolPtr) (block : Nat) : Nat :=
  if pool = PoolPtr.null ∨ block = 0 ∨ block < s.base then 0
  else
    let offset := block - s.base
    let buddy_offset := offset ^^^ (2 ^ s.kval (Ptr.block block))
    let buddy := (s.base + buddy_offset) % 2 ^ 64
    if buddy < s.base ∨ buddy ≥ (s.base + s.numbytes) % 2 ^ 64 then 0 else buddy

/-- One iteration of the sentinel loop of `buddy_init` (lab.c 73-76). -/
def init_sentinel (s : State) (i : Nat) : State :=
  setPrev (setNext (setKval (setTag s (Ptr.sentinel i) Tag.BLOCK_UNUSED)
    (Ptr.sentinel i) i) (Ptr.sentinel i) (Ptr.sentinel i)) (Ptr.sentinel i) (Ptr.sentinel i)

/-- The sentinel loop of `buddy_init` (lab.c 72-77), `i = 0 .. MAX_K - 1`. -/
def init_avail (c : Consts) (s : State) : State :=
  (List.range c.MAX_K).foldl init_sentinel s

/-- The size `buddy_init` classifies (lab.c 50-52). -/
def init_size (c : Consts) (size : Nat) : Nat :=
  if size = 0 then 2 ^ c.DEFAULT_K else size

/-- The assignments of `buddy_init` after a successful mapping at `mem`, up to
the header of the base block (lab.c 66-84). -/
def init_fill (c : Consts) (s : State) (kval mem : Nat) : State :=
  let s1 := { s with kval_m := kval, numbytes := 2 ^ kval, base := mem }
  let s2 := init_avail c s1
  let s3 := setTag s2 (Ptr.block mem) Tag.BLOCK_AVAIL
  let s4 := setKval s3 (Ptr.block mem) kval
  let s5 := setNext s4 (Ptr.block mem) (Ptr.sentinel kval)
  setPrev s5 (Ptr.block mem) (Ptr.sentinel kval)

/-- The function `buddy_init` (lab.c 46-89).  `mmap len` is the answer of the
operating system to the request for `len` bytes: `none` is `MAP_FAILED`.  The
cells of the mapped memory keep whatever content they have in `s`.  The last
two assignments (lab.c 87-88) index `avail[kval]`; for `kval = MAX_K` that is
outside the array and the result is `none`. -/
def buddy_init (c : Consts) (mmap : Nat → Option Nat) (s : State) (pool : PoolPtr)
    (size : Nat) : Option State :=
  if pool = PoolPtr.null then some s
  else
    let kval := btok c (init_size c size)
    let actual_size := 2 ^ kval
    match mmap actual_size with
    | none => some (setErrno s ENOMEM)
    | some mem =>
      (deref c (Ptr.sentinel kval)).bind fun a =>
        some (setPrev (setNext (init_fill c s kval mem) a (Ptr.block mem)) a (Ptr.block mem))

/-- The function `buddy_destroy` (lab.c 91-95). -/
def buddy_destroy (s : State) (pool : PoolPtr) : State :=
  if pool = PoolPtr.null ∨ s.base = 0 then s else { s with base := 0 }

/-- The call `munmap(pool->base, pool->numbytes)` that `buddy_destroy` makes
(lab.c 93): the address and length it passes, `none` when it returns before
the call. -/
def destroy_unmaps (s : State) (pool : PoolPtr) : Option (Nat × Nat) :=
  if pool = PoolPtr.null ∨ s.base = 0 then none else some (s.base, s.numbytes)

/-- Removal of `x` from its list: `x->prev->next = x->next; x->next->prev =
x->prev;` (lab.c 127-128 and 178-179). -/
def list_remove (c : Consts) (s : State) (x : Ptr) : Option State :=
  (deref c x).bind fun x =>
  (deref c (s.prev x)).bind fun p =>
  let s1 := setNext s p (s.next x)
  (deref c (s1.next x)).bind fun n =>
  some (setPrev s1 n (s1.prev x))

/-- Insertion of `x` at the head of list `k`: `x->next = avail[k].next;
x->prev = &avail[k]; avail[k].next->prev = x; avail[k].next = x;`
(lab.c 140-143 and 191-194). -/
def list_push (c : Consts) (s : State) (k : Nat) (x : Ptr) : Option State :=
  (deref c (Ptr.sentinel k)).bind fun h =>
  (deref c x).bind fun x =>
  let s1 := setNext s x (s.next h)
  let s2 := setPrev s1 x h
  (deref c (s2.next h)).bind fun n =>
  let s3 := setPrev s2 n x
  some (setNext s3 h x)

/-- The search loop of `buddy_malloc` (lab.c 113-119): the result is the final
`current_k` and `block` (null when no list from `current_k` to `kval_m` has a
member).  The loop runs at most `kval_m + 1 - k` times. -/
def malloc_search (c : Consts) (s : State) : Nat → Nat → Option (Nat × Ptr)
  | 0, current_k => if current_k ≤ s.kval_m then none else some (current_k, Ptr.null)
  | fuel + 1, current_k =>
    if current_k ≤ s.kval_m then
      (deref c (Ptr.sentinel current_k)).bind fun a =>
        if s.next a ≠ a then some (current_k, s.next a)
        else malloc_search c s fuel (current_k + 1)
    else some (current_k, Ptr.null)

/-- The split loop of `buddy_malloc` (lab.c 131-147) for the block at address
`block`; it runs `current_k - k` times. -/
def malloc_split (c : Consts) (k : Nat) (block : Nat) : Nat → State → Nat → Option State
  | 0, s, current_k => if current_k > k then none else some s
  | fuel + 1, s, current_k =>
    if current_k > k then
      let current_k := current_k - 1
      let buddy := block + 2 ^ current_k
      let s1 := setTag s (Ptr.block buddy) Tag.BLOCK_AVAIL
      let s2 := setKval s1 (Ptr.block buddy) current_k
      (list_push c s2 current_k (Ptr.block buddy)).bind fun s3 =>
      let s4 := setKval s3 (Ptr.block block) current_k
      malloc_split c k block fuel s4 current_k
    else some s

/-- The function `buddy_malloc` (lab.c 97-155); the second component is the
returned pointer, `0` for null.  A victim that is not a header in mapped memory
has no address to do arithmetic on, and the result is `none`. -/
def buddy_malloc (c : Consts) (s : State) (pool : PoolPtr) (size : Nat) :
    Option (State × Nat) :=
  if pool = PoolPtr.null ∨ s.base = 0 ∨ size = 0 then some (setErrno s ENOMEM, 0)
  else
    let total_size := (size + c.HDR) % 2 ^ 64
    let k := btok c total_size
    (malloc_search c s (s.kval_m + 1 - k) k).bind fun r =>
    match r with
    | (_, Ptr.null) => some (setErrno s ENOMEM, 0)
    | (_, Ptr.sentinel _) => none
    | (current_k, Ptr.block block) =>
      (list_remove c s (Ptr.block block)).bind fun s1 =>
      (malloc_split c k block (current_k - k) s1 current_k).bind fun s2 =>
      some (setTag s2 (Ptr.block block) Tag.BLOCK_RESERVED, block + c.HDR)

/-- The coalescing loop of `buddy_free` (lab.c 169-188); the result is the
state and the final `block`.  The loop runs at most `kval_m - block->kval`
times. -/
def free_loop (c : Consts) : Nat → State → Nat → Option (State × Nat)
  | 0, s, block => if s.kval (Ptr.block block) < s.kval_m then none else some (s, block)
  | fuel + 1, s, block =>
    if s.kval (Ptr.block block) < s.kval_m then
      let buddy := buddy_calc s PoolPtr.addr block
      if buddy = 0 ∨ s.tag (Ptr.block buddy) ≠ Tag.BLOCK_AVAIL ∨
          s.kval (Ptr.block buddy) ≠ s.kval (Ptr.block block) then some (s, block)
      else
        (list_remove c s (Ptr.block buddy)).bind fun s1 =>
        let block := if buddy < block then buddy else block
        let s2 := setKval s1 (Ptr.block block) (s1.kval (Ptr.block block) + 1)
        free_loop c fuel s2 block
    else some (s, block)

/-- The function `buddy_free` (lab.c 157-195); `ptr = 0` is the null
pointer. -/
def buddy_free (c : Consts) (s : State) (pool : PoolPtr) (ptr : Nat) : Option State :=
  if pool = PoolPtr.null ∨ ptr = 0 then some s
  else
    let block := ptr - c.HDR
    let s1 := setTag s (Ptr.block block) Tag.BLOCK_AVAIL
    (free_loop c (s1.kval_m - s1.kval (Ptr.block block)) s1 block).bind fun r =>
    list_push c r.1 (r.1.kval (Ptr.block r.2)) (Ptr.block r.2)

/-- The call `memcpy(dst, src, n)` on the payload bytes. -/
def memcpy (s : State) (dst src n : Nat) : State :=
  { s with data := fun x => if dst ≤ x ∧ x < dst + n then s.data (src + (x - dst)) else s.data x }

/-- The function `buddy_realloc` (lab.c 197-233). -/
def buddy_realloc (c : Consts) (s : State) (pool : PoolPtr) (ptr size : Nat) :
    Option (State × Nat) :=
  if pool = PoolPtr.null then some (setErrno s ENOMEM, 0)
  else if ptr = 0 then buddy_malloc c s pool size
  else if size = 0 then (buddy_free c s pool ptr).map fun s1 => (s1, 0)
  else
    let old_block := ptr - c.HDR
    let old_size := (2 ^ s.kval (Ptr.block old_block) + 2 ^ 64 - c.HDR) % 2 ^ 64
    let new_k := btok c ((size + c.HDR) % 2 ^ 64)
    if new_k ≤ s.kval (Ptr.block old_block) then some (s, ptr)
    else
      (buddy_malloc c s pool size).bind fun r =>
      if r.2 = 0 then some (r.1, 0)
      else
        (buddy_free c (memcpy r.1 r.2 ptr old_size) pool ptr).map fun s3 => (s3, r.2)

/-! ## The loops with iteration counters -/

/-- The loop of `btok` (lab.c 17-20) with a count of its iterations: the result
is the final `k` and the number of times the body ran. -/
def btok_loop_n (c : Consts) (bytes : Nat) : Nat → Nat → Nat × Nat
  | 0, k => (k, 0)
  | fuel + 1, k =>
    if 2 ^ k < bytes ∧ k < c.MAX_K then
      ((btok_loop_n c bytes fuel (k + 1)).1, (btok_loop_n c bytes fuel (k + 1)).2 + 1)
    else (k, 0)

/-- The split loop of `buddy_malloc` (lab.c 131-147) with a count of its
iterations: the result is the final state and the number of times the body
ran; `none` when the fuel ends before the loop does. -/
def malloc_split_n (c : Consts) (k : Nat) (block : Nat) :
    Nat → State → Nat → Option (State × Nat)
  | 0, s, current_k => if current_k > k then none else some (s, 0)
  | fuel + 1, s, current_k =>
    if current_k > k then
      let current_k := current_k - 1
      let buddy := block + 2 ^ current_k
      let s1 := setTag s (Ptr.block buddy) Tag.BLOCK_AVAIL
      let s2 := setKval s1 (Ptr.block buddy) current_k
      (list_push c s2 current_k (Ptr.block buddy)).bind fun s3 =>
      let s4 := setKval s3 (Ptr.block block) current_k
      (malloc_split_n c k block fuel s4 current_k).map fun r => (r.1, r.2 + 1)
    else some (s, 0)

/-- The coalescing loop of `buddy_free` (lab.c 169-188) with a count of its
iterations: the result is the final state and block, and the number of times
the body was entered (the iteration that leaves by `break` included); `none`
when the fuel ends before the loop does. -/
def free_loop_n (c : Consts) : Nat → State → Nat → Option ((State × Nat) × Nat)
  | 0, s, block =>
    if s.kval (Ptr.block block) < s.kval_m then none else some ((s, block), 0)
  | fuel + 1, s, block =>
    if s.kval (Ptr.block block) < s.kval_m then
      let buddy := buddy_calc s PoolPtr.addr block
      if buddy = 0 ∨ s.tag (Ptr.block buddy) ≠ Tag.BLOCK_AVAIL ∨
          s.kval (Ptr.block buddy) ≠ s.kval (Ptr.block block) then some ((s, block), 1)
      else
        (list_remove c s (Ptr.block buddy)).bind fun s1 =>
        let block := if buddy < block then buddy else block
        let s2 := setKval s1 (Ptr.block block) (s1.kval (Ptr.block block) + 1)
        (free_loop_n c fuel s2 block).map fun r => (r.1, r.2 + 1)
    else some ((s, block), 0)

/-! ## Specification predicates -/

/-- The memory of a pool object that was set to all-zero bytes
(`struct buddy_pool pool = {0}`), with `BLOCK_RESERVED` the zero tag. -/
def zeroState : State :=
  { errno := 0, kval_m := 0, numbytes := 0, base := 0,
    tag := fun _ => Tag.BLOCK_RESERVED, kval := fun _ => 0,
    next := fun _ => Ptr.null, prev := fun _ => Ptr.null, data := fun _ => 0 }

/-- A pool object whose memory still holds a non-null `base` (left over from
earlier use, or never set to zero). -/
def staleState : State :=
  { zeroState with base := 4096 }

/-- The contract of the operating system: a mapping that succeeds is at a
non-null address and ends below the top of the 64-bit address space. -/
def MapOk (mmap : Nat → Option Nat) : Prop :=
  ∀ len a, mmap len = some a → 0 < a ∧ a + len < 2 ^ 64

/-- The pool states reachable from a successful `buddy_init` by calls of
`buddy_malloc`, `buddy_free` and `buddy_realloc` on pointers that were returned
and not yet freed, and by the client writing payload bytes; the list holds the
pointers returned and not yet freed. -/
inductive Reach (c : Consts) : State → List Nat → Prop where
  | init (mmap : Nat → Option Nat) (s s0 : State) (size mem : Nat) :
      MapOk mmap → mmap (2 ^ btok c (init_size c size)) = some mem →
      buddy_init c mmap s PoolPtr.addr size = some s0 → Reach c s0 []
  | malloc (s s1 : State) (ps : List Nat) (n p : Nat) :
      Reach c s ps → buddy_malloc c s PoolPtr.addr n = some (s1, p) →
      Reach c s1 (if p = 0 then ps else p :: ps)
  | free (s s1 : State) (ps : List Nat) (p : Nat) :
      Reach c s ps → p ∈ ps → buddy_free c s PoolPtr.addr p = some s1 →
      Reach c s1 (ps.erase p)
  | realloc_null (s s1 : State) (ps : List Nat) (n q : Nat) :
      Reach c s ps → buddy_realloc c s PoolPtr.addr 0 n = some (s1, q) →
      Reach c s1 (if q = 0 then ps else q :: ps)
  | realloc (s s1 : State) (ps : List Nat) (p n q : Nat) :
      Reach c s ps → p ∈ ps → buddy_realloc c s PoolPtr.addr p n = some (s1, q) →
      Reach c s1
        (if n = 0 then ps.erase p else if q = 0 ∨ q = p then ps else q :: ps.erase p)
  | store (s : State) (ps : List Nat) (d : Nat → Nat) :
      Reach c s ps → Reach c { s with data := d } ps

/-- The pool after `buddy_init(&pool, 2^20)` on zeroed memory, with the arena
mapped at address 4096. -/
def initState : State :=
  setPrev (setNext (init_fill labConsts zeroState 20 4096) (Ptr.sentinel 20) (Ptr.block 4096))
    (Ptr.sentinel 20) (Ptr.block 4096)

/-- An operating system that maps every request of at most `2^32` bytes at the
address 4096 and refuses larger ones. -/
def labMmap (len : Nat) : Option Nat :=
  if len ≤ 2 ^ 32 then some 4096 else none

/-- The doubly-linked chain that starts after `p`, runs through the headers at
the addresses `l` in this order and ends at the sentinel `h`: every `next` leads
to the following node and every `prev` back to the preceding one. -/
def Chain (nx pv : Ptr → Ptr) (h : Ptr) : Ptr → List Nat → Prop
  | p, [] => nx p = h ∧ pv h = p
  | p, a :: l => nx p = Ptr.block a ∧ pv (Ptr.block a) = p ∧ Chain nx pv h (Ptr.block a) l

/-- The free list of class `k` is the circular list `avail[k] → l → avail[k]`;
the head of the list is the first address of `l`. -/
def IsList (s : State) (k : Nat) (l : List Nat) : Prop :=
  Chain s.next s.prev (Ptr.sentinel k) (Ptr.sentinel k) l

/-- The address of the buddy of the class-`k` block at address `a` in the arena
at `base`: `base + ((a - base) XOR 2^k)`. -/
def buddyAddr (base a k : Nat) : Nat :=
  base + ((a - base) ^^^ 2 ^ k)

/-- The block of class `k` at address `a` is a block of the arena of top class
`M` at `base`: its class is a size class of this pool, its offset is a multiple
of `2^k` and it ends inside the arena. -/
def IsBlock (c : Consts) (base M a k : Nat) : Prop :=
  c.SMALLEST_K ≤ k ∧ k ≤ M ∧ base ≤ a ∧ 2 ^ k ∣ (a - base) ∧ a + 2 ^ k ≤ base + 2 ^ M

/-- The blocks that exist: the members `fl k` of the free lists, the reserved
blocks `res` (address and class of every allocation that was returned and not
yet freed) and the block `hold` an operation has in hand. -/
def Live (fl : Nat → List Nat) (res : List (Nat × Nat)) (hold : Option (Nat × Nat))
    (a k : Nat) : Prop :=
  a ∈ fl k ∨ (a, k) ∈ res ∨ hold = some (a, k)

/-- The tiling of the arena by the existing blocks: every block is a block of
the arena, no block is listed twice or in two roles, two different blocks do
not overlap, every
byte of the arena lies in a block, and no free block of a class below `M` has
its buddy free in the same class. -/
structure Tiling (c : Consts) (base M : Nat) (fl : Nat → List Nat) (res : List (Nat × Nat))
    (hold : Option (Nat × Nat)) : Prop where
  block : ∀ a k, Live fl res hold a k → IsBlock c base M a k
  nodup : ∀ k, (fl k).Nodup
  res_nodup : res.Nodup
  res_free : ∀ a k, (a, k) ∈ res → a ∉ fl k
  hold_free : ∀ a k, hold = some (a, k) → a ∉ fl k ∧ (a, k) ∉ res
  disjoint : ∀ a k a1 k1, Live fl res hold a k → Live fl res hold a1 k1 →
    (a, k) ≠ (a1, k1) → a + 2 ^ k ≤ a1 ∨ a1 + 2 ^ k1 ≤ a
  cover : ∀ x, base ≤ x → x < base + 2 ^ M →
    ∃ a k, Live fl res hold a k ∧ a ≤ x ∧ x < a + 2 ^ k
  eager : ∀ k a, a ∈ fl k → k < M → buddyAddr base a k ∉ fl k

/-- The memory agrees with the existing blocks: every sentinel of the array has
tag `BLOCK_UNUSED` and its index as `kval`, the list of sentinel `k` is `fl k`,
the header of a free block of class `k` has tag `BLOCK_AVAIL` and `kval = k`,
the header of a reserved block has tag `BLOCK_RESERVED` and its class as
`kval`, and the header of the block in hand has tag `BLOCK_AVAIL`. -/
structure Heap (c : Consts) (s : State) (fl : Nat → List Nat) (res : List (Nat × Nat))
    (hold : Option (Nat × Nat)) : Prop where
  sent : ∀ k, k < c.MAX_K →
    s.tag (Ptr.sentinel k) = Tag.BLOCK_UNUSED ∧ s.kval (Ptr.sentinel k) = k
  lists : ∀ k, k < c.MAX_K → IsList s k (fl k)
  free_hdr : ∀ k a, a ∈ fl k →
    s.tag (Ptr.block a) = Tag.BLOCK_AVAIL ∧ s.kval (Ptr.block a) = k
  res_hdr : ∀ a k, (a, k) ∈ res →
    s.tag (Ptr.block a) = Tag.BLOCK_RESERVED ∧ s.kval (Ptr.block a) = k
  hold_hdr : ∀ a k, hold = some (a, k) →
    s.tag (Ptr.block a) = Tag.BLOCK_AVAIL ∧ s.kval (Ptr.block a) = k

/-- The invariant of the pool, relative to the contents `fl` of the free lists,
the reserved blocks `res` and the block `hold` in hand (inside `buddy_malloc`
and `buddy_free`; `none` between operations). -/
structure InvH (c : Consts) (s : State) (fl : Nat → List Nat) (res : List (Nat × Nat))
    (hold : Option (Nat × Nat)) : Prop where
  base_pos : 0 < s.base
  numbytes_eq : s.numbytes = 2 ^ s.kval_m
  kval_m_ge : c.SMALLEST_K ≤ s.kval_m
  kval_m_lt : s.kval_m < c.MAX_K
  no_wrap : s.base + s.numbytes < 2 ^ 64
  tiling : Tiling c s.base s.kval_m fl res hold
  heap : Heap c s fl res hold

/-- The free lists after the block at `B` was split from class `j` down to
class `k`: the upper half `B + 2^i` is the new head of list `i` for
`k ≤ i < j`. -/
def splitLists (fl : Nat → List Nat) (B k j : Nat) : Nat → List Nat :=
  fun i => if k ≤ i ∧ i < j then (B + 2 ^ i) :: fl i else fl i

/-- The free lists and the block in hand after the coalescing loop of
`buddy_free`, started with the block of class `k` at `b` in hand: while the
class is below `M` and the buddy is on the free list of the class, the buddy
leaves the list and the lower of the two becomes the block of the next class. -/
def coalesce (base M : Nat) : Nat → (Nat → List Nat) → Nat → Nat → (Nat → List Nat) × Nat × Nat
  | 0, fl, b, k => (fl, b, k)
  | n + 1, fl, b, k =>
    if k < M ∧ buddyAddr base b k ∈ fl k then
      coalesce base M n (Function.update fl k ((fl k).erase (buddyAddr base b k)))
        (if buddyAddr base b k < b then buddyAddr base b k else b) (k + 1)
    else (fl, b, k)

/-- The free lists after `buddy_free` of the reserved block of class `k` at
`a`: the block that results from coalescing is the new head of the list of its
class. -/
def freeLists (base M : Nat) (fl : Nat → List Nat) (a k : Nat) : Nat → List Nat :=
  Function.update (coalesce base M (M - k) fl a k).1 (coalesce base M (M - k) fl a k).2.2
    ((coalesce base M (M - k) fl a k).2.1 ::
      (coalesce base M (M - k) fl a k).1 (coalesce base M (M - k) fl a k).2.2)

/-- The pool after `buddy_malloc(&pool, 1)` on `initState`; the call returns
the address 4120. -/
def allocState : State :=
  ((buddy_malloc labConsts initState PoolPtr.addr 1).getD (zeroState, 0)).1

/-- A sequence of calls `buddy_malloc(&pool, n)`, one per request size, every
one of which returns a non-null pointer; the result is the final state and the
pointers in the order they were returned. -/
def malloc_all (c : Consts) : State → List Nat → Option (State × List Nat)
  | s, [] => some (s, [])
  | s, n :: ns =>
    (buddy_malloc c s PoolPtr.addr n).bind fun r =>
      if r.2 = 0 then none
      else (malloc_all c r.1 ns).bind fun r1 => some (r1.1, r.2 :: r1.2)

/-- A sequence of calls `buddy_free(&pool, p)`, one per pointer of the list. -/
def free_all (c : Consts) : State → List Nat → Option State
  | s, [] => some s
  | s, p :: ps => (buddy_free c s PoolPtr.addr p).bind fun s1 => free_all c s1 ps

/-- The pool after the five allocations of `test_multiple_allocations` (100,
200, 300, 400 and 500 bytes) on `initState`. -/
def fiveState : State :=
  ((malloc_all labConsts initState [100, 200, 300, 400, 500]).getD (zeroState, [])).1

/-- The free lists of `allocState`: the upper halves `4096 + 2^i` of the splits
from class 20 down to class 6, one on each list `6 ≤ i < 20`. -/
def allocLists : Nat → List Nat :=
  splitLists (Function.update (fun k => if k = 20 then [4096] else []) 20 []) 4096 6 20

/-- The pool after `buddy_malloc(&pool, 100)` on `allocState`; the call
returns the address 4248. -/
def growState : State :=
  ((buddy_malloc labConsts allocState PoolPtr.addr 100).getD (zeroState, 0)).1

/-- The two states have the same arena, `errno` and payload bytes: they differ
in header cells only. -/
def SameFrame (s1 s : State) : Prop :=
  s1.base = s.base ∧ s1.kval_m = s.kval_m ∧ s1.numbytes = s.numbytes ∧
    s1.errno = s.errno ∧ s1.data = s.data

/-- The invariant between operations. -/
def Inv (c : Consts) (s : State) (fl : Nat → List Nat) (res : List (Nat × Nat)) : Prop :=
  InvH c s fl res none

/-- A well-formed pool: the invariant holds for some contents of the free lists
and some set of reserved blocks. -/
def WellFormed (c : Consts) (s : State) : Prop :=
  ∃ fl res, Inv c s fl res

/-- The state `check_buddy_pool_full` of the tests describes: every sentinel
has tag `BLOCK_UNUSED` and its own index as `kval`, every sentinel but
`avail[kval_m]` is its own `next` and `prev`, and the list of `avail[kval_m]` is
the one block at `base`, `BLOCK_AVAIL` of class `kval_m`. -/
def Full (c : Consts) (s : State) : Prop :=
  (∀ i, i < c.MAX_K →
    s.tag (Ptr.sentinel i) = Tag.BLOCK_UNUSED ∧ s.kval (Ptr.sentinel i) = i) ∧
  (∀ i, i < c.MAX_K → i ≠ s.kval_m →
    s.next (Ptr.sentinel i) = Ptr.sentinel i ∧ s.prev (Ptr.sentinel i) = Ptr.sentinel i) ∧
  s.next (Ptr.sentinel s.kval_m) = Ptr.block s.base ∧
  s.prev (Ptr.sentinel s.kval_m) = Ptr.block s.base ∧
  s.tag (Ptr.block s.base) = Tag.BLOCK_AVAIL ∧
  s.kval (Ptr.block s.base) = s.kval_m ∧
  s.next (Ptr.block s.base) = Ptr.sentinel s.kval_m ∧
  s.prev (Ptr.block s.base) = Ptr.sentinel s.kval_m

/-- The blocks of the pool with their classes: the reserved blocks `res`, then
the members of the free lists of the classes `0 .. M`. -/
def allBlocks (fl : Nat → List Nat) (res : List (Nat × Nat)) (M : Nat) : List (Nat × Nat) :=
  res ++ (List.range (M + 1)).flatMap fun k => (fl k).map fun a => (a, k)

/-- The header cells at the address `x` are the same in both states. -/
def HdrSame (s1 s : State) (x : Nat) : Prop :=
  s1.tag (Ptr.block x) = s.tag (Ptr.block x) ∧ s1.kval (Ptr.block x) = s.kval (Ptr.block x) ∧
    s1.next (Ptr.block x) = s.next (Ptr.block x) ∧ s1.prev (Ptr.block x) = s.prev (Ptr.block x)

/-- No header at an address that satisfies `P` differs between the two
states. -/
def HdrFrame (P : Nat → Prop) (s1 s : State) : Prop :=
  ∀ x, P x → HdrSame s1 s x

/-- The address `x` lies in the block of class `k` at `a`. -/
def Inside (a k x : Nat) : Prop :=
  a ≤ x ∧ x < a + 2 ^ k

/-- In `lab.c` a header lies in the memory it manages and occupies the `HDR`
bytes from its address.  No header that shares a byte with `[lo, hi)` differs
between the two states: the header writes that lead from `s` to `s1` leave the
bytes of `[lo, hi)` alone. -/
def Untouched (c : Consts) (s1 s : State) (lo hi : Nat) : Prop :=
  ∀ x, lo < x + c.HDR → x < hi → HdrSame s1 s x

/-- The pool `allocState` after the caller has written its payload: the byte at
every address `x` holds `x % 251 + 1`. -/
def patternState : State :=
  { allocState with data := fun x => x % 251 + 1 }

/-- The pool after `buddy_malloc(&pool, 100)` on `patternState`; the call
returns the address 4248. -/
def patternGrow : State :=
  ((buddy_malloc labConsts patternState PoolPtr.addr 100).getD (zeroState, 0)).1

/-! ## Size classification -/

theorem btok_loop_spec (c : Consts) (bytes : Nat) :
    ∀ fuel k, k + fuel = c.MAX_K →
      k ≤ btok_loop c bytes fuel k ∧ btok_loop c bytes fuel k ≤ c.MAX_K ∧
      (∀ j, k ≤ j → j < btok_loop c bytes fuel k → 2 ^ j < bytes) ∧
      (btok_loop c bytes fuel k < c.MAX_K → bytes ≤ 2 ^ btok_loop c bytes fuel k) := by
  intro fuel
  induction fuel with
  | zero =>
    intro k hk
    simp only [btok_loop]
    refine ⟨le_refl _, by omega, fun j h1 h2 => by omega, fun h => by omega⟩
  | succ n ih =>
    intro k hk
    simp only [btok_loop]
    by_cases hcond : 2 ^ k < bytes ∧ k < c.MAX_K
    · rw [if_pos hcond]
      obtain ⟨h1, h2, h3, h4⟩ := ih (k + 1) (by omega)
      refine ⟨by omega, h2, ?_, h4⟩
      intro j hj1 hj2
      by_cases hjk : j = k
      · subst hjk; exact hcond.1
      · exact h3 j (by omega) hj2
    · rw [if_neg hcond]
      refine ⟨le_refl _, by omega, fun j h1 h2 => by omega, fun h => ?_⟩
      by_contra hlt
      exact hcond ⟨by omega, h⟩

theorem btok_ge (c : Consts) (h : c.SMALLEST_K ≤ c.MAX_K) (bytes : Nat) :
    c.SMALLEST_K ≤ btok c bytes :=
  (btok_loop_spec c bytes _ _ (by omega)).1

theorem btok_le (c : Consts) (h : c.SMALLEST_K ≤ c.MAX_K) (bytes : Nat) :
    btok c bytes ≤ c.MAX_K :=
  (btok_loop_spec c bytes _ _ (by omega)).2.1

theorem btok_below (c : Consts) (h : c.SMALLEST_K ≤ c.MAX_K) (bytes j : Nat)
    (h1 : c.SMALLEST_K ≤ j) (h2 : j < btok c bytes) : 2 ^ j < bytes :=
  (btok_loop_spec c bytes _ _ (by omega)).2.2.1 j h1 h2

theorem btok_covers (c : Consts) (h : c.SMALLEST_K ≤ c.MAX_K) (bytes : Nat)
    (h1 : btok c bytes < c.MAX_K) : bytes ≤ 2 ^ btok c bytes :=
  (btok_loop_spec c bytes _ _ (by omega)).2.2.2 h1

theorem btok_least (c : Consts) (h : c.SMALLEST_K ≤ c.MAX_K) (bytes j : Nat)
    (h1 : c.SMALLEST_K ≤ j) (h2 : bytes ≤ 2 ^ j) : btok c bytes ≤ j := by
  by_contra hlt
  have := btok_below c h bytes j h1 (by omega)
  omega

theorem btok_eq_of_least (c : Consts) (h : c.SMALLEST_K ≤ c.MAX_K) (bytes k : Nat)
    (hk : IsLeast {j | c.SMALLEST_K ≤ j ∧ bytes ≤ 2 ^ j} k) :
    btok c bytes = min c.MAX_K k := by
  obtain ⟨⟨hk1, hk2⟩, hk3⟩ := hk
  have hle := btok_le c h bytes
  have hl := btok_least c h bytes k hk1 hk2
  by_cases hlt : btok c bytes < c.MAX_K
  · have hcov := btok_covers c h bytes hlt
    have : k ≤ btok c bytes := hk3 ⟨btok_ge c h bytes, hcov⟩
    omega
  · omega

theorem btok_pow (c : Consts) (h : c.SMALLEST_K ≤ c.MAX_K) (k : Nat)
    (h1 : c.SMALLEST_K ≤ k) (h2 : k < c.MAX_K) : btok c (2 ^ k) = k := by
  have hl := btok_least c h (2 ^ k) k h1 (le_refl _)
  have hcov := btok_covers c h (2 ^ k) (by omega)
  have := (Nat.pow_le_pow_iff_right (by norm_num : 1 < 2)).1 hcov
  omega

theorem btok_pow_succ (c : Consts) (h : c.SMALLEST_K ≤ c.MAX_K) (k : Nat)
    (h1 : c.SMALLEST_K ≤ k) (h2 : k < c.MAX_K) : btok c (2 ^ k + 1) = k + 1 := by
  have hle := btok_le c h (2 ^ k + 1)
  have hl := btok_least c h (2 ^ k + 1) (k + 1) (by omega)
    (by rw [pow_succ]; have := Nat.one_le_two_pow (n := k); omega)
  by_cases hlt : btok c (2 ^ k + 1) < c.MAX_K
  · have hcov := btok_covers c h (2 ^ k + 1) hlt
    have : k < btok c (2 ^ k + 1) := by
      by_contra hh
      have : 2 ^ btok c (2 ^ k + 1) ≤ 2 ^ k := Nat.pow_le_pow_right (by norm_num) (by omega)
      omega
    omega
  · omega

/-- C5: `btok bytes` is the minimum of `MAX_K` and the least class
`k ≥ SMALLEST_K` with `2^k ≥ bytes`: it is the smallest covering class when
`bytes ≤ 2^(MAX_K-1)` and `MAX_K` above that; `btok (2^k) = k` and
`btok (2^k + 1) = k + 1` for `SMALLEST_K ≤ k < MAX_K`, and
`btok 1 = SMALLEST_K`. -/
theorem btok_classify (c : Consts) (hc : c.Valid) :
    (∀ bytes k, IsLeast {j | c.SMALLEST_K ≤ j ∧ bytes ≤ 2 ^ j} k →
      btok c bytes = min c.MAX_K k) ∧
    (∀ bytes, bytes ≤ 2 ^ (c.MAX_K - 1) →
      IsLeast {j | c.SMALLEST_K ≤ j ∧ bytes ≤ 2 ^ j} (btok c bytes)) ∧
    (∀ bytes, 2 ^ (c.MAX_K - 1) < bytes → btok c bytes = c.MAX_K) ∧
    (∀ k, c.SMALLEST_K ≤ k → k < c.MAX_K →
      btok c (2 ^ k) = k ∧ btok c (2 ^ k + 1) = k + 1) ∧
    btok c 1 = c.SMALLEST_K := by
  obtain ⟨h1, h2, h3, h4, h5⟩ := hc
  have h : c.SMALLEST_K ≤ c.MAX_K := by omega
  refine ⟨fun bytes k hk => btok_eq_of_least c h bytes k hk, ?_, ?_,
    fun k hk1 hk2 => ⟨btok_pow c h k hk1 hk2, btok_pow_succ c h k hk1 hk2⟩, ?_⟩
  · intro bytes hb
    have hl := btok_least c h bytes (c.MAX_K - 1) (by omega) hb
    refine ⟨⟨btok_ge c h bytes, btok_covers c h bytes (by omega)⟩, ?_⟩
    intro j hj
    exact btok_least c h bytes j hj.1 hj.2
  · intro bytes hb
    have hle := btok_le c h bytes
    by_contra hne
    have hcov := btok_covers c h bytes (by omega)
    have : 2 ^ btok c bytes ≤ 2 ^ (c.MAX_K - 1) := Nat.pow_le_pow_right (by norm_num) (by omega)
    omega
  · have hl := btok_least c h 1 c.SMALLEST_K (le_refl _) Nat.one_le_two_pow
    have := btok_ge c h 1
    omega

theorem btok_classify_witness :
    labConsts.Valid ∧ btok labConsts 1024 = 10 ∧ btok labConsts 1025 = 11 ∧
      btok labConsts 1 = 6 ∧ btok labConsts (2 ^ 47 + 1) = 48 :=
  ⟨by decide,
   ((btok_classify labConsts (by decide)).2.2.2.1 10 (by decide) (by decide)).1,
   ((btok_classify labConsts (by decide)).2.2.2.1 10 (by decide) (by decide)).2,
   (btok_classify labConsts (by decide)).2.2.2.2,
   (btok_classify labConsts (by decide)).2.2.1 (2 ^ 47 + 1) (by decide)⟩

/-! ## Arithmetic of blocks and buddies -/

theorem xor_pow_of_even (k q : Nat) : (2 ^ (k + 1) * q) ^^^ 2 ^ k = 2 ^ (k + 1) * q + 2 ^ k := by
  apply Nat.eq_of_testBit_eq
  intro i
  have hlt : 2 ^ k < 2 ^ (k + 1) := Nat.pow_lt_pow_right (by norm_num) (by omega)
  rw [Nat.testBit_xor, Nat.testBit_mul_pow_two_add q hlt i, Nat.testBit_mul_pow_two,
    Nat.testBit_two_pow]
  by_cases h1 : i < k + 1
  · have h2 : ¬ (k + 1 ≤ i) := by omega
    simp [h1, h2]
  · have h2 : k + 1 ≤ i := by omega
    have h3 : ¬ (k = i) := by omega
    simp [h1, h2, h3]

theorem xor_pow_of_odd (k q : Nat) :
    (2 ^ (k + 1) * q + 2 ^ k) ^^^ 2 ^ k = 2 ^ (k + 1) * q := by
  rw [← xor_pow_of_even, Nat.xor_assoc, Nat.xor_self, Nat.xor_zero]

/-- An offset that is a multiple of `2^k` is `2^(k+1) * q` or `2^(k+1) * q + 2^k`. -/
theorem dvd_pow_cases (k o : Nat) (h : 2 ^ k ∣ o) :
    ∃ q, o = 2 ^ (k + 1) * q ∨ o = 2 ^ (k + 1) * q + 2 ^ k := by
  obtain ⟨m, rfl⟩ := h
  refine ⟨m / 2, ?_⟩
  rcases Nat.mod_two_eq_zero_or_one m with h0 | h1
  · left
    have : m = 2 * (m / 2) := by omega
    rw [pow_succ, mul_assoc]
    congr 1
  · right
    have : m = 2 * (m / 2) + 1 := by omega
    rw [pow_succ, mul_assoc]
    conv_lhs => rw [this]
    ring

/-- Two blocks whose offsets are multiples of their sizes and that share a byte are nested. -/
theorem dyadic_nested (k k1 o o1 x : Nat) (hk : k1 ≤ k) (h : 2 ^ k ∣ o) (h1 : 2 ^ k1 ∣ o1)
    (hx : o ≤ x ∧ x < o + 2 ^ k) (hx1 : o1 ≤ x ∧ x < o1 + 2 ^ k1) :
    o ≤ o1 ∧ o1 + 2 ^ k1 ≤ o + 2 ^ k := by
  obtain ⟨m, rfl⟩ := h
  obtain ⟨m1, rfl⟩ := h1
  obtain ⟨t, ht⟩ : 2 ^ k1 ∣ 2 ^ k := pow_dvd_pow 2 hk
  rw [ht] at hx ⊢
  have hp : 0 < 2 ^ k1 := Nat.two_pow_pos _
  generalize 2 ^ k1 = P at *
  have e1 : P * t * m = P * (t * m) := by ring
  rw [e1] at hx ⊢
  have h2 : t * m < m1 + 1 := by
    by_contra hh
    have : P * (m1 + 1) ≤ P * (t * m) := Nat.mul_le_mul_left P (by omega)
    rw [Nat.mul_add] at this
    omega
  have h3 : m1 < t * m + t := by
    by_contra hh
    have : P * (t * m + t) ≤ P * m1 := Nat.mul_le_mul_left P (by omega)
    rw [Nat.mul_add] at this
    omega
  constructor
  · exact Nat.mul_le_mul_left P (by omega)
  · have : P * (m1 + 1) ≤ P * (t * m + t) := Nat.mul_le_mul_left P (by omega)
    rw [Nat.mul_add, Nat.mul_add] at this
    omega

theorem buddyAddr_involutive (base a k : Nat) :
    buddyAddr base (buddyAddr base a k) k = base + (a - base) := by
  unfold buddyAddr
  rw [Nat.add_sub_cancel_left, Nat.xor_assoc, Nat.xor_self, Nat.xor_zero]

theorem buddyAddr_ne (base a k : Nat) (h : base ≤ a) : buddyAddr base a k ≠ a := by
  unfold buddyAddr
  intro he
  have h1 : (a - base) ^^^ 2 ^ k = a - base := by omega
  have h2 : ((a - base) ^^^ (a - base)) ^^^ 2 ^ k = (a - base) ^^^ (a - base) := by
    rw [Nat.xor_assoc, h1]
  rw [Nat.xor_self, Nat.zero_xor] at h2
  have := Nat.two_pow_pos k
  omega

theorem pow_succ_le_of_lt (k M q : Nat) (hk : k < M) (h : 2 ^ (k + 1) * q < 2 ^ M) :
    2 ^ (k + 1) * q + 2 ^ (k + 1) ≤ 2 ^ M := by
  obtain ⟨t, ht⟩ : 2 ^ (k + 1) ∣ 2 ^ M := pow_dvd_pow 2 (by omega)
  rw [ht] at h ⊢
  have hq : q < t := lt_of_mul_lt_mul_left h (Nat.zero_le _)
  have : 2 ^ (k + 1) * (q + 1) ≤ 2 ^ (k + 1) * t := Nat.mul_le_mul_left _ (by omega)
  rw [Nat.mul_add] at this
  omega

/-- The buddy of a block of a class below the top class is the other half of
the enclosing block of the next class. -/
theorem buddy_cases (c : Consts) (base M a k : Nat) (h : IsBlock c base M a k) (hk : k < M) :
    (buddyAddr base a k = a + 2 ^ k ∧ 2 ^ (k + 1) ∣ (a - base) ∧
      a + 2 ^ (k + 1) ≤ base + 2 ^ M) ∨
    (buddyAddr base a k + 2 ^ k = a ∧ base ≤ buddyAddr base a k ∧
      2 ^ (k + 1) ∣ (buddyAddr base a k - base) ∧
      buddyAddr base a k + 2 ^ (k + 1) ≤ base + 2 ^ M) := by
  obtain ⟨h1, h2, h3, h4, h5⟩ := h
  have hp : 0 < 2 ^ k := Nat.two_pow_pos k
  have h2k : 2 ^ (k + 1) = 2 * 2 ^ k := by rw [pow_succ]; ring
  obtain ⟨q, hq | hq⟩ := dvd_pow_cases k (a - base) h4
  · left
    have hx : buddyAddr base a k = a + 2 ^ k := by
      unfold buddyAddr
      rw [hq, xor_pow_of_even, ← hq]
      omega
    refine ⟨hx, ⟨q, hq⟩, ?_⟩
    have : 2 ^ (k + 1) * q < 2 ^ M := by omega
    have := pow_succ_le_of_lt k M q hk this
    omega
  · right
    have hx : buddyAddr base a k = base + 2 ^ (k + 1) * q := by
      unfold buddyAddr
      rw [hq, xor_pow_of_odd]
    rw [hx]
    refine ⟨by omega, by omega, ⟨q, by omega⟩, by omega⟩

theorem isBlock_buddy (c : Consts) (base M a k : Nat) (h : IsBlock c base M a k) (hk : k < M) :
    IsBlock c base M (buddyAddr base a k) k := by
  have hc := buddy_cases c base M a k h hk
  obtain ⟨h1, h2, h3, h4, h5⟩ := h
  have h2k : 2 ^ (k + 1) = 2 * 2 ^ k := by rw [pow_succ]; ring
  rcases hc with ⟨e, d, l⟩ | ⟨e, b, d, l⟩
  · refine ⟨h1, h2, by omega, ?_, by omega⟩
    rw [e]
    have : a + 2 ^ k - base = (a - base) + 2 ^ k := by omega
    rw [this]
    exact Dvd.dvd.add h4 (dvd_refl _)
  · refine ⟨h1, h2, b, ?_, by omega⟩
    exact Dvd.dvd.trans (pow_dvd_pow 2 (by omega)) d

theorem isBlock_merge (c : Consts) (base M a k : Nat) (h : IsBlock c base M a k) (hk : k < M) :
    IsBlock c base M (min a (buddyAddr base a k)) (k + 1) := by
  have hc := buddy_cases c base M a k h hk
  obtain ⟨h1, h2, h3, h4, h5⟩ := h
  have hp : 0 < 2 ^ k := Nat.two_pow_pos k
  rcases hc with ⟨e, d, l⟩ | ⟨e, b, d, l⟩
  · have : min a (buddyAddr base a k) = a := by omega
    rw [this]
    exact ⟨by omega, by omega, h3, d, l⟩
  · have : min a (buddyAddr base a k) = buddyAddr base a k := by omega
    rw [this]
    exact ⟨by omega, by omega, b, d, l⟩

theorem isBlock_lower (c : Consts) (base M a k : Nat) (h : IsBlock c base M a (k + 1))
    (hk : c.SMALLEST_K ≤ k) : IsBlock c base M a k := by
  obtain ⟨h1, h2, h3, h4, h5⟩ := h
  have h2k : 2 ^ (k + 1) = 2 * 2 ^ k := by rw [pow_succ]; ring
  exact ⟨hk, by omega, h3, Dvd.dvd.trans (pow_dvd_pow 2 (by omega)) h4, by omega⟩

theorem isBlock_upper (c : Consts) (base M a k : Nat) (h : IsBlock c base M a (k + 1))
    (hk : c.SMALLEST_K ≤ k) : IsBlock c base M (a + 2 ^ k) k := by
  obtain ⟨h1, h2, h3, h4, h5⟩ := h
  have h2k : 2 ^ (k + 1) = 2 * 2 ^ k := by rw [pow_succ]; ring
  refine ⟨hk, by omega, by omega, ?_, by omega⟩
  have : a + 2 ^ k - base = (a - base) + 2 ^ k := by omega
  rw [this]
  exact Dvd.dvd.add (Dvd.dvd.trans (pow_dvd_pow 2 (by omega)) h4) (dvd_refl _)

/-- The buddy of the upper half of a block is its lower half. -/
theorem buddy_upper (c : Consts) (base M a k : Nat) (h : IsBlock c base M a (k + 1)) :
    buddyAddr base (a + 2 ^ k) k = a := by
  obtain ⟨h1, h2, h3, ⟨q, hq⟩, h5⟩ := h
  have hp : 0 < 2 ^ k := Nat.two_pow_pos k
  unfold buddyAddr
  have : a + 2 ^ k - base = (a - base) + 2 ^ k := by omega
  rw [this, hq, xor_pow_of_odd, ← hq]
  omega

/-- The buddy of the lower half of a block is its upper half. -/
theorem buddy_lower (c : Consts) (base M a k : Nat) (h : IsBlock c base M a (k + 1)) :
    buddyAddr base a k = a + 2 ^ k := by
  obtain ⟨h1, h2, h3, ⟨q, hq⟩, h5⟩ := h
  have hp : 0 < 2 ^ k := Nat.two_pow_pos k
  unfold buddyAddr
  rw [hq, xor_pow_of_even, ← hq]
  omega

/-- Two blocks of the arena that share a byte are nested. -/
theorem isBlock_nested (c : Consts) (base M a k a1 k1 x : Nat) (h : IsBlock c base M a k)
    (h1 : IsBlock c base M a1 k1) (hk : k1 ≤ k) (hx : a ≤ x ∧ x < a + 2 ^ k)
    (hx1 : a1 ≤ x ∧ x < a1 + 2 ^ k1) : a ≤ a1 ∧ a1 + 2 ^ k1 ≤ a + 2 ^ k := by
  obtain ⟨-, -, b, d, -⟩ := h
  obtain ⟨-, -, b1, d1, -⟩ := h1
  have := dyadic_nested k k1 (a - base) (a1 - base) (x - base) hk d d1 (by omega) (by omega)
  omega


/-! ## The tiling under the steps of the operations -/

theorem mem_update_erase {fl : Nat → List Nat} {k a x j : Nat}
    (h : x ∈ Function.update fl k ((fl k).erase a) j) : x ∈ fl j := by
  by_cases hj : j = k
  · subst hj
    rw [Function.update_same] at h
    exact List.mem_of_mem_erase h
  · rwa [Function.update_noteq hj] at h

theorem live_take (fl : Nat → List Nat) (res : List (Nat × Nat)) (a k : Nat)
    (hn : (fl k).Nodup) (ha : a ∈ fl k) (x j : Nat) :
    Live (Function.update fl k ((fl k).erase a)) res (some (a, k)) x j ↔
      Live fl res none x j := by
  unfold Live
  by_cases hj : j = k
  · subst hj
    rw [Function.update_same, hn.mem_erase_iff]
    constructor
    · rintro (⟨-, h⟩ | h | h)
      · exact Or.inl h
      · exact Or.inr (Or.inl h)
      · simp only [Option.some.injEq, Prod.mk.injEq] at h
        rw [← h.1]
        exact Or.inl ha
    · rintro (h | h | h)
      · by_cases hx : x = a
        · subst hx
          exact Or.inr (Or.inr rfl)
        · exact Or.inl ⟨hx, h⟩
      · exact Or.inr (Or.inl h)
      · simp at h
  · rw [Function.update_noteq hj]
    constructor
    · rintro (h | h | h)
      · exact Or.inl h
      · exact Or.inr (Or.inl h)
      · simp only [Option.some.injEq, Prod.mk.injEq] at h
        exact absurd h.2.symm hj
    · rintro (h | h | h)
      · exact Or.inl h
      · exact Or.inr (Or.inl h)
      · simp at h

/-- Taking a block off its free list keeps the tiling; the block is in hand. -/
theorem tiling_take (c : Consts) (base M : Nat) (fl : Nat → List Nat) (res : List (Nat × Nat))
    (a k : Nat) (T : Tiling c base M fl res none) (ha : a ∈ fl k) :
    Tiling c base M (Function.update fl k ((fl k).erase a)) res (some (a, k)) := by
  have hl := live_take fl res a k (T.nodup k) ha
  refine ⟨?_, ?_, T.res_nodup, ?_, ?_, ?_, ?_, ?_⟩
  · intro x j h
    exact T.block x j ((hl x j).1 h)
  · intro j
    by_cases hj : j = k
    · subst hj
      rw [Function.update_same]
      exact (T.nodup j).erase a
    · rw [Function.update_noteq hj]
      exact T.nodup j
  · intro x j h hm
    exact T.res_free x j h (mem_update_erase hm)
  · intro x j h
    simp only [Option.some.injEq, Prod.mk.injEq] at h
    obtain ⟨h1, h2⟩ := h
    subst h1 h2
    rw [Function.update_same]
    exact ⟨(T.nodup k).not_mem_erase, fun hr => T.res_free a k hr ha⟩
  · intro x j x1 j1 h h1 hne
    exact T.disjoint x j x1 j1 ((hl x j).1 h) ((hl x1 j1).1 h1) hne
  · intro x hx1 hx2
    obtain ⟨y, j, h, hy⟩ := T.cover x hx1 hx2
    exact ⟨y, j, (hl y j).2 h, hy⟩
  · intro j x hx hj hb
    exact T.eager j x (mem_update_erase hx) hj (mem_update_erase hb)

theorem live_reserve (fl : Nat → List Nat) (res : List (Nat × Nat)) (a k x j : Nat) :
    Live fl ((a, k) :: res) none x j ↔ Live fl res (some (a, k)) x j := by
  unfold Live
  simp only [List.mem_cons, Prod.mk.injEq, Option.some.injEq]
  constructor
  · rintro (h | (h | h) | h)
    · exact Or.inl h
    · exact Or.inr (Or.inr ⟨h.1.symm, h.2.symm⟩)
    · exact Or.inr (Or.inl h)
    · simp at h
  · rintro (h | h | h)
    · exact Or.inl h
    · exact Or.inr (Or.inl (Or.inr h))
    · exact Or.inr (Or.inl (Or.inl ⟨h.1.symm, h.2.symm⟩))

/-- Handing out the block in hand keeps the tiling; the block is reserved. -/
theorem tiling_reserve (c : Consts) (base M : Nat) (fl : Nat → List Nat)
    (res : List (Nat × Nat)) (a k : Nat) (T : Tiling c base M fl res (some (a, k))) :
    Tiling c base M fl ((a, k) :: res) none := by
  have hl := live_reserve fl res a k
  refine ⟨?_, T.nodup, ?_, ?_, ?_, ?_, ?_, T.eager⟩
  · intro x j h
    exact T.block x j ((hl x j).1 h)
  · exact List.nodup_cons.2 ⟨(T.hold_free a k rfl).2, T.res_nodup⟩
  · intro x j h
    rcases List.mem_cons.1 h with h | h
    · simp only [Prod.mk.injEq] at h
      obtain ⟨rfl, rfl⟩ := h
      exact (T.hold_free x j rfl).1
    · exact T.res_free x j h
  · intro x j h
    simp at h
  · intro x j x1 j1 h h1 hne
    exact T.disjoint x j x1 j1 ((hl x j).1 h) ((hl x1 j1).1 h1) hne
  · intro x hx1 hx2
    obtain ⟨y, j, h, hy⟩ := T.cover x hx1 hx2
    exact ⟨y, j, (hl y j).2 h, hy⟩

theorem live_release (fl : Nat → List Nat) (res : List (Nat × Nat)) (a k : Nat)
    (hn : res.Nodup) (ha : (a, k) ∈ res) (x j : Nat) :
    Live fl (res.erase (a, k)) (some (a, k)) x j ↔ Live fl res none x j := by
  unfold Live
  rw [hn.mem_erase_iff]
  simp only [Option.some.injEq, Prod.mk.injEq]
  constructor
  · rintro (h | ⟨-, h⟩ | h)
    · exact Or.inl h
    · exact Or.inr (Or.inl h)
    · obtain ⟨rfl, rfl⟩ := h
      exact Or.inr (Or.inl ha)
  · rintro (h | h | h)
    · exact Or.inl h
    · by_cases hx : (x, j) = (a, k)
      · simp only [Prod.mk.injEq] at hx
        exact Or.inr (Or.inr ⟨hx.1.symm, hx.2.symm⟩)
      · exact Or.inr (Or.inl ⟨hx, h⟩)
    · simp at h

/-- Taking back a reserved block keeps the tiling; the block is in hand. -/
theorem tiling_release (c : Consts) (base M : Nat) (fl : Nat → List Nat)
    (res : List (Nat × Nat)) (a k : Nat) (T : Tiling c base M fl res none)
    (ha : (a, k) ∈ res) : Tiling c base M fl (res.erase (a, k)) (some (a, k)) := by
  have hl := live_release fl res a k T.res_nodup ha
  refine ⟨?_, T.nodup, T.res_nodup.erase _, ?_, ?_, ?_, ?_, T.eager⟩
  · intro x j h
    exact T.block x j ((hl x j).1 h)
  · intro x j h
    exact T.res_free x j (List.mem_of_mem_erase h)
  · intro x j h
    simp only [Option.some.injEq, Prod.mk.injEq] at h
    obtain ⟨h1, h2⟩ := h
    subst h1 h2
    exact ⟨T.res_free a k ha, T.res_nodup.not_mem_erase⟩
  · intro x j x1 j1 h h1 hne
    exact T.disjoint x j x1 j1 ((hl x j).1 h) ((hl x1 j1).1 h1) hne
  · intro x hx1 hx2
    obtain ⟨y, j, h, hy⟩ := T.cover x hx1 hx2
    exact ⟨y, j, (hl y j).2 h, hy⟩


theorem live_put (fl : Nat → List Nat) (res : List (Nat × Nat)) (b k x j : Nat) :
    Live (Function.update fl k (b :: fl k)) res none x j ↔
      Live fl res (some (b, k)) x j := by
  unfold Live
  by_cases hj : j = k
  · subst hj
    rw [Function.update_same]
    simp only [List.mem_cons, Option.some.injEq, Prod.mk.injEq]
    constructor
    · rintro ((h | h) | h | h)
      · exact Or.inr (Or.inr ⟨h.symm, trivial⟩)
      · exact Or.inl h
      · exact Or.inr (Or.inl h)
      · simp at h
    · rintro (h | h | h)
      · exact Or.inl (Or.inr h)
      · exact Or.inr (Or.inl h)
      · exact Or.inl (Or.inl h.1.symm)
  · rw [Function.update_noteq hj]
    simp only [Option.some.injEq, Prod.mk.injEq]
    constructor
    · rintro (h | h | h)
      · exact Or.inl h
      · exact Or.inr (Or.inl h)
      · simp at h
    · rintro (h | h | h)
      · exact Or.inl h
      · exact Or.inr (Or.inl h)
      · exact absurd h.2.symm hj

/-- Putting the block in hand on the free list of its class keeps the tiling,
when its buddy is not free in that class. -/
theorem tiling_put (c : Consts) (base M : Nat) (fl : Nat → List Nat) (res : List (Nat × Nat))
    (b k : Nat) (T : Tiling c base M fl res (some (b, k)))
    (hb : k < M → buddyAddr base b k ∉ fl k) :
    Tiling c base M (Function.update fl k (b :: fl k)) res none := by
  have hl := live_put fl res b k
  have hB : IsBlock c base M b k := T.block b k (Or.inr (Or.inr rfl))
  refine ⟨?_, ?_, T.res_nodup, ?_, ?_, ?_, ?_, ?_⟩
  · intro x j h
    exact T.block x j ((hl x j).1 h)
  · intro j
    by_cases hj : j = k
    · subst hj
      rw [Function.update_same]
      exact List.nodup_cons.2 ⟨(T.hold_free b j rfl).1, T.nodup j⟩
    · rw [Function.update_noteq hj]
      exact T.nodup j
  · intro x j h
    by_cases hj : j = k
    · subst hj
      rw [Function.update_same]
      intro hm
      rcases List.mem_cons.1 hm with hm | hm
      · subst hm
        exact (T.hold_free x j rfl).2 h
      · exact T.res_free x j h hm
    · rw [Function.update_noteq hj]
      exact T.res_free x j h
  · intro x j h
    simp at h
  · intro x j x1 j1 h h1 hne
    exact T.disjoint x j x1 j1 ((hl x j).1 h) ((hl x1 j1).1 h1) hne
  · intro x hx1 hx2
    obtain ⟨y, j, h, hy⟩ := T.cover x hx1 hx2
    exact ⟨y, j, (hl y j).2 h, hy⟩
  · intro j x hx hjM
    by_cases hj : j = k
    · subst hj
      rw [Function.update_same] at hx ⊢
      intro hm
      rcases List.mem_cons.1 hx with hx | hx
      · subst hx
        rcases List.mem_cons.1 hm with hm | hm
        · exact buddyAddr_ne base x j hB.2.2.1 hm
        · exact hb hjM hm
      · have hxB : IsBlock c base M x j := T.block x j (Or.inl hx)
        rcases List.mem_cons.1 hm with hm | hm
        · have hinv := buddyAddr_involutive base x j
          rw [hm] at hinv
          have : buddyAddr base b j = x := by
            rw [hinv]
            have := hxB.2.2.1
            omega
          exact hb hjM (this ▸ hx)
        · exact T.eager j x hx hjM hm
    · rw [Function.update_noteq hj] at hx ⊢
      exact T.eager j x hx hjM

/-- The lower half and the upper half of the block in hand. -/
theorem tiling_split (c : Consts) (base M : Nat) (fl : Nat → List Nat)
    (res : List (Nat × Nat)) (B j : Nat) (T : Tiling c base M fl res (some (B, j + 1)))
    (hj : c.SMALLEST_K ≤ j) :
    Tiling c base M (Function.update fl j ((B + 2 ^ j) :: fl j)) res (some (B, j)) := by
  have hB : IsBlock c base M B (j + 1) := T.block B (j + 1) (Or.inr (Or.inr rfl))
  have hp : 0 < 2 ^ j := Nat.two_pow_pos j
  have h2 : 2 ^ (j + 1) = 2 * 2 ^ j := by rw [pow_succ]; ring
  have hH : Live fl res (some (B, j + 1)) B (j + 1) := Or.inr (Or.inr rfl)
  -- a block that existed before and is not the block in hand lies outside it
  have hout : ∀ x i, (x ∈ fl i ∨ (x, i) ∈ res) → x + 2 ^ i ≤ B ∨ B + 2 ^ (j + 1) ≤ x := by
    intro x i h
    have hL : Live fl res (some (B, j + 1)) x i := by
      rcases h with h | h
      · exact Or.inl h
      · exact Or.inr (Or.inl h)
    have hne : (x, i) ≠ (B, j + 1) := by
      intro he
      simp only [Prod.mk.injEq] at he
      obtain ⟨e1, e2⟩ := he
      subst e1 e2
      rcases h with h | h
      · exact (T.hold_free x (j + 1) rfl).1 h
      · exact (T.hold_free x (j + 1) rfl).2 h
    exact T.disjoint x i B (j + 1) hL hH hne
  have hpos : ∀ i : Nat, 0 < 2 ^ i := fun i => Nat.two_pow_pos i
  -- the blocks after the split
  have hcase : ∀ x i, Live (Function.update fl j ((B + 2 ^ j) :: fl j)) res (some (B, j)) x i →
      (x ∈ fl i ∨ (x, i) ∈ res) ∨ (x = B + 2 ^ j ∧ i = j) ∨ (x = B ∧ i = j) := by
    intro x i h
    rcases h with h | h | h
    · by_cases hi : i = j
      · subst hi
        rw [Function.update_same] at h
        rcases List.mem_cons.1 h with h | h
        · exact Or.inr (Or.inl ⟨h, rfl⟩)
        · exact Or.inl (Or.inl h)
      · rw [Function.update_noteq hi] at h
        exact Or.inl (Or.inl h)
    · exact Or.inl (Or.inr h)
    · simp only [Option.some.injEq, Prod.mk.injEq] at h
      exact Or.inr (Or.inr ⟨h.1.symm, h.2.symm⟩)
  have hnotfree : B + 2 ^ j ∉ fl j := by
    intro h
    have := hout (B + 2 ^ j) j (Or.inl h)
    omega
  have hBfree : B ∉ fl j := by
    intro h
    have := hout B j (Or.inl h)
    omega
  refine ⟨?_, ?_, T.res_nodup, ?_, ?_, ?_, ?_, ?_⟩
  · intro x i h
    rcases hcase x i h with h | ⟨rfl, rfl⟩ | ⟨rfl, rfl⟩
    · rcases h with h | h
      · exact T.block x i (Or.inl h)
      · exact T.block x i (Or.inr (Or.inl h))
    · exact isBlock_upper c base M B _ hB hj
    · exact isBlock_lower c base M _ _ hB hj
  · intro i
    by_cases hi : i = j
    · subst hi
      rw [Function.update_same]
      exact List.nodup_cons.2 ⟨hnotfree, T.nodup i⟩
    · rw [Function.update_noteq hi]
      exact T.nodup i
  · intro x i h
    by_cases hi : i = j
    · subst hi
      rw [Function.update_same]
      intro hm
      rcases List.mem_cons.1 hm with hm | hm
      · subst hm
        have := hout (B + 2 ^ i) i (Or.inr h)
        omega
      · exact T.res_free x i h hm
    · rw [Function.update_noteq hi]
      exact T.res_free x i h
  · intro x i h
    simp only [Option.some.injEq, Prod.mk.injEq] at h
    obtain ⟨e1, e2⟩ := h
    subst e1 e2
    rw [Function.update_same]
    refine ⟨?_, ?_⟩
    · intro hm
      rcases List.mem_cons.1 hm with hm | hm
      · omega
      · exact hBfree hm
    · intro hr
      have := hout B j (Or.inr hr)
      omega
  · intro x i x1 i1 h h1 hne
    have hc := hcase x i h
    have hc1 := hcase x1 i1 h1
    clear h h1
    have hpi := hpos i
    have hpi1 := hpos i1
    rcases hc with hc | ⟨e1, e2⟩ | ⟨e1, e2⟩ <;>
      rcases hc1 with hc1 | ⟨e3, e4⟩ | ⟨e3, e4⟩
    · have hL : Live fl res (some (B, j + 1)) x i := by
        rcases hc with h | h
        · exact Or.inl h
        · exact Or.inr (Or.inl h)
      have hL1 : Live fl res (some (B, j + 1)) x1 i1 := by
        rcases hc1 with h1 | h1
        · exact Or.inl h1
        · exact Or.inr (Or.inl h1)
      exact T.disjoint x i x1 i1 hL hL1 hne
    · have := hout x i hc
      subst e3 e4
      omega
    · have := hout x i hc
      subst e3 e4
      omega
    · have := hout x1 i1 hc1
      subst e1 e2
      omega
    · subst e1 e2 e3 e4
      exact absurd rfl hne
    · subst e1 e2 e3 e4
      omega
    · have := hout x1 i1 hc1
      subst e1 e2
      omega
    · subst e1 e2 e3 e4
      omega
    · subst e1 e2 e3 e4
      exact absurd rfl hne
  · intro x hx1 hx2
    obtain ⟨y, i, h, hy⟩ := T.cover x hx1 hx2
    rcases h with h | h | h
    · by_cases hi : i = j
      · subst hi
        refine ⟨y, i, Or.inl ?_, hy⟩
        rw [Function.update_same]
        exact List.mem_cons_of_mem _ h
      · refine ⟨y, i, Or.inl ?_, hy⟩
        rw [Function.update_noteq hi]
        exact h
    · exact ⟨y, i, Or.inr (Or.inl h), hy⟩
    · simp only [Option.some.injEq, Prod.mk.injEq] at h
      obtain ⟨e1, e2⟩ := h
      subst e1 e2
      by_cases hlow : x < B + 2 ^ j
      · exact ⟨B, j, Or.inr (Or.inr rfl), hy.1, hlow⟩
      · refine ⟨B + 2 ^ j, j, Or.inl ?_, by omega, by omega⟩
        rw [Function.update_same]
        exact List.mem_cons_self _ _
  · intro i x hx hiM
    by_cases hi : i = j
    · subst hi
      rw [Function.update_same] at hx ⊢
      intro hm
      rcases List.mem_cons.1 hx with hx | hx
      · subst hx
        rw [buddy_upper c base M B i hB] at hm
        rcases List.mem_cons.1 hm with hm | hm
        · omega
        · exact hBfree hm
      · have hxB : IsBlock c base M x i := T.block x i (Or.inl hx)
        rcases List.mem_cons.1 hm with hm | hm
        · have hinv := buddyAddr_involutive base x i
          rw [hm, buddy_upper c base M B i hB] at hinv
          have := hxB.2.2.1
          have : x = B := by omega
          rw [this] at hx
          exact hBfree hx
        · exact T.eager i x hx hiM hm
    · rw [Function.update_noteq hi] at hx ⊢
      exact T.eager i x hx hiM


/-- The buddy of an existing block of a class below the top class is the start
of an existing block of the same or a smaller class. -/
theorem tiling_buddy_live (c : Consts) (base M : Nat) (fl : Nat → List Nat)
    (res : List (Nat × Nat)) (hold : Option (Nat × Nat)) (T : Tiling c base M fl res hold)
    (b k : Nat) (hb : Live fl res hold b k) (hk : k < M) :
    ∃ k1, k1 ≤ k ∧ Live fl res hold (buddyAddr base b k) k1 := by
  have hB := T.block b k hb
  have hB1 := isBlock_buddy c base M b k hB hk
  have hM := isBlock_merge c base M b k hB hk
  have hcs := buddy_cases c base M b k hB hk
  have hp : 0 < 2 ^ k := Nat.two_pow_pos k
  have h2 : 2 ^ (k + 1) = 2 * 2 ^ k := by rw [pow_succ]; ring
  obtain ⟨a1, k1, hL, hx1, hx2⟩ := T.cover (buddyAddr base b k) hB1.2.2.1 (by
    have := hB1.2.2.2.2
    omega)
  have hA := T.block a1 k1 hL
  by_cases hle : k1 ≤ k
  · have hn := isBlock_nested c base M (buddyAddr base b k) k a1 k1 (buddyAddr base b k) hB1 hA
      hle ⟨le_refl _, by omega⟩ ⟨hx1, hx2⟩
    have : a1 = buddyAddr base b k := by omega
    subst this
    exact ⟨k1, hle, hL⟩
  · exfalso
    have hne : (a1, k1) ≠ (b, k) := by
      intro he
      simp only [Prod.mk.injEq] at he
      omega
    have hd := T.disjoint a1 k1 b k hL hb hne
    have hn := isBlock_nested c base M a1 k1 (min b (buddyAddr base b k)) (k + 1)
      (buddyAddr base b k) hA hM (by omega) ⟨hx1, hx2⟩ (by
        rcases hcs with ⟨e, -, -⟩ | ⟨e, -, -, -⟩
        · have : min b (buddyAddr base b k) = b := by omega
          rw [this]; omega
        · have : min b (buddyAddr base b k) = buddyAddr base b k := by omega
          rw [this]; omega)
    rcases hcs with ⟨e, -, -⟩ | ⟨e, -, -, -⟩
    · have : min b (buddyAddr base b k) = b := by omega
      rw [this] at hn; omega
    · have : min b (buddyAddr base b k) = buddyAddr base b k := by omega
      rw [this] at hn; omega

/-- Merging the block in hand with its free buddy keeps the tiling; the merged
block of the next class is in hand. -/
theorem tiling_merge (c : Consts) (base M : Nat) (fl : Nat → List Nat)
    (res : List (Nat × Nat)) (b k : Nat) (T : Tiling c base M fl res (some (b, k)))
    (hk : k < M) (hb : buddyAddr base b k ∈ fl k) :
    Tiling c base M (Function.update fl k ((fl k).erase (buddyAddr base b k))) res
      (some (min b (buddyAddr base b k), k + 1)) := by
  have hH : Live fl res (some (b, k)) b k := Or.inr (Or.inr rfl)
  have hF : Live fl res (some (b, k)) (buddyAddr base b k) k := Or.inl hb
  have hB := T.block b k hH
  have hM := isBlock_merge c base M b k hB hk
  have hcs := buddy_cases c base M b k hB hk
  have hp : 0 < 2 ^ k := Nat.two_pow_pos k
  have h2 : 2 ^ (k + 1) = 2 * 2 ^ k := by rw [pow_succ]; ring
  have hpos : ∀ i : Nat, 0 < 2 ^ i := fun i => Nat.two_pow_pos i
  have hmin : (buddyAddr base b k = b + 2 ^ k ∧ min b (buddyAddr base b k) = b) ∨
      (buddyAddr base b k + 2 ^ k = b ∧ min b (buddyAddr base b k) = buddyAddr base b k) := by
    rcases hcs with ⟨e, -, -⟩ | ⟨e, -, -, -⟩
    · left; exact ⟨e, by omega⟩
    · right; exact ⟨e, by omega⟩
  generalize buddyAddr base b k = b1 at *
  generalize min b b1 = m at *
  -- a block that stays lies outside the merged block
  have hout : ∀ x i, (x ∈ Function.update fl k ((fl k).erase b1) i ∨ (x, i) ∈ res) →
      x + 2 ^ i ≤ m ∨ m + 2 ^ (k + 1) ≤ x := by
    intro x i h
    have hL : Live fl res (some (b, k)) x i := by
      rcases h with h | h
      · exact Or.inl (mem_update_erase h)
      · exact Or.inr (Or.inl h)
    have hne : (x, i) ≠ (b, k) := by
      intro he
      simp only [Prod.mk.injEq] at he
      obtain ⟨e1, e2⟩ := he
      subst e1 e2
      rcases h with h | h
      · exact (T.hold_free x i rfl).1 (mem_update_erase h)
      · exact (T.hold_free x i rfl).2 h
    have hne1 : (x, i) ≠ (b1, k) := by
      intro he
      simp only [Prod.mk.injEq] at he
      obtain ⟨e1, e2⟩ := he
      subst e1 e2
      rcases h with h | h
      · rw [Function.update_same] at h
        exact (T.nodup i).not_mem_erase h
      · exact T.res_free x i h hb
    have d1 := T.disjoint x i b k hL hH hne
    have d2 := T.disjoint x i b1 k hL hF hne1
    have := hpos i
    omega
  refine ⟨?_, ?_, T.res_nodup, ?_, ?_, ?_, ?_, ?_⟩
  · intro x i h
    rcases h with h | h | h
    · exact T.block x i (Or.inl (mem_update_erase h))
    · exact T.block x i (Or.inr (Or.inl h))
    · simp only [Option.some.injEq, Prod.mk.injEq] at h
      obtain ⟨e1, e2⟩ := h
      subst e1 e2
      exact hM
  · intro i
    by_cases hi : i = k
    · subst hi
      rw [Function.update_same]
      exact (T.nodup i).erase _
    · rw [Function.update_noteq hi]
      exact T.nodup i
  · intro x i h hm
    exact T.res_free x i h (mem_update_erase hm)
  · intro x i h
    simp only [Option.some.injEq, Prod.mk.injEq] at h
    obtain ⟨e1, e2⟩ := h
    subst e1 e2
    refine ⟨?_, ?_⟩
    · intro hm
      have := hout m (k + 1) (Or.inl hm)
      omega
    · intro hr
      have := hout m (k + 1) (Or.inr hr)
      omega
  · intro x i x1 i1 h h1 hne
    have hpi := hpos i
    have hpi1 := hpos i1
    have hc : (x ∈ Function.update fl k ((fl k).erase b1) i ∨ (x, i) ∈ res) ∨
        (x = m ∧ i = k + 1) := by
      rcases h with h | h | h
      · exact Or.inl (Or.inl h)
      · exact Or.inl (Or.inr h)
      · simp only [Option.some.injEq, Prod.mk.injEq] at h
        exact Or.inr ⟨h.1.symm, h.2.symm⟩
    have hc1 : (x1 ∈ Function.update fl k ((fl k).erase b1) i1 ∨ (x1, i1) ∈ res) ∨
        (x1 = m ∧ i1 = k + 1) := by
      rcases h1 with h | h | h
      · exact Or.inl (Or.inl h)
      · exact Or.inl (Or.inr h)
      · simp only [Option.some.injEq, Prod.mk.injEq] at h
        exact Or.inr ⟨h.1.symm, h.2.symm⟩
    clear h h1
    rcases hc with hc | ⟨e1, e2⟩ <;> rcases hc1 with hc1 | ⟨e3, e4⟩
    · have hL : Live fl res (some (b, k)) x i := by
        rcases hc with h | h
        · exact Or.inl (mem_update_erase h)
        · exact Or.inr (Or.inl h)
      have hL1 : Live fl res (some (b, k)) x1 i1 := by
        rcases hc1 with h1 | h1
        · exact Or.inl (mem_update_erase h1)
        · exact Or.inr (Or.inl h1)
      exact T.disjoint x i x1 i1 hL hL1 hne
    · have := hout x i hc
      subst e3 e4
      omega
    · have := hout x1 i1 hc1
      subst e1 e2
      omega
    · subst e1 e2 e3 e4
      exact absurd rfl hne
  · intro x hx1 hx2
    obtain ⟨y, i, h, hy⟩ := T.cover x hx1 hx2
    rcases h with h | h | h
    · by_cases hyb : y = b1 ∧ i = k
      · obtain ⟨e1, e2⟩ := hyb
        subst e1 e2
        exact ⟨m, i + 1, Or.inr (Or.inr rfl), by omega, by omega⟩
      · refine ⟨y, i, Or.inl ?_, hy⟩
        by_cases hi : i = k
        · subst hi
          rw [Function.update_same, (T.nodup i).mem_erase_iff]
          exact ⟨fun he => hyb ⟨he, rfl⟩, h⟩
        · rw [Function.update_noteq hi]
          exact h
    · exact ⟨y, i, Or.inr (Or.inl h), hy⟩
    · simp only [Option.some.injEq, Prod.mk.injEq] at h
      obtain ⟨e1, e2⟩ := h
      subst e1 e2
      exact ⟨m, k + 1, Or.inr (Or.inr rfl), by omega, by omega⟩
  · intro i x hx hiM hm
    exact T.eager i x (mem_update_erase hx) hiM (mem_update_erase hm)


/-- The free lists right after `buddy_init`: the one block at `base` on the
list of the top class. -/
theorem tiling_init (c : Consts) (base M : Nat) (hM : c.SMALLEST_K ≤ M) :
    Tiling c base M (fun k => if k = M then [base] else []) [] none := by
  have hmem : ∀ a k, a ∈ (fun k => if k = M then [base] else []) k → a = base ∧ k = M := by
    intro a k h
    by_cases hk : k = M
    · simp only [hk, if_true, List.mem_singleton] at h
      exact ⟨h, hk⟩
    · simp [hk] at h
  have hlive : ∀ a k, Live (fun k => if k = M then [base] else []) [] none a k →
      a = base ∧ k = M := by
    intro a k h
    rcases h with h | h | h
    · exact hmem a k h
    · simp at h
    · simp at h
  refine ⟨?_, ?_, List.nodup_nil, ?_, ?_, ?_, ?_, ?_⟩
  · intro a k h
    obtain ⟨rfl, rfl⟩ := hlive a k h
    exact ⟨hM, le_refl _, le_refl _, by simp, le_refl _⟩
  · intro k
    by_cases hk : k = M
    · simp [hk]
    · simp [hk]
  · intro a k h
    simp at h
  · intro a k h
    simp at h
  · intro a k a1 k1 h h1 hne
    obtain ⟨e1, e2⟩ := hlive a k h
    obtain ⟨e3, e4⟩ := hlive a1 k1 h1
    subst e1 e2 e3 e4
    exact absurd rfl hne
  · intro x h1 h2
    exact ⟨base, M, Or.inl (by simp), h1, h2⟩
  · intro k a h hk
    have := (hmem a k h).2
    omega

theorem list_eq_singleton (l : List Nat) (b : Nat) (hn : l.Nodup) (hall : ∀ x ∈ l, x = b)
    (hb : b ∈ l) : l = [b] := by
  cases l with
  | nil => simp at hb
  | cons x l1 =>
    have hx : x = b := hall x (List.mem_cons_self _ _)
    subst hx
    cases l1 with
    | nil => rfl
    | cons y l2 =>
      exfalso
      have hy : y = x := hall y (by simp)
      subst hy
      simp at hn

/-- With no block reserved and none in hand the tiling is the one free block of
the top class at `base`. -/
theorem tiling_full (c : Consts) (base M : Nat) (fl : Nat → List Nat)
    (T : Tiling c base M fl [] none) :
    fl M = [base] ∧ ∀ k, k ≠ M → fl k = [] := by
  have hlive : ∀ a k, Live fl [] none a k → a ∈ fl k := by
    intro a k h
    rcases h with h | h | h
    · exact h
    · simp at h
    · simp at h
  have hcls : ∀ k a, a ∈ fl k → k = M := by
    intro k
    induction k using Nat.strong_induction_on with
    | _ k ih =>
      intro a ha
      by_contra hne
      have hB := T.block a k (Or.inl ha)
      have hlt : k < M := by
        have := hB.2.1
        omega
      obtain ⟨k1, hk1, hL⟩ := tiling_buddy_live c base M fl [] none T a k (Or.inl ha) hlt
      have hm := hlive _ _ hL
      by_cases hk : k1 = k
      · subst hk
        exact T.eager k1 a ha hlt hm
      · have := ih k1 (by omega) _ hm
        omega
  have hbase : ∀ a, a ∈ fl M → a = base := by
    intro a ha
    obtain ⟨-, -, h3, ⟨q, hq⟩, h5⟩ := T.block a M (Or.inl ha)
    have hp : 0 < 2 ^ M := Nat.two_pow_pos M
    rcases Nat.eq_zero_or_pos q with h0 | h0
    · subst h0
      omega
    · have : 2 ^ M * 1 ≤ 2 ^ M * q := Nat.mul_le_mul_left _ h0
      omega
  have hin : base ∈ fl M := by
    obtain ⟨a, k, hL, h1, h2⟩ := T.cover base (le_refl _) (by
      have := Nat.two_pow_pos M
      omega)
    have ha := hlive a k hL
    have hk := hcls k a ha
    subst hk
    have := hbase a ha
    subst this
    exact ha
  refine ⟨list_eq_singleton _ _ (T.nodup M) hbase hin, ?_⟩
  intro k hk
  apply List.eq_nil_iff_forall_not_mem.2
  intro a ha
  exact hk (hcls k a ha)


/-! ## Doubly-linked free lists -/

theorem chain_frame (nx pv nx1 pv1 : Ptr → Ptr) (h : Ptr) :
    ∀ (l : List Nat) (p : Ptr), nx1 p = nx p → (∀ a ∈ l, nx1 (Ptr.block a) = nx (Ptr.block a)) →
      pv1 h = pv h → (∀ a ∈ l, pv1 (Ptr.block a) = pv (Ptr.block a)) →
      Chain nx pv h p l → Chain nx1 pv1 h p l := by
  intro l
  induction l with
  | nil =>
    intro p h1 _ h3 _ hc
    simp only [Chain] at hc ⊢
    rw [h1, h3]
    exact hc
  | cons a l ih =>
    intro p h1 h2 h3 h4 hc
    simp only [Chain] at hc ⊢
    obtain ⟨c1, c2, c3⟩ := hc
    refine ⟨by rw [h1]; exact c1, by rw [h4 a (List.mem_cons_self _ _)]; exact c2, ?_⟩
    exact ih (Ptr.block a) (h2 a (List.mem_cons_self _ _))
      (fun z hz => h2 z (List.mem_cons_of_mem _ hz)) h3
      (fun z hz => h4 z (List.mem_cons_of_mem _ hz)) c3

theorem chain_next_mem (nx pv : Ptr → Ptr) (h : Ptr) :
    ∀ (l : List Nat) (p : Ptr) (a : Nat), Chain nx pv h p l → a ∈ l →
      nx (Ptr.block a) = h ∨ ∃ z ∈ l, nx (Ptr.block a) = Ptr.block z := by
  intro l
  induction l with
  | nil => intro p a _ ha; simp at ha
  | cons x l ih =>
    intro p a hc ha
    simp only [Chain] at hc
    obtain ⟨c1, c2, c3⟩ := hc
    rcases List.mem_cons.1 ha with ha | ha
    · subst ha
      cases l with
      | nil =>
        simp only [Chain] at c3
        exact Or.inl c3.1
      | cons y l1 =>
        simp only [Chain] at c3
        exact Or.inr ⟨y, by simp, c3.1⟩
    · rcases ih (Ptr.block x) a c3 ha with h1 | ⟨z, hz, h1⟩
      · exact Or.inl h1
      · exact Or.inr ⟨z, List.mem_cons_of_mem _ hz, h1⟩

theorem chain_prev_mem (nx pv : Ptr → Ptr) (h : Ptr) :
    ∀ (l : List Nat) (p : Ptr) (a : Nat), Chain nx pv h p l → a ∈ l →
      pv (Ptr.block a) = p ∨ ∃ z ∈ l, pv (Ptr.block a) = Ptr.block z := by
  intro l
  induction l with
  | nil => intro p a _ ha; simp at ha
  | cons x l ih =>
    intro p a hc ha
    simp only [Chain] at hc
    obtain ⟨c1, c2, c3⟩ := hc
    rcases List.mem_cons.1 ha with ha | ha
    · subst ha
      exact Or.inl c2
    · rcases ih (Ptr.block x) a c3 ha with h1 | ⟨z, hz, h1⟩
      · exact Or.inr ⟨x, List.mem_cons_self _ _, h1⟩
      · exact Or.inr ⟨z, List.mem_cons_of_mem _ hz, h1⟩

/-- Unlinking the node `a` from a chain: the two assignments of `list_remove`
turn the chain through `l` into the chain through `l` without `a`. -/
theorem chain_erase (nx pv : Ptr → Ptr) (h : Ptr) (a : Nat) :
    ∀ (l : List Nat) (p : Ptr), Chain nx pv h p l → l.Nodup → a ∈ l →
      (∀ y ∈ l, p ≠ Ptr.block y) → (∀ y ∈ l, h ≠ Ptr.block y) →
      Chain (Function.update nx (pv (Ptr.block a)) (nx (Ptr.block a)))
        (Function.update pv (nx (Ptr.block a)) (pv (Ptr.block a))) h p (l.erase a) := by
  intro l
  induction l with
  | nil => intro p _ _ ha; simp at ha
  | cons x l ih =>
    intro p hc hn ha hp hh
    have hc0 := hc
    simp only [Chain] at hc
    obtain ⟨c1, c2, c3⟩ := hc
    obtain ⟨hx, hn1⟩ := List.nodup_cons.1 hn
    by_cases hxa : x = a
    · subst hxa
      rw [List.erase_cons_head, c2]
      cases l with
      | nil =>
        simp only [Chain] at c3 ⊢
        rw [c3.1]
        simp
      | cons y l1 =>
        simp only [Chain] at c3 ⊢
        obtain ⟨d1, d2, d3⟩ := c3
        rw [d1]
        refine ⟨by simp, by simp, ?_⟩
        obtain ⟨hy, hn2⟩ := List.nodup_cons.1 hn1
        apply chain_frame nx pv _ _ h l1 (Ptr.block y) _ _ _ _ d3
        · exact Function.update_noteq (hp y (by simp)).symm _ _
        · intro z hz
          exact Function.update_noteq (hp z (by simp [hz])).symm _ _
        · exact Function.update_noteq (hh y (by simp)) _ _
        · intro z hz
          have : z ≠ y := fun e => hy (e ▸ hz)
          exact Function.update_noteq (by simpa using this) _ _
    · have ha1 : a ∈ l := by
        rcases List.mem_cons.1 ha with e | e
        · exact absurd e.symm hxa
        · exact e
      rw [List.erase_cons_tail (by simpa using hxa)]
      simp only [Chain]
      have hP := chain_prev_mem nx pv h l (Ptr.block x) a c3 ha1
      have hN := chain_next_mem nx pv h l (Ptr.block x) a c3 ha1
      have hPp : pv (Ptr.block a) ≠ p := by
        rcases hP with e | ⟨z, hz, e⟩
        · rw [e]; exact (hp x (by simp)).symm
        · rw [e]; exact (hp z (by simp [hz])).symm
      have hNx : nx (Ptr.block a) ≠ Ptr.block x := by
        rcases hN with e | ⟨z, hz, e⟩
        · rw [e]; exact hh x (by simp)
        · rw [e]
          have : z ≠ x := fun e2 => hx (e2 ▸ hz)
          simpa using this
      refine ⟨?_, ?_, ?_⟩
      · rw [Function.update_noteq hPp.symm]; exact c1
      · rw [Function.update_noteq hNx.symm]; exact c2
      · apply ih (Ptr.block x) c3 hn1 ha1
        · intro y hy
          have : x ≠ y := fun e => hx (e ▸ hy)
          simpa using this
        · intro y hy
          exact hh y (by simp [hy])

/-- Linking the node `a` after the sentinel: the four assignments of
`list_push` turn the list `l` into `a :: l`. -/
theorem chain_push (nx pv : Ptr → Ptr) (h : Ptr) (a : Nat) (l : List Nat)
    (hc : Chain nx pv h h l) (hn : l.Nodup) (ha : a ∉ l) (hh : ∀ y, h ≠ Ptr.block y) :
    Chain (Function.update (Function.update nx (Ptr.block a) (nx h)) h (Ptr.block a))
      (Function.update (Function.update pv (Ptr.block a) h) (nx h) (Ptr.block a)) h h
      (a :: l) := by
  simp only [Chain]
  cases l with
  | nil =>
    simp only [Chain] at hc ⊢
    obtain ⟨c1, c2⟩ := hc
    rw [c1]
    refine ⟨by simp, ?_, ?_, by simp⟩
    · rw [Function.update_noteq (hh a).symm]; simp
    · rw [Function.update_noteq (hh a).symm]; simp
  | cons y l1 =>
    simp only [Chain] at hc ⊢
    obtain ⟨c1, c2, c3⟩ := hc
    obtain ⟨hy, hn1⟩ := List.nodup_cons.1 hn
    have hay : a ≠ y := fun e => ha (by simp [e])
    have hay1 : Ptr.block a ≠ Ptr.block y := by simpa using hay
    rw [c1]
    refine ⟨by simp, ?_, ?_, by simp, ?_⟩
    · rw [Function.update_noteq hay1]; simp
    · rw [Function.update_noteq (hh a).symm]; simp
    · apply chain_frame nx pv _ _ h l1 (Ptr.block y) _ _ _ _ c3
      · rw [Function.update_noteq (hh y).symm, Function.update_noteq hay1.symm]
      · intro z hz
        have : z ≠ a := fun e => ha (by simp [← e, hz])
        rw [Function.update_noteq (hh z).symm, Function.update_noteq (by simpa using this)]
      · rw [Function.update_noteq (hh y), Function.update_noteq (hh a)]
      · intro z hz
        have h1 : z ≠ a := fun e => ha (by simp [← e, hz])
        have h2 : z ≠ y := fun e => hy (e ▸ hz)
        rw [Function.update_noteq (by simpa using h2), Function.update_noteq (by simpa using h1)]


theorem chain_prev_ne (nx pv : Ptr → Ptr) (h : Ptr) (a : Nat) :
    ∀ (l : List Nat) (p : Ptr), Chain nx pv h p l → l.Nodup → a ∈ l → p ≠ Ptr.block a →
      pv (Ptr.block a) ≠ Ptr.block a := by
  intro l
  induction l with
  | nil => intro p _ _ ha; simp at ha
  | cons x l ih =>
    intro p hc hn ha hp
    simp only [Chain] at hc
    obtain ⟨c1, c2, c3⟩ := hc
    obtain ⟨hx, hn1⟩ := List.nodup_cons.1 hn
    rcases List.mem_cons.1 ha with e | e
    · subst e
      rw [c2]; exact hp
    · apply ih (Ptr.block x) c3 hn1 e
      have : x ≠ a := fun e2 => hx (e2 ▸ e)
      simpa using this

theorem deref_block (c : Consts) (a : Nat) : deref c (Ptr.block a) = some (Ptr.block a) := by
  simp [deref, Ptr.valid]

theorem deref_sentinel (c : Consts) (k : Nat) (hk : k < c.MAX_K) :
    deref c (Ptr.sentinel k) = some (Ptr.sentinel k) := by
  simp [deref, Ptr.valid, hk]

/-- The functional behaviour of `list_remove` on a member of the list of
sentinel `k`. -/
theorem list_remove_spec (c : Consts) (s : State) (k : Nat) (l : List Nat) (a : Nat)
    (hk : k < c.MAX_K) (hl : IsList s k l) (hn : l.Nodup) (ha : a ∈ l) :
    ∃ s1, list_remove c s (Ptr.block a) = some s1 ∧ IsList s1 k (l.erase a) ∧
      s1.tag = s.tag ∧ s1.kval = s.kval ∧ s1.base = s.base ∧ s1.kval_m = s.kval_m ∧
      s1.numbytes = s.numbytes ∧ s1.errno = s.errno ∧ s1.data = s.data ∧
      (∀ q, q ≠ Ptr.sentinel k → (∀ z ∈ l, q ≠ Ptr.block z) →
        s1.next q = s.next q ∧ s1.prev q = s.prev q) := by
  have hP := chain_prev_mem s.next s.prev _ l _ a hl ha
  have hN := chain_next_mem s.next s.prev _ l _ a hl ha
  have hPa := chain_prev_ne s.next s.prev _ a l _ hl hn ha (by simp)
  have hdP : deref c (s.prev (Ptr.block a)) = some (s.prev (Ptr.block a)) := by
    rcases hP with e | ⟨z, -, e⟩
    · rw [e]; exact deref_sentinel c k hk
    · rw [e]; exact deref_block c z
  have hdN : deref c (s.next (Ptr.block a)) = some (s.next (Ptr.block a)) := by
    rcases hN with e | ⟨z, -, e⟩
    · rw [e]; exact deref_sentinel c k hk
    · rw [e]; exact deref_block c z
  have hs1n : (setNext s (s.prev (Ptr.block a)) (s.next (Ptr.block a))).next (Ptr.block a) =
      s.next (Ptr.block a) := by
    simp only [setNext]
    exact Function.update_noteq hPa.symm _ _
  refine ⟨setPrev (setNext s (s.prev (Ptr.block a)) (s.next (Ptr.block a)))
    (s.next (Ptr.block a)) (s.prev (Ptr.block a)), ?_, ?_, rfl, rfl, rfl, rfl, rfl, rfl, rfl, ?_⟩
  · unfold list_remove
    rw [deref_block]
    simp only [Option.bind_some, Option.some_bind]
    rw [hdP]
    simp only [Option.bind_some, Option.some_bind]
    rw [hs1n, hdN]
    simp only [Option.bind_some, Option.some_bind]
    rfl
  · exact chain_erase s.next s.prev _ a l _ hl hn ha (by simp) (by simp)
  · intro q hq1 hq2
    have h1 : q ≠ s.prev (Ptr.block a) := by
      rcases hP with e | ⟨z, hz, e⟩
      · rw [e]; exact hq1
      · rw [e]; exact hq2 z hz
    have h2 : q ≠ s.next (Ptr.block a) := by
      rcases hN with e | ⟨z, hz, e⟩
      · rw [e]; exact hq1
      · rw [e]; exact hq2 z hz
    simp only [setPrev, setNext]
    exact ⟨Function.update_noteq h1 _ _, Function.update_noteq h2 _ _⟩

/-- The functional behaviour of `list_push` on a block that is not on the
list of sentinel `k`. -/
theorem list_push_spec (c : Consts) (s : State) (k : Nat) (l : List Nat) (a : Nat)
    (hk : k < c.MAX_K) (hl : IsList s k l) (hn : l.Nodup) (ha : a ∉ l) :
    ∃ s1, list_push c s k (Ptr.block a) = some s1 ∧ IsList s1 k (a :: l) ∧
      s1.tag = s.tag ∧ s1.kval = s.kval ∧ s1.base = s.base ∧ s1.kval_m = s.kval_m ∧
      s1.numbytes = s.numbytes ∧ s1.errno = s.errno ∧ s1.data = s.data ∧
      (∀ q, q ≠ Ptr.sentinel k → q ≠ Ptr.block a → (∀ z ∈ l, q ≠ Ptr.block z) →
        s1.next q = s.next q ∧ s1.prev q = s.prev q) := by
  have hN : s.next (Ptr.sentinel k) = Ptr.sentinel k ∨
      ∃ z ∈ l, s.next (Ptr.sentinel k) = Ptr.block z := by
    cases l with
    | nil => exact Or.inl hl.1
    | cons y l1 => exact Or.inr ⟨y, by simp, hl.1⟩
  have hdN : deref c (s.next (Ptr.sentinel k)) = some (s.next (Ptr.sentinel k)) := by
    rcases hN with e | ⟨z, -, e⟩
    · rw [e]; exact deref_sentinel c k hk
    · rw [e]; exact deref_block c z
  have hne : Ptr.sentinel k ≠ Ptr.block a := by simp
  have hs2n : (setPrev (setNext s (Ptr.block a) (s.next (Ptr.sentinel k))) (Ptr.block a)
      (Ptr.sentinel k)).next (Ptr.sentinel k) = s.next (Ptr.sentinel k) := by
    simp only [setNext, setPrev]
    exact Function.update_noteq hne _ _
  refine ⟨setNext (setPrev (setPrev (setNext s (Ptr.block a) (s.next (Ptr.sentinel k)))
    (Ptr.block a) (Ptr.sentinel k)) (s.next (Ptr.sentinel k)) (Ptr.block a))
    (Ptr.sentinel k) (Ptr.block a), ?_, ?_, rfl, rfl, rfl, rfl, rfl, rfl, rfl, ?_⟩
  · unfold list_push
    rw [deref_sentinel c k hk]
    simp only [Option.bind_some, Option.some_bind]
    rw [deref_block]
    simp only [Option.bind_some, Option.some_bind]
    rw [hs2n, hdN]
    simp only [Option.bind_some, Option.some_bind]
  · exact chain_push s.next s.prev _ a l hl hn ha (by simp)
  · intro q hq1 hq2 hq3
    have h2 : q ≠ s.next (Ptr.sentinel k) := by
      rcases hN with e | ⟨z, hz, e⟩
      · rw [e]; exact hq1
      · rw [e]; exact hq3 z hz
    simp only [setPrev, setNext]
    exact ⟨by rw [Function.update_noteq hq1, Function.update_noteq hq2],
      by rw [Function.update_noteq h2, Function.update_noteq hq2]⟩

theorem isList_frame (s s1 : State) (k : Nat) (l : List Nat) (hl : IsList s k l)
    (hf : ∀ q, (q = Ptr.sentinel k ∨ ∃ z ∈ l, q = Ptr.block z) →
      s1.next q = s.next q ∧ s1.prev q = s.prev q) : IsList s1 k l := by
  apply chain_frame s.next s.prev s1.next s1.prev _ l _ _ _ _ _ hl
  · exact (hf _ (Or.inl rfl)).1
  · intro a ha
    exact (hf _ (Or.inr ⟨a, ha, rfl⟩)).1
  · exact (hf _ (Or.inl rfl)).2
  · intro a ha
    exact (hf _ (Or.inr ⟨a, ha, rfl⟩)).2


/-! ## The invariant under the steps of the operations -/

theorem SameFrame.refl (s : State) : SameFrame s s := ⟨rfl, rfl, rfl, rfl, rfl⟩

theorem SameFrame.trans {s1 s2 s3 : State} (h : SameFrame s1 s2) (h1 : SameFrame s2 s3) :
    SameFrame s1 s3 :=
  ⟨h.1.trans h1.1, h.2.1.trans h1.2.1, h.2.2.1.trans h1.2.2.1, h.2.2.2.1.trans h1.2.2.2.1,
    h.2.2.2.2.trans h1.2.2.2.2⟩

/-- An address is the start of at most one existing block. -/
theorem live_class_unique (c : Consts) (base M : Nat) (fl : Nat → List Nat)
    (res : List (Nat × Nat)) (hold : Option (Nat × Nat)) (T : Tiling c base M fl res hold)
    (a k k1 : Nat) (h : Live fl res hold a k) (h1 : Live fl res hold a k1) : k = k1 := by
  by_contra hne
  have hp := Nat.two_pow_pos k
  have hp1 := Nat.two_pow_pos k1
  have := T.disjoint a k a k1 h h1 (by simp [hne])
  omega

theorem lists_disjoint (c : Consts) (base M : Nat) (fl : Nat → List Nat)
    (res : List (Nat × Nat)) (hold : Option (Nat × Nat)) (T : Tiling c base M fl res hold)
    (z j k : Nat) (h : z ∈ fl j) (h1 : z ∈ fl k) : j = k :=
  live_class_unique c base M fl res hold T z j k (Or.inl h) (Or.inl h1)

/-- The block in hand is on no free list and is not reserved, in any class. -/
theorem hold_not_live (c : Consts) (base M : Nat) (fl : Nat → List Nat)
    (res : List (Nat × Nat)) (B K : Nat) (T : Tiling c base M fl res (some (B, K))) (i : Nat) :
    B ∉ fl i ∧ (B, i) ∉ res := by
  have hH : Live fl res (some (B, K)) B K := Or.inr (Or.inr rfl)
  constructor
  · intro h
    have := live_class_unique c base M fl res _ T B i K (Or.inl h) hH
    subst this
    exact (T.hold_free B i rfl).1 h
  · intro h
    have := live_class_unique c base M fl res _ T B i K (Or.inr (Or.inl h)) hH
    subst this
    exact (T.hold_free B i rfl).2 h

/-- A free block is not reserved in any class. -/
theorem free_not_res (c : Consts) (base M : Nat) (fl : Nat → List Nat)
    (res : List (Nat × Nat)) (hold : Option (Nat × Nat)) (T : Tiling c base M fl res hold)
    (a k i : Nat) (h : a ∈ fl k) : (a, i) ∉ res := by
  intro hr
  have := live_class_unique c base M fl res _ T a i k (Or.inr (Or.inl hr)) (Or.inl h)
  subst this
  exact T.res_free a i hr h

/-- Unlinking a free block keeps every list of the pool a list. -/
theorem heap_remove (c : Consts) (s : State) (fl : Nat → List Nat) (res : List (Nat × Nat))
    (hold : Option (Nat × Nat)) (a k : Nat) (hk : k < c.MAX_K)
    (T : Tiling c s.base s.kval_m fl res hold)
    (hl : ∀ j, j < c.MAX_K → IsList s j (fl j)) (ha : a ∈ fl k) :
    ∃ s1, list_remove c s (Ptr.block a) = some s1 ∧
      (∀ j, j < c.MAX_K → IsList s1 j (Function.update fl k ((fl k).erase a) j)) ∧
      s1.tag = s.tag ∧ s1.kval = s.kval ∧ s1.base = s.base ∧ s1.kval_m = s.kval_m ∧
      s1.numbytes = s.numbytes ∧ s1.errno = s.errno ∧ s1.data = s.data := by
  obtain ⟨s1, e, hl1, e1, e2, e3, e4, e5, e6, e7, hf⟩ :=
    list_remove_spec c s k (fl k) a hk (hl k hk) (T.nodup k) ha
  refine ⟨s1, e, ?_, e1, e2, e3, e4, e5, e6, e7⟩
  intro j hj
  by_cases hjk : j = k
  · subst hjk
    rw [Function.update_same]
    exact hl1
  · rw [Function.update_noteq hjk]
    apply isList_frame s s1 j (fl j) (hl j hj)
    intro q hq
    apply hf q
    · rcases hq with rfl | ⟨z, -, rfl⟩
      · simpa using hjk
      · simp
    · intro z hz
      rcases hq with rfl | ⟨y, hy, rfl⟩
      · simp
      · intro he
        simp only [Ptr.block.injEq] at he
        subst he
        exact hjk (lists_disjoint c _ _ fl res hold T y j k hy hz)

/-- Linking a block that is on no list keeps every list of the pool a list. -/
theorem heap_push (c : Consts) (s : State) (fl : Nat → List Nat) (res : List (Nat × Nat))
    (hold : Option (Nat × Nat)) (a k : Nat) (hk : k < c.MAX_K)
    (T : Tiling c s.base s.kval_m fl res hold)
    (hl : ∀ j, j < c.MAX_K → IsList s j (fl j)) (ha : ∀ j, a ∉ fl j) :
    ∃ s1, list_push c s k (Ptr.block a) = some s1 ∧
      (∀ j, j < c.MAX_K → IsList s1 j (Function.update fl k (a :: fl k) j)) ∧
      s1.tag = s.tag ∧ s1.kval = s.kval ∧ s1.base = s.base ∧ s1.kval_m = s.kval_m ∧
      s1.numbytes = s.numbytes ∧ s1.errno = s.errno ∧ s1.data = s.data := by
  obtain ⟨s1, e, hl1, e1, e2, e3, e4, e5, e6, e7, hf⟩ :=
    list_push_spec c s k (fl k) a hk (hl k hk) (T.nodup k) (ha k)
  refine ⟨s1, e, ?_, e1, e2, e3, e4, e5, e6, e7⟩
  intro j hj
  by_cases hjk : j = k
  · subst hjk
    rw [Function.update_same]
    exact hl1
  · rw [Function.update_noteq hjk]
    apply isList_frame s s1 j (fl j) (hl j hj)
    intro q hq
    apply hf q
    · rcases hq with rfl | ⟨z, -, rfl⟩
      · simpa using hjk
      · simp
    · rcases hq with rfl | ⟨z, hz, rfl⟩
      · simp
      · intro he
        simp only [Ptr.block.injEq] at he
        subst he
        exact ha j hz
    · intro z hz
      rcases hq with rfl | ⟨y, hy, rfl⟩
      · simp
      · intro he
        simp only [Ptr.block.injEq] at he
        subst he
        exact hjk (lists_disjoint c _ _ fl res hold T y j k hy hz)


/-- No block other than the block in hand starts inside the block in hand. -/
theorem hold_region_free (c : Consts) (base M : Nat) (fl : Nat → List Nat)
    (res : List (Nat × Nat)) (B K : Nat) (T : Tiling c base M fl res (some (B, K)))
    (x i : Nat) (h1 : B ≤ x) (h2 : x < B + 2 ^ K) : x ∉ fl i ∧ (x, i) ∉ res := by
  have hH : Live fl res (some (B, K)) B K := Or.inr (Or.inr rfl)
  have hp := Nat.two_pow_pos i
  constructor
  · intro h
    by_cases he : (x, i) = (B, K)
    · simp only [Prod.mk.injEq] at he
      obtain ⟨e1, e2⟩ := he
      subst e1 e2
      exact (T.hold_free x i rfl).1 h
    · have := T.disjoint x i B K (Or.inl h) hH he
      omega
  · intro h
    by_cases he : (x, i) = (B, K)
    · simp only [Prod.mk.injEq] at he
      obtain ⟨e1, e2⟩ := he
      subst e1 e2
      exact (T.hold_free x i rfl).2 h
    · have := T.disjoint x i B K (Or.inr (Or.inl h)) hH he
      omega

theorem invH_of (c : Consts) (s s1 : State) (fl fl1 : Nat → List Nat)
    (res res1 : List (Nat × Nat)) (hold hold1 : Option (Nat × Nat))
    (I : InvH c s fl res hold) (eb : s1.base = s.base) (em : s1.kval_m = s.kval_m)
    (en : s1.numbytes = s.numbytes) (T : Tiling c s.base s.kval_m fl1 res1 hold1)
    (H : Heap c s1 fl1 res1 hold1) : InvH c s1 fl1 res1 hold1 := by
  refine ⟨?_, ?_, ?_, ?_, ?_, ?_, H⟩
  · rw [eb]; exact I.base_pos
  · rw [en, em]; exact I.numbytes_eq
  · rw [em]; exact I.kval_m_ge
  · rw [em]; exact I.kval_m_lt
  · rw [eb, en]; exact I.no_wrap
  · rw [eb, em]; exact T

theorem class_lt_max (c : Consts) (s : State) (fl : Nat → List Nat) (res : List (Nat × Nat))
    (hold : Option (Nat × Nat)) (I : InvH c s fl res hold) (a k : Nat)
    (h : Live fl res hold a k) : k < c.MAX_K := by
  have := (I.tiling.block a k h).2.1
  have := I.kval_m_lt
  omega

/-- The step `list_remove` of `buddy_malloc` on a member of a free list. -/
theorem inv_take (c : Consts) (s : State) (fl : Nat → List Nat) (res : List (Nat × Nat))
    (a k : Nat) (I : InvH c s fl res none) (ha : a ∈ fl k) :
    ∃ s1, list_remove c s (Ptr.block a) = some s1 ∧
      InvH c s1 (Function.update fl k ((fl k).erase a)) res (some (a, k)) ∧
      SameFrame s1 s ∧ s1.tag = s.tag ∧ s1.kval = s.kval := by
  have hk := class_lt_max c s fl res none I a k (Or.inl ha)
  obtain ⟨s1, e, hl1, e1, e2, e3, e4, e5, e6, e7⟩ :=
    heap_remove c s fl res none a k hk I.tiling I.heap.lists ha
  refine ⟨s1, e, ?_, ⟨e3, e4, e5, e6, e7⟩, e1, e2⟩
  apply invH_of c s s1 fl _ res _ none _ I e3 e4 e5 (tiling_take c _ _ fl res a k I.tiling ha)
  refine ⟨?_, hl1, ?_, ?_, ?_⟩
  · intro j hj
    rw [e1, e2]
    exact I.heap.sent j hj
  · intro j x hx
    rw [e1, e2]
    exact I.heap.free_hdr j x (mem_update_erase hx)
  · intro x j hx
    rw [e1, e2]
    exact I.heap.res_hdr x j hx
  · intro x j hx
    simp only [Option.some.injEq, Prod.mk.injEq] at hx
    obtain ⟨h1, h2⟩ := hx
    subst h1 h2
    rw [e1, e2]
    exact I.heap.free_hdr k a ha

/-- Marking the block in hand reserved (lab.c 150). -/
theorem inv_reserve (c : Consts) (s : State) (fl : Nat → List Nat) (res : List (Nat × Nat))
    (B k : Nat) (I : InvH c s fl res (some (B, k))) :
    InvH c (setTag s (Ptr.block B) Tag.BLOCK_RESERVED) fl ((B, k) :: res) none := by
  apply invH_of c s (setTag s (Ptr.block B) Tag.BLOCK_RESERVED) fl _ res _ _ _ I rfl rfl rfl (tiling_reserve c _ _ fl res B k I.tiling)
  have hnl := hold_not_live c _ _ fl res B k I.tiling
  refine ⟨?_, I.heap.lists, ?_, ?_, ?_⟩
  · intro j hj
    simp only [setTag]
    rw [Function.update_noteq (by simp)]
    exact I.heap.sent j hj
  · intro j x hx
    have hne : x ≠ B := fun e => (hnl j).1 (e ▸ hx)
    simp only [setTag]
    rw [Function.update_noteq (by simpa using hne)]
    exact I.heap.free_hdr j x hx
  · intro x j hx
    simp only [setTag]
    rcases List.mem_cons.1 hx with hx | hx
    · simp only [Prod.mk.injEq] at hx
      obtain ⟨h1, h2⟩ := hx
      subst h1 h2
      rw [Function.update_same]
      exact ⟨rfl, (I.heap.hold_hdr x j rfl).2⟩
    · have hne : x ≠ B := fun e => (hnl j).2 (e ▸ hx)
      rw [Function.update_noteq (by simpa using hne)]
      exact I.heap.res_hdr x j hx
  · intro x j hx
    simp at hx

/-- Marking a reserved block available (lab.c 166). -/
theorem inv_release (c : Consts) (s : State) (fl : Nat → List Nat) (res : List (Nat × Nat))
    (a k : Nat) (I : InvH c s fl res none) (ha : (a, k) ∈ res) :
    InvH c (setTag s (Ptr.block a) Tag.BLOCK_AVAIL) fl (res.erase (a, k)) (some (a, k)) := by
  apply invH_of c s (setTag s (Ptr.block a) Tag.BLOCK_AVAIL) fl _ res _ _ _ I rfl rfl rfl (tiling_release c _ _ fl res a k I.tiling ha)
  have hL : Live fl res none a k := Or.inr (Or.inl ha)
  refine ⟨?_, I.heap.lists, ?_, ?_, ?_⟩
  · intro j hj
    simp only [setTag]
    rw [Function.update_noteq (by simp)]
    exact I.heap.sent j hj
  · intro j x hx
    have hne : x ≠ a := by
      intro e
      subst e
      have := live_class_unique c _ _ fl res none I.tiling x j k (Or.inl hx) hL
      subst this
      exact I.tiling.res_free x j ha hx
    simp only [setTag]
    rw [Function.update_noteq (by simpa using hne)]
    exact I.heap.free_hdr j x hx
  · intro x j hx
    have hx1 := List.mem_of_mem_erase hx
    have hne : x ≠ a := by
      intro e
      subst e
      have := live_class_unique c _ _ fl res none I.tiling x j k (Or.inr (Or.inl hx1)) hL
      subst this
      exact I.tiling.res_nodup.not_mem_erase hx
    simp only [setTag]
    rw [Function.update_noteq (by simpa using hne)]
    exact I.heap.res_hdr x j hx1
  · intro x j hx
    simp only [Option.some.injEq, Prod.mk.injEq] at hx
    obtain ⟨h1, h2⟩ := hx
    subst h1 h2
    simp only [setTag]
    rw [Function.update_same]
    exact ⟨rfl, (I.heap.res_hdr a k ha).2⟩

/-- The step `list_push` of `buddy_free` (lab.c 191-194) on the block in hand. -/
theorem inv_put (c : Consts) (s : State) (fl : Nat → List Nat) (res : List (Nat × Nat))
    (b k : Nat) (I : InvH c s fl res (some (b, k)))
    (hb : k < s.kval_m → buddyAddr s.base b k ∉ fl k) :
    ∃ s1, list_push c s k (Ptr.block b) = some s1 ∧
      InvH c s1 (Function.update fl k (b :: fl k)) res none ∧
      SameFrame s1 s ∧ s1.tag = s.tag ∧ s1.kval = s.kval := by
  have hk := class_lt_max c s fl res _ I b k (Or.inr (Or.inr rfl))
  have hnl := hold_not_live c _ _ fl res b k I.tiling
  obtain ⟨s1, e, hl1, e1, e2, e3, e4, e5, e6, e7⟩ :=
    heap_push c s fl res _ b k hk I.tiling I.heap.lists (fun j => (hnl j).1)
  refine ⟨s1, e, ?_, ⟨e3, e4, e5, e6, e7⟩, e1, e2⟩
  apply invH_of c s s1 fl _ res _ _ _ I e3 e4 e5 (tiling_put c _ _ fl res b k I.tiling hb)
  refine ⟨?_, hl1, ?_, ?_, ?_⟩
  · intro j hj
    rw [e1, e2]
    exact I.heap.sent j hj
  · intro j x hx
    rw [e1, e2]
    by_cases hj : j = k
    · subst hj
      rw [Function.update_same] at hx
      rcases List.mem_cons.1 hx with hx | hx
      · subst hx
        exact I.heap.hold_hdr x j rfl
      · exact I.heap.free_hdr j x hx
    · rw [Function.update_noteq hj] at hx
      exact I.heap.free_hdr j x hx
  · intro x j hx
    rw [e1, e2]
    exact I.heap.res_hdr x j hx
  · intro x j hx
    simp at hx


/-- One iteration of the split loop of `buddy_malloc` (lab.c 132-146): the
upper half of the block in hand goes to the free list of its class and the
lower half stays in hand. -/
theorem inv_split_step (c : Consts) (s : State) (fl : Nat → List Nat)
    (res : List (Nat × Nat)) (B j : Nat) (I : InvH c s fl res (some (B, j + 1)))
    (hj : c.SMALLEST_K ≤ j) :
    ∃ s3, list_push c (setKval (setTag s (Ptr.block (B + 2 ^ j)) Tag.BLOCK_AVAIL)
        (Ptr.block (B + 2 ^ j)) j) j (Ptr.block (B + 2 ^ j)) = some s3 ∧
      InvH c (setKval s3 (Ptr.block B) j) (Function.update fl j ((B + 2 ^ j) :: fl j)) res
        (some (B, j)) ∧
      SameFrame s3 s := by
  have hp : 0 < 2 ^ j := Nat.two_pow_pos j
  have h2 : 2 ^ (j + 1) = 2 * 2 ^ j := by rw [pow_succ]; ring
  have hk := class_lt_max c s fl res _ I B (j + 1) (Or.inr (Or.inr rfl))
  have hreg := hold_region_free c _ _ fl res B (j + 1) I.tiling
  have hu : ∀ i, B + 2 ^ j ∉ fl i ∧ (B + 2 ^ j, i) ∉ res :=
    fun i => hreg (B + 2 ^ j) i (by omega) (by omega)
  have hB : ∀ i, B ∉ fl i ∧ (B, i) ∉ res := fun i => hreg B i (by omega) (by omega)
  have hneB : Ptr.block B ≠ Ptr.block (B + 2 ^ j) := by
    simp only [ne_eq, Ptr.block.injEq]; omega
  obtain ⟨s3, e, hl1, e1, e2, e3, e4, e5, e6, e7⟩ :=
    heap_push c (setKval (setTag s (Ptr.block (B + 2 ^ j)) Tag.BLOCK_AVAIL)
      (Ptr.block (B + 2 ^ j)) j) fl res _ (B + 2 ^ j) j (by omega) I.tiling I.heap.lists
      (fun i => (hu i).1)
  refine ⟨s3, e, ?_, ⟨e3, e4, e5, e6, e7⟩⟩
  apply invH_of c s (setKval s3 (Ptr.block B) j) fl _ res _ _ _ I e3 e4 e5
    (tiling_split c _ _ fl res B j I.tiling hj)
  have htag : ∀ q, q ≠ Ptr.block (B + 2 ^ j) → (setKval s3 (Ptr.block B) j).tag q = s.tag q := by
    intro q hq
    simp only [setKval, e1, setTag]
    exact Function.update_noteq hq _ _
  have hkv : ∀ q, q ≠ Ptr.block (B + 2 ^ j) → q ≠ Ptr.block B →
      (setKval s3 (Ptr.block B) j).kval q = s.kval q := by
    intro q hq hq1
    simp only [setKval, e2, setTag]
    rw [Function.update_noteq hq1, Function.update_noteq hq]
  refine ⟨?_, hl1, ?_, ?_, ?_⟩
  · intro i hi
    rw [htag _ (by simp), hkv _ (by simp) (by simp)]
    exact I.heap.sent i hi
  · intro i x hx
    by_cases hxu : x = B + 2 ^ j
    · subst hxu
      have hi : i = j := by
        by_contra hne
        rw [Function.update_noteq hne] at hx
        exact (hu i).1 hx
      subst hi
      simp only [setKval, e1, e2, setTag]
      rw [Function.update_noteq hneB.symm]
      simp
    · have hx1 : x ∈ fl i := by
        by_cases hi : i = j
        · subst hi
          rw [Function.update_same] at hx
          rcases List.mem_cons.1 hx with h | h
          · exact absurd h hxu
          · exact h
        · rwa [Function.update_noteq hi] at hx
      have hxB : x ≠ B := fun e => (hB i).1 (e ▸ hx1)
      rw [htag _ (by simpa using hxu), hkv _ (by simpa using hxu) (by simpa using hxB)]
      exact I.heap.free_hdr i x hx1
  · intro x i hx
    have hxu : x ≠ B + 2 ^ j := fun e => (hu i).2 (e ▸ hx)
    have hxB : x ≠ B := fun e => (hB i).2 (e ▸ hx)
    rw [htag _ (by simpa using hxu), hkv _ (by simpa using hxu) (by simpa using hxB)]
    exact I.heap.res_hdr x i hx
  · intro x i hx
    simp only [Option.some.injEq, Prod.mk.injEq] at hx
    obtain ⟨h1, h2⟩ := hx
    subst h1 h2
    rw [htag _ hneB]
    refine ⟨(I.heap.hold_hdr B (j + 1) rfl).1, ?_⟩
    simp [setKval]

/-- One iteration of the coalescing loop of `buddy_free` (lab.c 177-187): the
free buddy leaves its list and the merged block of the next class is in
hand. -/
theorem inv_merge (c : Consts) (s : State) (fl : Nat → List Nat)
    (res : List (Nat × Nat)) (b k : Nat) (I : InvH c s fl res (some (b, k)))
    (hk : k < s.kval_m) (hb : buddyAddr s.base b k ∈ fl k) :
    ∃ s1, list_remove c s (Ptr.block (buddyAddr s.base b k)) = some s1 ∧
      InvH c (setKval s1
          (Ptr.block (if buddyAddr s.base b k < b then buddyAddr s.base b k else b))
          (s1.kval (Ptr.block (if buddyAddr s.base b k < b then buddyAddr s.base b k else b))
            + 1))
        (Function.update fl k ((fl k).erase (buddyAddr s.base b k))) res
        (some (if buddyAddr s.base b k < b then buddyAddr s.base b k else b, k + 1)) ∧
      SameFrame s1 s ∧ s1.tag = s.tag := by
  have hkm := class_lt_max c s fl res _ I b k (Or.inr (Or.inr rfl))
  have hnl := hold_not_live c _ _ fl res b k I.tiling
  have hT := tiling_merge c _ _ fl res b k I.tiling hk hb
  have hmin : min b (buddyAddr s.base b k) =
      if buddyAddr s.base b k < b then buddyAddr s.base b k else b := by
    split <;> omega
  rw [hmin] at hT
  have hm : (if buddyAddr s.base b k < b then buddyAddr s.base b k else b) = b ∨
      (if buddyAddr s.base b k < b then buddyAddr s.base b k else b) = buddyAddr s.base b k := by
    split
    · exact Or.inr rfl
    · exact Or.inl rfl
  obtain ⟨s1, e, hl1, e1, e2, e3, e4, e5, e6, e7⟩ :=
    heap_remove c s fl res _ (buddyAddr s.base b k) k hkm I.tiling I.heap.lists hb
  generalize buddyAddr s.base b k = b1 at *
  generalize (if b1 < b then b1 else b) = m at *
  refine ⟨s1, e, ?_, ⟨e3, e4, e5, e6, e7⟩, e1⟩
  apply invH_of c s (setKval s1 (Ptr.block m) (s1.kval (Ptr.block m) + 1)) fl _ res _ _ _ I
    e3 e4 e5 hT
  have hmk : s.tag (Ptr.block m) = Tag.BLOCK_AVAIL ∧ s.kval (Ptr.block m) = k := by
    rcases hm with h | h
    · rw [h]; exact I.heap.hold_hdr b k rfl
    · rw [h]; exact I.heap.free_hdr k b1 hb
  have hfree : ∀ i x, x ∈ Function.update fl k ((fl k).erase b1) i → x ∈ fl i ∧ x ≠ m := by
    intro i x hx
    have hx1 := mem_update_erase hx
    refine ⟨hx1, ?_⟩
    intro hxm
    rcases hm with h | h
    · exact (hnl i).1 (h ▸ hxm ▸ hx1)
    · have hxb : x = b1 := hxm.trans h
      subst hxb
      have := lists_disjoint c _ _ fl res _ I.tiling x i k hx1 hb
      subst this
      rw [Function.update_same] at hx
      exact (I.tiling.nodup i).not_mem_erase hx
  have hres : ∀ i x, (x, i) ∈ res → x ≠ m := by
    intro i x hx hxm
    rcases hm with h | h
    · exact (hnl i).2 (h ▸ hxm ▸ hx)
    · have hxb : x = b1 := hxm.trans h
      subst hxb
      exact free_not_res c _ _ fl res _ I.tiling x k i hb hx
  refine ⟨?_, hl1, ?_, ?_, ?_⟩
  · intro i hi
    simp only [setKval, e1, e2]
    rw [Function.update_noteq (by simp)]
    exact I.heap.sent i hi
  · intro i x hx
    obtain ⟨hx1, hx2⟩ := hfree i x hx
    simp only [setKval, e1, e2]
    rw [Function.update_noteq (by simpa using hx2)]
    exact I.heap.free_hdr i x hx1
  · intro x i hx
    have hx2 := hres i x hx
    simp only [setKval, e1, e2]
    rw [Function.update_noteq (by simpa using hx2)]
    exact I.heap.res_hdr x i hx
  · intro x i hx
    simp only [Option.some.injEq, Prod.mk.injEq] at hx
    obtain ⟨h1, h2⟩ := hx
    subst h1 h2
    simp only [setKval, e1, e2, Function.update_same]
    exact ⟨hmk.1, by rw [hmk.2]⟩


/-! ## Allocation -/

/-- The search loop of `buddy_malloc` finds nothing when the sentinels of the
classes `cur .. kval_m` are their own successors. -/
theorem malloc_search_none (c : Consts) (s : State) (hM : s.kval_m < c.MAX_K) :
    ∀ fuel cur, fuel = s.kval_m + 1 - cur →
      (∀ j, cur ≤ j → j ≤ s.kval_m → s.next (Ptr.sentinel j) = Ptr.sentinel j) →
      ∃ r, malloc_search c s fuel cur = some (r, Ptr.null) := by
  intro fuel
  induction fuel with
  | zero =>
    intro cur hf _
    refine ⟨cur, ?_⟩
    simp only [malloc_search]
    rw [if_neg (by omega)]
  | succ n ih =>
    intro cur hf he
    have hle : cur ≤ s.kval_m := by omega
    simp only [malloc_search]
    rw [if_pos hle, deref_sentinel c cur (by omega)]
    simp only [Option.some_bind, he cur (le_refl _) hle, ne_eq, not_true_eq_false, if_false]
    exact ih (cur + 1) (by omega) (fun j h1 h2 => he j (by omega) h2)

/-- The search loop of `buddy_malloc` returns the head of the list of the
lowest class `j` in `cur .. kval_m` whose sentinel is not its own successor. -/
theorem malloc_search_some (c : Consts) (s : State) (hM : s.kval_m < c.MAX_K) (j : Nat)
    (hj : j ≤ s.kval_m) (hne : s.next (Ptr.sentinel j) ≠ Ptr.sentinel j) :
    ∀ fuel cur, fuel = s.kval_m + 1 - cur → cur ≤ j →
      (∀ i, cur ≤ i → i < j → s.next (Ptr.sentinel i) = Ptr.sentinel i) →
      malloc_search c s fuel cur = some (j, s.next (Ptr.sentinel j)) := by
  intro fuel
  induction fuel with
  | zero =>
    intro cur hf hc _
    omega
  | succ n ih =>
    intro cur hf hc he
    have hle : cur ≤ s.kval_m := by omega
    simp only [malloc_search]
    rw [if_pos hle, deref_sentinel c cur (by omega)]
    simp only [Option.some_bind]
    by_cases hcj : cur = j
    · subst hcj
      rw [if_pos hne]
    · rw [if_neg (by simpa using he cur (le_refl _) (by omega))]
      exact ih (cur + 1) (by omega) (by omega) (fun i h1 h2 => he i (by omega) h2)

theorem isList_nil_iff (s : State) (k : Nat) (l : List Nat) (h : IsList s k l) :
    s.next (Ptr.sentinel k) = Ptr.sentinel k ↔ l = [] := by
  cases l with
  | nil => simp [h.1]
  | cons a l1 => simp [h.1]

theorem isList_head (s : State) (k a : Nat) (l : List Nat) (h : IsList s k (a :: l)) :
    s.next (Ptr.sentinel k) = Ptr.block a := h.1

theorem splitLists_self (fl : Nat → List Nat) (B k : Nat) : splitLists fl B k k = fl := by
  funext i
  simp only [splitLists]
  rw [if_neg (by omega)]

theorem splitLists_succ (fl : Nat → List Nat) (B k n : Nat) :
    splitLists (Function.update fl (k + n) ((B + 2 ^ (k + n)) :: fl (k + n))) B k (k + n) =
      splitLists fl B k (k + n + 1) := by
  funext i
  simp only [splitLists]
  by_cases h1 : k ≤ i ∧ i < k + n
  · rw [if_pos h1, if_pos (by omega), Function.update_noteq (by omega)]
  · rw [if_neg h1]
    by_cases h2 : i = k + n
    · subst h2
      rw [if_pos (by omega), Function.update_same]
    · rw [if_neg (by omega), Function.update_noteq h2]

/-- The split loop of `buddy_malloc` returns, with the block in hand split
down to class `k` and every upper half on the free list of its class. -/
theorem malloc_split_spec (c : Consts) (res : List (Nat × Nat)) (B k : Nat)
    (hk : c.SMALLEST_K ≤ k) :
    ∀ n (s : State) (fl : Nat → List Nat), InvH c s fl res (some (B, k + n)) →
      ∃ s1, malloc_split c k B n s (k + n) = some s1 ∧
        InvH c s1 (splitLists fl B k (k + n)) res (some (B, k)) ∧
        SameFrame s1 s := by
  intro n
  induction n with
  | zero =>
    intro s fl I
    refine ⟨s, ?_, ?_, ⟨rfl, rfl, rfl, rfl, rfl⟩⟩
    · simp [malloc_split]
    · rw [Nat.add_zero] at I ⊢
      rw [splitLists_self]
      exact I
  | succ n ih =>
    intro s fl I
    obtain ⟨s3, e, I3, e1⟩ := inv_split_step c s fl res B (k + n) I (by omega)
    obtain ⟨s1, e4, I1, e5⟩ := ih _ _ I3
    refine ⟨s1, ?_, ?_, SameFrame.trans e5 e1⟩
    · simp only [malloc_split]
      rw [if_pos (by omega)]
      have : k + (n + 1) - 1 = k + n := by omega
      simp only [this]
      rw [e]
      simp only [Option.some_bind]
      exact e4
    · rw [splitLists_succ] at I1
      exact I1


theorem malloc_early (c : Consts) (s : State) (pool : PoolPtr) (size : Nat)
    (h : pool = PoolPtr.null ∨ s.base = 0 ∨ size = 0) :
    buddy_malloc c s pool size = some (setErrno s ENOMEM, 0) := by
  unfold buddy_malloc
  rw [if_pos h]

/-- The allocation fails, leaving all but `errno` as it was, when the sentinels
of the classes `k .. kval_m` are their own successors. -/
theorem malloc_empty (c : Consts) (s : State) (pool : PoolPtr) (size : Nat)
    (hM : s.kval_m < c.MAX_K)
    (he : ∀ j, btok c ((size + c.HDR) % 2 ^ 64) ≤ j → j ≤ s.kval_m →
      s.next (Ptr.sentinel j) = Ptr.sentinel j) :
    buddy_malloc c s pool size = some (setErrno s ENOMEM, 0) := by
  unfold buddy_malloc
  split
  · rfl
  · obtain ⟨r, hr⟩ := malloc_search_none c s hM _ (btok c ((size + c.HDR) % 2 ^ 64)) rfl he
    simp only [hr, Option.some_bind]

/-- The allocation from the head `B` of the lowest non-empty list `j` among the
classes `k .. kval_m`. -/
theorem malloc_ok (c : Consts) (s : State) (fl : Nat → List Nat) (res : List (Nat × Nat))
    (size : Nat) (I : Inv c s fl res) (hsz : size ≠ 0) (j B : Nat) (rest : List Nat)
    (hkj : btok c ((size + c.HDR) % 2 ^ 64) ≤ j) (hj : fl j = B :: rest)
    (hlow : ∀ i, btok c ((size + c.HDR) % 2 ^ 64) ≤ i → i < j → fl i = []) :
    ∃ s1, buddy_malloc c s PoolPtr.addr size = some (s1, B + c.HDR) ∧
      Inv c s1 (splitLists (Function.update fl j rest) B (btok c ((size + c.HDR) % 2 ^ 64)) j)
        ((B, btok c ((size + c.HDR) % 2 ^ 64)) :: res) ∧
      SameFrame s1 s := by
  have hB : B ∈ fl j := by rw [hj]; exact List.mem_cons_self _ _
  have hblk := I.tiling.block B j (Or.inl hB)
  have hjM : j ≤ s.kval_m := hblk.2.1
  have hMM := I.kval_m_lt
  have hSM : c.SMALLEST_K ≤ c.MAX_K := by
    have := I.kval_m_ge
    omega
  generalize hkdef : btok c ((size + c.HDR) % 2 ^ 64) = k at *
  have hk : c.SMALLEST_K ≤ k := by rw [← hkdef]; exact btok_ge c hSM _
  have hhead : s.next (Ptr.sentinel j) = Ptr.block B := by
    have := I.heap.lists j (by omega)
    rw [hj] at this
    exact this.1
  have hsearch : malloc_search c s (s.kval_m + 1 - k) k = some (j, Ptr.block B) := by
    rw [← hhead]
    apply malloc_search_some c s hMM j hjM (by rw [hhead]; simp) _ k rfl hkj
    intro i h1 h2
    exact (isList_nil_iff s i (fl i) (I.heap.lists i (by omega))).2 (hlow i h1 h2)
  obtain ⟨s1, e1, I1, e2, -, -⟩ := inv_take c s fl res B j I hB
  have herase : (fl j).erase B = rest := by rw [hj]; exact List.erase_cons_head B rest
  rw [herase] at I1
  have hjk : j = k + (j - k) := by omega
  rw [hjk] at I1
  obtain ⟨s2, e6, I2, e7⟩ := malloc_split_spec c res B k hk (j - k) s1 _ I1
  rw [← hjk] at I2 e6
  refine ⟨setTag s2 (Ptr.block B) Tag.BLOCK_RESERVED, ?_, inv_reserve c s2 _ res B k I2,
    @SameFrame.trans _ s2 _ ⟨rfl, rfl, rfl, rfl, rfl⟩ (SameFrame.trans e7 e2)⟩
  · unfold buddy_malloc
    have hb := I.base_pos
    rw [if_neg (by simp; omega)]
    simp only [hkdef, hsearch, Option.some_bind, e1, e6]


/-! ## Deallocation -/

/-- On an existing block of a class below the top class `buddy_calc` returns
the buddy address. -/
theorem buddy_calc_eq (c : Consts) (s : State) (fl : Nat → List Nat) (res : List (Nat × Nat))
    (hold : Option (Nat × Nat)) (I : InvH c s fl res hold) (b k : Nat)
    (hL : Live fl res hold b k) (hkv : s.kval (Ptr.block b) = k) (hk : k < s.kval_m) :
    buddy_calc s PoolPtr.addr b = buddyAddr s.base b k ∧ buddyAddr s.base b k ≠ 0 := by
  have hB := I.tiling.block b k hL
  have hB1 := isBlock_buddy c _ _ b k hB hk
  obtain ⟨-, -, h3, -, h5⟩ := hB1
  have hb0 := I.base_pos
  have hnw := I.no_wrap
  have hnb := I.numbytes_eq
  have hp := Nat.two_pow_pos k
  have hge : s.base ≤ b := hB.2.2.1
  refine ⟨?_, by omega⟩
  unfold buddy_calc
  rw [if_neg (by simp; omega)]
  simp only [hkv]
  have hba : s.base + ((b - s.base) ^^^ 2 ^ k) = buddyAddr s.base b k := rfl
  rw [hba, Nat.mod_eq_of_lt (by omega), Nat.mod_eq_of_lt hnw, if_neg (by omega)]

/-- The buddy of the block in hand passes the test of the coalescing loop
(lab.c 173) exactly when it is on the free list of the class. -/
theorem buddy_test_iff (c : Consts) (s : State) (fl : Nat → List Nat) (res : List (Nat × Nat))
    (b k : Nat) (I : InvH c s fl res (some (b, k))) (hk : k < s.kval_m) :
    (s.tag (Ptr.block (buddyAddr s.base b k)) = Tag.BLOCK_AVAIL ∧
      s.kval (Ptr.block (buddyAddr s.base b k)) = k) ↔ buddyAddr s.base b k ∈ fl k := by
  have hL : Live fl res (some (b, k)) b k := Or.inr (Or.inr rfl)
  constructor
  · rintro ⟨htag, hkv1⟩
    obtain ⟨k1, hk1, hL1⟩ := tiling_buddy_live c _ _ fl res _ I.tiling b k hL hk
    rcases hL1 with h | h | h
    · have := (I.heap.free_hdr k1 _ h).2
      rw [hkv1] at this
      exact this.symm ▸ h
    · have := (I.heap.res_hdr _ k1 h).1
      rw [htag] at this
      exact absurd this (by simp)
    · simp only [Option.some.injEq, Prod.mk.injEq] at h
      have hge := (I.tiling.block b k hL).2.2.1
      exact absurd h.1.symm (buddyAddr_ne s.base b k hge)
  · intro hm
    exact I.heap.free_hdr k _ hm

/-- The coalescing loop of `buddy_free` returns, with the free lists and the
block in hand that `coalesce` describes; the buddy of that block is not free
in its class. -/
theorem free_loop_spec (c : Consts) (res : List (Nat × Nat)) :
    ∀ n (s : State) (fl : Nat → List Nat) (b k : Nat), InvH c s fl res (some (b, k)) →
      n = s.kval_m - k →
      ∃ s1, free_loop c n s b = some (s1, (coalesce s.base s.kval_m n fl b k).2.1) ∧
        InvH c s1 (coalesce s.base s.kval_m n fl b k).1 res
          (some ((coalesce s.base s.kval_m n fl b k).2.1,
            (coalesce s.base s.kval_m n fl b k).2.2)) ∧
        ((coalesce s.base s.kval_m n fl b k).2.2 < s.kval_m →
          buddyAddr s.base (coalesce s.base s.kval_m n fl b k).2.1
            (coalesce s.base s.kval_m n fl b k).2.2 ∉
            (coalesce s.base s.kval_m n fl b k).1 (coalesce s.base s.kval_m n fl b k).2.2) ∧
        SameFrame s1 s ∧ s1.tag = s.tag := by
  intro n
  induction n with
  | zero =>
    intro s fl b k I hn
    have hkv := (I.heap.hold_hdr b k rfl).2
    have hkM := (I.tiling.block b k (Or.inr (Or.inr rfl))).2.1
    refine ⟨s, ?_, I, fun h => ?_, SameFrame.refl s, rfl⟩
    · simp only [free_loop, coalesce]
      rw [if_neg (by omega)]
    · simp only [coalesce] at h
      omega
  | succ n ih =>
    intro s fl b k I hn
    have hL : Live fl res (some (b, k)) b k := Or.inr (Or.inr rfl)
    have hkv := (I.heap.hold_hdr b k rfl).2
    have hk : k < s.kval_m := by omega
    obtain ⟨hbc, hb0⟩ := buddy_calc_eq c s fl res _ I b k hL hkv hk
    have htest := buddy_test_iff c s fl res b k I hk
    simp only [free_loop, coalesce]
    rw [if_pos (by omega), hbc, hkv]
    by_cases hm : buddyAddr s.base b k ∈ fl k
    · have ht := htest.2 hm
      have hcond : ¬ (buddyAddr s.base b k = 0 ∨
          s.tag (Ptr.block (buddyAddr s.base b k)) ≠ Tag.BLOCK_AVAIL ∨
          s.kval (Ptr.block (buddyAddr s.base b k)) ≠ k) := by
        rintro (h | h | h)
        · exact hb0 h
        · exact h ht.1
        · exact h ht.2
      rw [if_neg hcond,
        if_pos (⟨hk, hm⟩ : k < s.kval_m ∧ buddyAddr s.base b k ∈ fl k)]
      obtain ⟨s1, e, I1, e1, et⟩ := inv_merge c s fl res b k I hk hm
      rw [e]
      simp only [Option.some_bind]
      obtain ⟨s2, e3, I2, hb2, e4, et2⟩ := ih _ _ _ _ I1 (by
        have : (setKval s1
          (Ptr.block (if buddyAddr s.base b k < b then buddyAddr s.base b k else b))
          (s1.kval (Ptr.block (if buddyAddr s.base b k < b then buddyAddr s.base b k else b))
            + 1)).kval_m = s.kval_m := e1.2.1
        rw [this]; omega)
      have hbase : (setKval s1
          (Ptr.block (if buddyAddr s.base b k < b then buddyAddr s.base b k else b))
          (s1.kval (Ptr.block (if buddyAddr s.base b k < b then buddyAddr s.base b k else b))
            + 1)).base = s.base := e1.1
      have hM : (setKval s1
          (Ptr.block (if buddyAddr s.base b k < b then buddyAddr s.base b k else b))
          (s1.kval (Ptr.block (if buddyAddr s.base b k < b then buddyAddr s.base b k else b))
            + 1)).kval_m = s.kval_m := e1.2.1
      rw [hbase, hM] at e3 I2 hb2
      exact ⟨s2, e3, I2, hb2,
        SameFrame.trans e4 (@SameFrame.trans _ s1 _ ⟨rfl, rfl, rfl, rfl, rfl⟩ e1),
        et2.trans et⟩
    · have hnt : buddyAddr s.base b k = 0 ∨
          s.tag (Ptr.block (buddyAddr s.base b k)) ≠ Tag.BLOCK_AVAIL ∨
          s.kval (Ptr.block (buddyAddr s.base b k)) ≠ k := by
        by_contra hcon
        push_neg at hcon
        exact hm (htest.1 ⟨hcon.2.1, hcon.2.2⟩)
      rw [if_pos hnt,
        if_neg (fun h => hm h.2 : ¬ (k < s.kval_m ∧ buddyAddr s.base b k ∈ fl k))]
      exact ⟨s, rfl, I, fun _ => hm, SameFrame.refl s, rfl⟩

/-- Freeing a reserved block: `buddy_free` returns, the invariant holds with
that block no longer reserved, and the free lists are those `freeLists`
describes. -/
theorem free_ok (c : Consts) (s : State) (fl : Nat → List Nat) (res : List (Nat × Nat))
    (a k : Nat) (I : Inv c s fl res) (ha : (a, k) ∈ res) :
    ∃ s1, buddy_free c s PoolPtr.addr (a + c.HDR) = some s1 ∧
      Inv c s1 (freeLists s.base s.kval_m fl a k) (res.erase (a, k)) ∧ SameFrame s1 s ∧
      s1.tag = Function.update s.tag (Ptr.block a) Tag.BLOCK_AVAIL := by
  have I0 := inv_release c s fl res a k I ha
  have hkv := (I0.heap.hold_hdr a k rfl).2
  obtain ⟨s1, e1, I1, hb1, f1, t1⟩ := free_loop_spec c _ (s.kval_m - k) _ fl a k I0 rfl
  have hb : (setTag s (Ptr.block a) Tag.BLOCK_AVAIL).base = s.base := rfl
  have hM : (setTag s (Ptr.block a) Tag.BLOCK_AVAIL).kval_m = s.kval_m := rfl
  rw [hb, hM] at e1 I1 hb1
  have hkv1 := (I1.heap.hold_hdr _ _ rfl).2
  obtain ⟨s2, e2, I2, f2, t2, -⟩ := inv_put c s1 _ _ _ _ I1 (by
    rw [f1.1, f1.2.1]; exact hb1)
  refine ⟨s2, ?_, I2, SameFrame.trans f2 (SameFrame.trans f1 ⟨rfl, rfl, rfl, rfl, rfl⟩),
    t2.trans t1⟩
  unfold buddy_free
  have hge := (I.tiling.block a k (Or.inr (Or.inl ha))).2.2.1
  have hbp := I.base_pos
  rw [if_neg (by simp; omega)]
  simp only [Nat.add_sub_cancel]
  rw [hkv, hM, e1]
  simp only [Option.some_bind]
  rw [hkv1]
  exact e2


/-! ## Arena creation -/

theorem fold_init_sentinel (s : State) (n : Nat) :
    ((List.range n).foldl init_sentinel s).errno = s.errno ∧
    ((List.range n).foldl init_sentinel s).kval_m = s.kval_m ∧
    ((List.range n).foldl init_sentinel s).numbytes = s.numbytes ∧
    ((List.range n).foldl init_sentinel s).base = s.base ∧
    ((List.range n).foldl init_sentinel s).data = s.data ∧
    (∀ a, ((List.range n).foldl init_sentinel s).tag (Ptr.block a) = s.tag (Ptr.block a) ∧
      ((List.range n).foldl init_sentinel s).kval (Ptr.block a) = s.kval (Ptr.block a) ∧
      ((List.range n).foldl init_sentinel s).next (Ptr.block a) = s.next (Ptr.block a) ∧
      ((List.range n).foldl init_sentinel s).prev (Ptr.block a) = s.prev (Ptr.block a)) ∧
    (∀ i, i < n →
      ((List.range n).foldl init_sentinel s).tag (Ptr.sentinel i) = Tag.BLOCK_UNUSED ∧
      ((List.range n).foldl init_sentinel s).kval (Ptr.sentinel i) = i ∧
      ((List.range n).foldl init_sentinel s).next (Ptr.sentinel i) = Ptr.sentinel i ∧
      ((List.range n).foldl init_sentinel s).prev (Ptr.sentinel i) = Ptr.sentinel i) := by
  induction n with
  | zero => simp
  | succ n ih =>
    rw [List.range_succ, List.foldl_append]
    obtain ⟨h1, h2, h3, h4, h5, h6, h7⟩ := ih
    simp only [List.foldl_cons, List.foldl_nil]
    refine ⟨h1, h2, h3, h4, h5, ?_, ?_⟩
    · intro a
      simpa [init_sentinel, setTag, setKval, setNext, setPrev] using h6 a
    · intro i hi
      by_cases hin : i = n
      · subst hin
        simp [init_sentinel, setTag, setKval, setNext, setPrev]
      · have := h7 i (by omega)
        have hne : Ptr.sentinel i ≠ Ptr.sentinel n := by simp [hin]
        simpa [init_sentinel, setTag, setKval, setNext, setPrev, Function.update_noteq hne] using this

theorem init_fill_spec (c : Consts) (s : State) (kval mem : Nat) :
    (init_fill c s kval mem).errno = s.errno ∧
    (init_fill c s kval mem).kval_m = kval ∧
    (init_fill c s kval mem).numbytes = 2 ^ kval ∧
    (init_fill c s kval mem).base = mem ∧
    (init_fill c s kval mem).data = s.data ∧
    (init_fill c s kval mem).tag (Ptr.block mem) = Tag.BLOCK_AVAIL ∧
    (init_fill c s kval mem).kval (Ptr.block mem) = kval ∧
    (init_fill c s kval mem).next (Ptr.block mem) = Ptr.sentinel kval ∧
    (init_fill c s kval mem).prev (Ptr.block mem) = Ptr.sentinel kval ∧
    (∀ i, i < c.MAX_K →
      (init_fill c s kval mem).tag (Ptr.sentinel i) = Tag.BLOCK_UNUSED ∧
      (init_fill c s kval mem).kval (Ptr.sentinel i) = i ∧
      (init_fill c s kval mem).next (Ptr.sentinel i) = Ptr.sentinel i ∧
      (init_fill c s kval mem).prev (Ptr.sentinel i) = Ptr.sentinel i) := by
  obtain ⟨h1, h2, h3, h4, h5, -, h7⟩ := fold_init_sentinel
    { s with kval_m := kval, numbytes := 2 ^ kval, base := mem } c.MAX_K
  simp only [init_fill, init_avail, setPrev, setNext, setKval, setTag, Function.update_same]
  refine ⟨h1, h2, h3, h4, h5, trivial, trivial, trivial, trivial, ?_⟩
  intro i hi
  have hne : Ptr.sentinel i ≠ Ptr.block mem := by simp
  simp only [Function.update_noteq hne]
  exact h7 i hi

/-- The state `buddy_init` builds when the mapping succeeds at `mem` and the
class is inside the sentinel array. -/
theorem buddy_init_ok (c : Consts) (mmap : Nat → Option Nat) (s : State) (size mem : Nat)
    (hk : btok c (init_size c size) < c.MAX_K)
    (hm : mmap (2 ^ btok c (init_size c size)) = some mem) :
    buddy_init c mmap s PoolPtr.addr size =
      some (setPrev (setNext (init_fill c s (btok c (init_size c size)) mem)
        (Ptr.sentinel (btok c (init_size c size))) (Ptr.block mem))
        (Ptr.sentinel (btok c (init_size c size))) (Ptr.block mem)) := by
  have hv : deref c (Ptr.sentinel (btok c (init_size c size))) =
      some (Ptr.sentinel (btok c (init_size c size))) := by
    simp [deref, Ptr.valid, hk]
  simp [buddy_init, hm, hv]

theorem buddy_init_full (c : Consts) (s : State) (kval mem : Nat) :
    Full c (setPrev (setNext (init_fill c s kval mem)
        (Ptr.sentinel kval) (Ptr.block mem)) (Ptr.sentinel kval) (Ptr.block mem)) := by
  obtain ⟨h1, h2, h3, h4, h5, h6, h7, h8, h9, h10⟩ := init_fill_spec c s kval mem
  have hne : Ptr.block mem ≠ Ptr.sentinel kval := by simp
  unfold Full
  simp only [setPrev, setNext, h2, h4, Function.update_same, Function.update_noteq hne]
  refine ⟨fun i hi => ⟨(h10 i hi).1, (h10 i hi).2.1⟩, ?_, trivial, trivial, h6, h7, h8, h9⟩
  intro i hi hne2
  have hne3 : Ptr.sentinel i ≠ Ptr.sentinel kval := by simp [hne2]
  simp only [Function.update_noteq hne3]
  exact ⟨(h10 i hi).2.2.1, (h10 i hi).2.2.2⟩

theorem init_size_le (c : Consts) (hc : c.Valid) (size : Nat)
    (hsz : size ≤ 2 ^ (c.MAX_K - 1)) : init_size c size ≤ 2 ^ (c.MAX_K - 1) := by
  obtain ⟨h1, h2, h3, h4, h5⟩ := hc
  unfold init_size
  split
  · exact Nat.pow_le_pow_right (by norm_num) (by omega)
  · exact hsz

theorem btok_init_lt (c : Consts) (hc : c.Valid) (size : Nat)
    (hsz : size ≤ 2 ^ (c.MAX_K - 1)) : btok c (init_size c size) < c.MAX_K := by
  have h := init_size_le c hc size hsz
  obtain ⟨h1, h2, h3, h4, h5⟩ := hc
  have := btok_least c (by omega) (init_size c size) (c.MAX_K - 1) (by omega) h
  omega

/-- For every requested size of at most `2^(MAX_K-1)` for which
the mapping succeeds, `buddy_init` returns with the pool in the full state:
every sentinel has tag `BLOCK_UNUSED` and `kval` equal to its index, every
sentinel but `avail[kval_m]` is its own `next` and `prev`, and the list of
`avail[kval_m]` is the one block at `base`, `BLOCK_AVAIL`, of class `kval_m`,
with `next` and `prev` pointing to `avail[kval_m]`. -/
theorem buddy_init_full_state (c : Consts) (hc : c.Valid) (mmap : Nat → Option Nat)
    (s : State) (size mem : Nat) (hsz : size ≤ 2 ^ (c.MAX_K - 1))
    (hm : mmap (2 ^ btok c (init_size c size)) = some mem) :
    ∃ s1, buddy_init c mmap s PoolPtr.addr size = some s1 ∧ s1.base = mem ∧ Full c s1 := by
  have hk := btok_init_lt c hc size hsz
  refine ⟨_, buddy_init_ok c mmap s size mem hk hm, ?_, buddy_init_full c s _ mem⟩
  simp only [setPrev, setNext]
  exact (init_fill_spec c s _ mem).2.2.2.1

theorem buddy_init_full_state_witness :
    ∃ s1, buddy_init labConsts (fun _ => some 4096) zeroState PoolPtr.addr (2 ^ 20) = some s1 ∧
      s1.base = 4096 ∧ Full labConsts s1 :=
  buddy_init_full_state labConsts (by decide) (fun _ => some 4096) zeroState (2 ^ 20) 4096
    (by decide) rfl

/-- C6, the code at the failing input: for the request `2^47 + 1` with a
mapping that succeeds `btok` returns `48 = MAX_K`, and `buddy_init` links the
base block to `avail[48]` and writes `avail[48].next` and `avail[48].prev`,
outside the array of `MAX_K` sentinels: no full state results. -/
theorem buddy_init_full_state_overflow :
    (fun _ => some 4096 : Nat → Option Nat) (2 ^ btok labConsts (init_size labConsts (2 ^ 47 + 1)))
        = some 4096 ∧
      btok labConsts (init_size labConsts (2 ^ 47 + 1)) = labConsts.MAX_K ∧
      buddy_init labConsts (fun _ => some 4096) zeroState PoolPtr.addr (2 ^ 47 + 1) = none := by
  refine ⟨rfl, by decide, ?_⟩
  have h : btok labConsts (init_size labConsts (2 ^ 47 + 1)) = 48 := by decide
  simp only [buddy_init, if_neg (by decide : ¬ PoolPtr.addr = PoolPtr.null), h]
  rfl

/-- For every requested size of at most `2^(MAX_K-1)` for which
the mapping succeeds, `buddy_init` rounds the request up to the next power of
two: for size `0` the class is `DEFAULT_K` and `numbytes = 2^DEFAULT_K`;
otherwise `kval_m = btok size`, `numbytes = 2^kval_m ≥ size`, and no power of two
`2^j` with `j ≥ SMALLEST_K` that covers `size` is smaller. -/
theorem buddy_init_arena_size (c : Consts) (hc : c.Valid) (mmap : Nat → Option Nat)
    (s : State) (size mem : Nat) (hsz : size ≤ 2 ^ (c.MAX_K - 1))
    (hm : mmap (2 ^ btok c (init_size c size)) = some mem) :
    ∃ s1, buddy_init c mmap s PoolPtr.addr size = some s1 ∧
      (size = 0 → s1.kval_m = c.DEFAULT_K ∧ s1.numbytes = 2 ^ c.DEFAULT_K) ∧
      (size ≠ 0 → s1.kval_m = btok c size ∧ s1.numbytes = 2 ^ s1.kval_m ∧
        size ≤ s1.numbytes ∧
        ∀ j, c.SMALLEST_K ≤ j → size ≤ 2 ^ j → s1.numbytes ≤ 2 ^ j) := by
  have hk := btok_init_lt c hc size hsz
  have hv := hc
  obtain ⟨h1, h2, h3, h4, h5⟩ := hc
  have hle : c.SMALLEST_K ≤ c.MAX_K := by omega
  obtain ⟨e1, e2, e3, e4, -⟩ := init_fill_spec c s (btok c (init_size c size)) mem
  refine ⟨_, buddy_init_ok c mmap s size mem hk hm, ?_, ?_⟩
  · intro h0
    simp only [setPrev, setNext, e2, e3]
    have : init_size c size = 2 ^ c.DEFAULT_K := by simp [init_size, h0]
    rw [this, btok_pow c hle c.DEFAULT_K h1 h2]
    exact ⟨rfl, rfl⟩
  · intro h0
    simp only [setPrev, setNext, e2, e3]
    have hi : init_size c size = size := by simp [init_size, h0]
    rw [hi] at hk ⊢
    refine ⟨rfl, trivial, btok_covers c hle size hk, ?_⟩
    intro j hj1 hj2
    exact Nat.pow_le_pow_right (by norm_num) (btok_least c hle size j hj1 hj2)

theorem buddy_init_arena_size_witness :
    ∃ s1, buddy_init labConsts (fun _ => some 4096) zeroState PoolPtr.addr 1000 = some s1 ∧
      (1000 = 0 → s1.kval_m = labConsts.DEFAULT_K ∧ s1.numbytes = 2 ^ labConsts.DEFAULT_K) ∧
      (1000 ≠ 0 → s1.kval_m = btok labConsts 1000 ∧ s1.numbytes = 2 ^ s1.kval_m ∧
        1000 ≤ s1.numbytes ∧
        ∀ j, labConsts.SMALLEST_K ≤ j → 1000 ≤ 2 ^ j → s1.numbytes ≤ 2 ^ j) :=
  buddy_init_arena_size labConsts (by decide) (fun _ => some 4096) zeroState 1000 4096
    (by decide) rfl

/-- C7, the code at the failing input: for the request `2^64 - 1` the class
saturates at `48 = MAX_K`, so `buddy_init` asks the operating system for `2^48`
bytes, fewer than requested, and when that mapping succeeds it goes on with
`kval_m = 48` and indexes `avail[48]`, outside the array of `MAX_K` sentinels,
where the request should fail. -/
theorem buddy_init_arena_size_overflow :
    btok labConsts (init_size labConsts (2 ^ 64 - 1)) = labConsts.MAX_K ∧
      2 ^ btok labConsts (init_size labConsts (2 ^ 64 - 1)) < 2 ^ 64 - 1 ∧
      (init_fill labConsts zeroState (btok labConsts (init_size labConsts (2 ^ 64 - 1)))
        4096).numbytes < 2 ^ 64 - 1 ∧
      buddy_init labConsts (fun _ => some 4096) zeroState PoolPtr.addr (2 ^ 64 - 1) = none := by
  have h : btok labConsts (init_size labConsts (2 ^ 64 - 1)) = 48 := by decide
  refine ⟨h, by rw [h]; norm_num, ?_, ?_⟩
  · rw [h]
    show 2 ^ 48 < 2 ^ 64 - 1
    norm_num
  · simp only [buddy_init, if_neg (by decide : ¬ PoolPtr.addr = PoolPtr.null), h]
    rfl

/-- C8, the code at the failing input: when the mapping is refused,
`buddy_init` sets `errno` and returns without writing `pool->base`, so a pool
whose memory held a non-null `base` keeps it; `buddy_destroy` then is not a
no-op. -/
theorem buddy_init_failure_keeps_base :
    ∃ s1, buddy_init labConsts (fun _ => none) staleState PoolPtr.addr (2 ^ 64 - 1) = some s1 ∧
      s1.errno = ENOMEM ∧ s1.base = 4096 ∧ (buddy_destroy s1 PoolPtr.addr).base ≠ s1.base :=
  ⟨setErrno staleState ENOMEM, by simp [buddy_init], rfl, rfl, by decide⟩

/-- A pool in the full state satisfies the invariant, with the one block at
`base` on the list of the top class and nothing reserved. -/
theorem inv_of_full (c : Consts) (s : State) (hF : Full c s) (hb : 0 < s.base)
    (hn : s.numbytes = 2 ^ s.kval_m) (h1 : c.SMALLEST_K ≤ s.kval_m) (h2 : s.kval_m < c.MAX_K)
    (hw : s.base + s.numbytes < 2 ^ 64) :
    Inv c s (fun k => if k = s.kval_m then [s.base] else []) [] := by
  obtain ⟨f1, f2, f3, f4, f5, f6, f7, f8⟩ := hF
  refine ⟨hb, hn, h1, h2, hw, tiling_init c s.base s.kval_m h1, ?_⟩
  refine ⟨f1, ?_, ?_, ?_, ?_⟩
  · intro k hk
    by_cases hkM : k = s.kval_m
    · subst hkM
      simp only [if_true, IsList, Chain]
      exact ⟨f3, f8, f7, f4⟩
    · simp only [hkM, if_false, IsList, Chain]
      exact f2 k hk hkM
  · intro k a ha
    by_cases hkM : k = s.kval_m
    · subst hkM
      simp only [if_true, List.mem_singleton] at ha
      subst ha
      exact ⟨f5, f6⟩
    · simp [hkM] at ha
  · intro a k h
    simp at h
  · intro a k h
    simp at h

/-- A pool that satisfies the invariant with nothing reserved is in the full
state. -/
theorem full_of_inv (c : Consts) (s : State) (fl : Nat → List Nat) (I : Inv c s fl []) :
    Full c s := by
  obtain ⟨hM, he⟩ := tiling_full c _ _ fl I.tiling
  have hl := I.heap.lists s.kval_m I.kval_m_lt
  rw [hM] at hl
  simp only [IsList, Chain] at hl
  obtain ⟨l1, l2, l3, l4⟩ := hl
  have hh := I.heap.free_hdr s.kval_m s.base (by rw [hM]; simp)
  refine ⟨I.heap.sent, ?_, l1, l4, hh.1, hh.2, l3, l2⟩
  intro i hi hne
  have := I.heap.lists i hi
  rw [he i hne] at this
  exact this

/-- After a successful `buddy_init` the invariant holds. -/
theorem buddy_init_inv (c : Consts) (hc : c.Valid) (mmap : Nat → Option Nat) (hmap : MapOk mmap)
    (s : State) (size mem : Nat) (hsz : size ≤ 2 ^ (c.MAX_K - 1))
    (hm : mmap (2 ^ btok c (init_size c size)) = some mem) :
    ∃ s1, buddy_init c mmap s PoolPtr.addr size = some s1 ∧
      Inv c s1 (fun k => if k = s1.kval_m then [s1.base] else []) [] ∧
      s1.base = mem ∧ s1.kval_m = btok c (init_size c size) ∧ s1.errno = s.errno ∧
      s1.data = s.data := by
  have hk := btok_init_lt c hc size hsz
  obtain ⟨h1, h2, h3, h4, h5⟩ := hc
  obtain ⟨e1, e2, e3, e4, e5, -⟩ := init_fill_spec c s (btok c (init_size c size)) mem
  obtain ⟨m1, m2⟩ := hmap _ _ hm
  refine ⟨_, buddy_init_ok c mmap s size mem hk hm, ?_, e4, e2, e1, e5⟩
  apply inv_of_full c _ (buddy_init_full c s _ mem)
  · show 0 < (init_fill c s (btok c (init_size c size)) mem).base
    rw [e4]
    exact m1
  · show (init_fill c s (btok c (init_size c size)) mem).numbytes =
      2 ^ (init_fill c s (btok c (init_size c size)) mem).kval_m
    rw [e3, e2]
  · show c.SMALLEST_K ≤ (init_fill c s (btok c (init_size c size)) mem).kval_m
    rw [e2]
    exact btok_ge c (by omega) _
  · show (init_fill c s (btok c (init_size c size)) mem).kval_m < c.MAX_K
    rw [e2]
    exact hk
  · show (init_fill c s (btok c (init_size c size)) mem).base +
      (init_fill c s (btok c (init_size c size)) mem).numbytes < 2 ^ 64
    rw [e4, e3]
    exact m2


/-! ## The claims about allocation -/

theorem initState_eq :
    buddy_init labConsts (fun _ => some 4096) zeroState PoolPtr.addr (2 ^ 20) = some initState :=
  buddy_init_ok labConsts (fun _ => some 4096) zeroState (2 ^ 20) 4096 (by decide) rfl

theorem initState_full : Full labConsts initState :=
  buddy_init_full labConsts zeroState 20 4096

theorem initState_fields :
    initState.base = 4096 ∧ initState.kval_m = 20 ∧ initState.numbytes = 2 ^ 20 := by
  obtain ⟨-, e2, e3, e4, -⟩ := init_fill_spec labConsts zeroState 20 4096
  exact ⟨e4, e2, e3⟩

theorem initState_inv :
    Inv labConsts initState (fun k => if k = initState.kval_m then [initState.base] else [])
      [] := by
  obtain ⟨e1, e2, e3⟩ := initState_fields
  apply inv_of_full labConsts initState initState_full
  · rw [e1]; decide
  · rw [e3, e2]
  · rw [e2]; decide
  · rw [e2]; decide
  · rw [e1, e3]; decide

theorem initState_wf : WellFormed labConsts initState := ⟨_, _, initState_inv⟩

/-- C1: on a well-formed pool, for a request `size > 0` with `size + HDR` not
wrapping and `k = btok (size + HDR)`, when list `j` is the lowest non-empty
list among the classes `k .. kval_m`, `buddy_malloc` returns the payload
address `B + HDR` of the head `B` of list `j`; afterwards the header of `B` has
`kval = k` and tag `BLOCK_RESERVED`, `B` is on no free list of the (again
well-formed) pool, and `2^k ≥ size + HDR`. -/
theorem buddy_malloc_lowest_head (c : Consts) (_hc : c.Valid) (s : State)
    (hw : WellFormed c s) (size : Nat) (hsz : 0 < size) (hnw : size + c.HDR < 2 ^ 64) (j : Nat)
    (hkj : btok c (size + c.HDR) ≤ j) (hjM : j ≤ s.kval_m)
    (hne : s.next (Ptr.sentinel j) ≠ Ptr.sentinel j)
    (hlow : ∀ i, btok c (size + c.HDR) ≤ i → i < j →
      s.next (Ptr.sentinel i) = Ptr.sentinel i) :
    ∃ B s1, s.next (Ptr.sentinel j) = Ptr.block B ∧
      buddy_malloc c s PoolPtr.addr size = some (s1, B + c.HDR) ∧
      s1.kval (Ptr.block B) = btok c (size + c.HDR) ∧
      s1.tag (Ptr.block B) = Tag.BLOCK_RESERVED ∧
      (∃ fl1 res1, Inv c s1 fl1 res1 ∧ ∀ i, B ∉ fl1 i) ∧
      size + c.HDR ≤ 2 ^ btok c (size + c.HDR) := by
  obtain ⟨fl, res, I⟩ := hw
  have hmod : (size + c.HDR) % 2 ^ 64 = size + c.HDR := Nat.mod_eq_of_lt hnw
  have hMM := I.kval_m_lt
  have hSM : c.SMALLEST_K ≤ c.MAX_K := by
    have := I.kval_m_ge
    omega
  have hlj := I.heap.lists j (by omega)
  obtain ⟨B, rest, hBr⟩ : ∃ B rest, fl j = B :: rest := by
    cases hfl : fl j with
    | nil => exact absurd ((isList_nil_iff s j (fl j) hlj).2 hfl) hne
    | cons B rest => exact ⟨B, rest, rfl⟩
  have hlow1 : ∀ i, btok c ((size + c.HDR) % 2 ^ 64) ≤ i → i < j → fl i = [] := by
    intro i h1 h2
    rw [hmod] at h1
    exact (isList_nil_iff s i (fl i) (I.heap.lists i (by omega))).1 (hlow i h1 h2)
  obtain ⟨s1, e, I1, f⟩ := malloc_ok c s fl res size I (by omega) j B rest
    (by rw [hmod]; exact hkj) hBr hlow1
  rw [hmod] at I1
  have hr := I1.heap.res_hdr B (btok c (size + c.HDR)) (List.mem_cons_self _ _)
  refine ⟨B, s1, ?_, e, hr.2, hr.1, ⟨_, _, I1, ?_⟩, ?_⟩
  · rw [hBr] at hlj
    exact hlj.1
  · intro i hi
    exact free_not_res c _ _ _ _ _ I1.tiling B i (btok c (size + c.HDR)) hi
      (List.mem_cons_self _ _)
  · exact btok_covers c hSM _ (by omega)

theorem buddy_malloc_lowest_head_witness :
    ∃ B s1, initState.next (Ptr.sentinel 20) = Ptr.block B ∧
      buddy_malloc labConsts initState PoolPtr.addr (2 ^ 20 - 24) = some (s1, B + labConsts.HDR) ∧
      s1.kval (Ptr.block B) = btok labConsts (2 ^ 20 - 24 + labConsts.HDR) ∧
      s1.tag (Ptr.block B) = Tag.BLOCK_RESERVED ∧
      (∃ fl1 res1, Inv labConsts s1 fl1 res1 ∧ ∀ i, B ∉ fl1 i) ∧
      2 ^ 20 - 24 + labConsts.HDR ≤ 2 ^ btok labConsts (2 ^ 20 - 24 + labConsts.HDR) :=
  buddy_malloc_lowest_head labConsts (by decide) initState initState_wf (2 ^ 20 - 24)
    (by decide) (by decide) 20 (by decide) (by rw [initState_fields.2.1])
    (by
      have h := initState_full.2.2.1
      rw [initState_fields.2.1] at h
      rw [h]; simp)
    (fun i h1 h2 => by
      have : btok labConsts (2 ^ 20 - 24 + labConsts.HDR) = 20 := by decide
      omega)


/-- On a pool that satisfies the invariant `buddy_malloc` returns, and it
returns null only when the free lists of the classes `k .. kval_m` are empty. -/
theorem malloc_total (c : Consts) (s : State) (fl : Nat → List Nat) (res : List (Nat × Nat))
    (size : Nat) (I : Inv c s fl res) (hsz : size ≠ 0) :
    (∃ r, buddy_malloc c s PoolPtr.addr size = some r) ∧
    ∀ s1, buddy_malloc c s PoolPtr.addr size = some (s1, 0) →
      s1 = setErrno s ENOMEM ∧
      ∀ j, btok c ((size + c.HDR) % 2 ^ 64) ≤ j → j ≤ s.kval_m →
        s.next (Ptr.sentinel j) = Ptr.sentinel j := by
  by_cases hex : ∃ j, btok c ((size + c.HDR) % 2 ^ 64) ≤ j ∧ j ≤ s.kval_m ∧ fl j ≠ []
  · -- the lowest non-empty list
    have hj := Nat.find_spec hex
    have hmin := fun i => Nat.find_min hex (m := i)
    generalize Nat.find hex = j at hj hmin
    obtain ⟨h1, h2, h3⟩ := hj
    obtain ⟨B, rest, hBr⟩ : ∃ B rest, fl j = B :: rest := by
      cases hfl : fl j with
      | nil => exact absurd hfl h3
      | cons B rest => exact ⟨B, rest, rfl⟩
    have hlow : ∀ i, btok c ((size + c.HDR) % 2 ^ 64) ≤ i → i < j → fl i = [] := by
      intro i hi1 hi2
      by_contra hne
      exact hmin i hi2 ⟨hi1, by omega, hne⟩
    obtain ⟨s1, e, I1, f⟩ := malloc_ok c s fl res size I hsz j B rest h1 hBr hlow
    refine ⟨⟨_, e⟩, ?_⟩
    intro s2 e2
    rw [e] at e2
    simp only [Option.some.injEq, Prod.mk.injEq] at e2
    have hB := (I.tiling.block B j (Or.inl (by rw [hBr]; simp))).2.2.1
    have := I.base_pos
    omega
  · have he : ∀ j, btok c ((size + c.HDR) % 2 ^ 64) ≤ j → j ≤ s.kval_m →
        s.next (Ptr.sentinel j) = Ptr.sentinel j := by
      intro j h1 h2
      have hM := I.kval_m_lt
      apply (isList_nil_iff s j (fl j) (I.heap.lists j (by omega))).2
      by_contra hne
      exact hex ⟨j, h1, h2, hne⟩
    have e := malloc_empty c s PoolPtr.addr size I.kval_m_lt he
    refine ⟨⟨_, e⟩, ?_⟩
    intro s2 e2
    rw [e] at e2
    simp only [Option.some.injEq, Prod.mk.injEq] at e2
    exact ⟨e2.1.symm, he⟩

/-- C2: `buddy_malloc` returns null with `errno = ENOMEM` and every other cell
of the state as it was (`setErrno` writes `errno` only) when the pool is null,
`base` is null, `size = 0`, or every free list of class `k .. kval_m` is empty
(`k = btok (size + HDR)`, the sum taken as `size_t`); and on a well-formed pool
with `size > 0` it returns, and returns null only in the last case. -/
theorem buddy_malloc_failure (c : Consts) (_hc : c.Valid) (s : State) (size : Nat) :
    (∀ pool, (pool = PoolPtr.null ∨ s.base = 0 ∨ size = 0) →
      buddy_malloc c s pool size = some (setErrno s ENOMEM, 0)) ∧
    (∀ pool, s.kval_m < c.MAX_K →
      (∀ j, btok c ((size + c.HDR) % 2 ^ 64) ≤ j → j ≤ s.kval_m →
        s.next (Ptr.sentinel j) = Ptr.sentinel j) →
      buddy_malloc c s pool size = some (setErrno s ENOMEM, 0)) ∧
    (setErrno s ENOMEM).errno = ENOMEM ∧
    (WellFormed c s → size ≠ 0 →
      (∃ r, buddy_malloc c s PoolPtr.addr size = some r) ∧
      ∀ s1, buddy_malloc c s PoolPtr.addr size = some (s1, 0) →
        s1 = setErrno s ENOMEM ∧
        ∀ j, btok c ((size + c.HDR) % 2 ^ 64) ≤ j → j ≤ s.kval_m →
          s.next (Ptr.sentinel j) = Ptr.sentinel j) := by
  refine ⟨fun pool h => malloc_early c s pool size h,
    fun pool hM he => malloc_empty c s pool size hM he, rfl, ?_⟩
  rintro ⟨fl, res, I⟩ hsz
  exact malloc_total c s fl res size I hsz


theorem buddy_malloc_failure_witness :
    buddy_malloc labConsts initState PoolPtr.addr 0 = some (setErrno initState ENOMEM, 0) ∧
      buddy_malloc labConsts initState PoolPtr.addr (2 ^ 20) =
        some (setErrno initState ENOMEM, 0) :=
  ⟨(buddy_malloc_failure labConsts (by decide) initState 0).1 PoolPtr.addr
      (Or.inr (Or.inr rfl)),
   (buddy_malloc_failure labConsts (by decide) initState (2 ^ 20)).2.1 PoolPtr.addr
      (by rw [initState_fields.2.1]; decide)
      (fun j h1 h2 => by
        have : btok labConsts ((2 ^ 20 + labConsts.HDR) % 2 ^ 64) = 21 := by decide
        rw [this] at h1
        rw [initState_fields.2.1] at h2
        omega)⟩

/-! ## Allocation followed by deallocation -/

/-- The outcome of `buddy_malloc` on a pool that satisfies the invariant: it
fails with all lists from class `k` empty, or serves the request from the head
of the lowest non-empty list. -/
theorem malloc_cases (c : Consts) (s : State) (fl : Nat → List Nat) (res : List (Nat × Nat))
    (size : Nat) (I : Inv c s fl res) (hsz : size ≠ 0) :
    (buddy_malloc c s PoolPtr.addr size = some (setErrno s ENOMEM, 0) ∧
      ∀ j, btok c ((size + c.HDR) % 2 ^ 64) ≤ j → j ≤ s.kval_m → fl j = []) ∨
    ∃ j B rest s1, btok c ((size + c.HDR) % 2 ^ 64) ≤ j ∧ fl j = B :: rest ∧
      (∀ i, btok c ((size + c.HDR) % 2 ^ 64) ≤ i → i < j → fl i = []) ∧
      buddy_malloc c s PoolPtr.addr size = some (s1, B + c.HDR) ∧
      Inv c s1 (splitLists (Function.update fl j rest) B (btok c ((size + c.HDR) % 2 ^ 64)) j)
        ((B, btok c ((size + c.HDR) % 2 ^ 64)) :: res) ∧
      SameFrame s1 s := by
  by_cases hex : ∃ j, btok c ((size + c.HDR) % 2 ^ 64) ≤ j ∧ j ≤ s.kval_m ∧ fl j ≠ []
  · right
    have hj := Nat.find_spec hex
    have hmin := fun i => Nat.find_min hex (m := i)
    generalize Nat.find hex = j at hj hmin
    obtain ⟨h1, h2, h3⟩ := hj
    obtain ⟨B, rest, hBr⟩ : ∃ B rest, fl j = B :: rest := by
      cases hfl : fl j with
      | nil => exact absurd hfl h3
      | cons B rest => exact ⟨B, rest, rfl⟩
    have hlow : ∀ i, btok c ((size + c.HDR) % 2 ^ 64) ≤ i → i < j → fl i = [] := by
      intro i hi1 hi2
      by_contra hne
      exact hmin i hi2 ⟨hi1, by omega, hne⟩
    obtain ⟨s1, e, I1, f⟩ := malloc_ok c s fl res size I hsz j B rest h1 hBr hlow
    exact ⟨j, B, rest, s1, h1, hBr, hlow, e, I1, f⟩
  · left
    have hfl : ∀ j, btok c ((size + c.HDR) % 2 ^ 64) ≤ j → j ≤ s.kval_m → fl j = [] := by
      intro j h1 h2
      by_contra hne
      exact hex ⟨j, h1, h2, hne⟩
    refine ⟨malloc_empty c s PoolPtr.addr size I.kval_m_lt ?_, hfl⟩
    intro j h1 h2
    have hM := I.kval_m_lt
    exact (isList_nil_iff s j (fl j) (I.heap.lists j (by omega))).2 (hfl j h1 h2)

theorem splitLists_merge (fl0 : Nat → List Nat) (B i j : Nat) (hij : i < j) :
    Function.update (splitLists fl0 B i j) i
      ((splitLists fl0 B i j i).erase (B + 2 ^ i)) = splitLists fl0 B (i + 1) j := by
  funext x
  simp only [splitLists]
  by_cases hx : x = i
  · subst hx
    rw [Function.update_same, if_pos ⟨le_refl _, hij⟩, if_neg (by omega),
      List.erase_cons_head]
  · rw [Function.update_noteq hx]
    simp only [splitLists]
    by_cases h1 : i ≤ x ∧ x < j
    · rw [if_pos h1, if_pos (by omega)]
    · rw [if_neg h1, if_neg (by omega)]

/-- Coalescing undoes splitting: started with the block `B` of class `i` in
hand and the lists as the split loop left them, the coalescing loop restores
the lists and ends with `B` of class `j` in hand. -/
theorem coalesce_split (c : Consts) (base M : Nat) (fl0 : Nat → List Nat) (B j : Nat)
    (hB : IsBlock c base M B j) (hstop : j < M → buddyAddr base B j ∉ fl0 j) :
    ∀ d i fuel, i + d = j → c.SMALLEST_K ≤ i + 1 → d ≤ fuel →
      coalesce base M fuel (splitLists fl0 B i j) B i = (fl0, B, j) := by
  intro d
  induction d with
  | zero =>
    intro i fuel hi _ _
    have : i = j := by omega
    subst this
    rw [splitLists_self]
    cases fuel with
    | zero => rfl
    | succ f =>
      simp only [coalesce]
      rw [if_neg (fun h => hstop h.1 h.2)]
  | succ d ih =>
    intro i fuel hi hk hf
    obtain ⟨f, rfl⟩ : ∃ f, fuel = f + 1 := ⟨fuel - 1, by omega⟩
    obtain ⟨b1, b2, b3, b4, b5⟩ := hB
    have hpw : 2 ^ (i + 1) ∣ 2 ^ j := pow_dvd_pow 2 (by omega)
    have hle : 2 ^ (i + 1) ≤ 2 ^ j := Nat.pow_le_pow_right (by norm_num) (by omega)
    have hB1 : IsBlock c base M B (i + 1) :=
      ⟨hk, by omega, b3, Dvd.dvd.trans hpw b4, by omega⟩
    have hbud : buddyAddr base B i = B + 2 ^ i := buddy_lower c base M B i hB1
    have hp := Nat.two_pow_pos i
    simp only [coalesce]
    have hmem : buddyAddr base B i ∈ splitLists fl0 B i j i := by
      rw [hbud]
      simp only [splitLists]
      rw [if_pos ⟨le_refl _, by omega⟩]
      exact List.mem_cons_self _ _
    rw [if_pos (⟨by omega, hmem⟩ : i < M ∧ buddyAddr base B i ∈ splitLists fl0 B i j i), hbud,
      if_neg (by omega), splitLists_merge fl0 B i j (by omega)]
    exact ih (i + 1) f (by omega) (by omega) (by omega)

theorem update_update_head (fl : Nat → List Nat) (j B : Nat) (rest : List Nat)
    (h : fl j = B :: rest) :
    Function.update (Function.update fl j rest) j (B :: Function.update fl j rest j) = fl := by
  funext x
  by_cases hx : x = j
  · subst hx
    simp [h]
  · simp [Function.update_noteq hx]

/-- The free lists after allocating and at once freeing are the lists before. -/
theorem freeLists_split (c : Consts) (base M : Nat) (fl : Nat → List Nat)
    (res : List (Nat × Nat)) (T : Tiling c base M fl res none) (j B k : Nat)
    (rest : List Nat) (hk : c.SMALLEST_K ≤ k) (hkj : k ≤ j) (hj : fl j = B :: rest) :
    freeLists base M (splitLists (Function.update fl j rest) B k j) B k = fl := by
  have hBm : B ∈ fl j := by rw [hj]; exact List.mem_cons_self _ _
  have hB := T.block B j (Or.inl hBm)
  have hstop : j < M → buddyAddr base B j ∉ Function.update fl j rest j := by
    intro hjM hm
    rw [Function.update_same] at hm
    exact T.eager j B hBm hjM (by rw [hj]; exact List.mem_cons_of_mem _ hm)
  have hco := coalesce_split c base M (Function.update fl j rest) B j hB hstop (j - k) k
    (M - k) (by omega) (by omega) (by have := hB.2.1; omega)
  unfold freeLists
  rw [hco]
  exact update_update_head fl j B rest hj


theorem allocState_eq :
    buddy_malloc labConsts initState PoolPtr.addr 1 = some (allocState, 4120) := by
  rfl

/-- Two states with the same list of sentinel `h` have the same link cells
along it. -/
theorem chain_cells_eq (nx pv nx1 pv1 : Ptr → Ptr) (h : Ptr) :
    ∀ (l : List Nat) (p : Ptr), Chain nx pv h p l → Chain nx1 pv1 h p l →
      nx1 p = nx p ∧ pv1 h = pv h ∧
      ∀ a ∈ l, nx1 (Ptr.block a) = nx (Ptr.block a) ∧ pv1 (Ptr.block a) = pv (Ptr.block a) := by
  intro l
  induction l with
  | nil =>
    intro p hc hc1
    simp only [Chain] at hc hc1
    exact ⟨by rw [hc.1, hc1.1], by rw [hc.2, hc1.2], fun a ha => by simp at ha⟩
  | cons x l ih =>
    intro p hc hc1
    simp only [Chain] at hc hc1
    obtain ⟨c1, c2, c3⟩ := hc
    obtain ⟨d1, d2, d3⟩ := hc1
    obtain ⟨i1, i2, i3⟩ := ih (Ptr.block x) c3 d3
    refine ⟨by rw [c1, d1], i2, ?_⟩
    intro a ha
    rcases List.mem_cons.1 ha with e | e
    · subst e
      exact ⟨i1, by rw [c2, d2]⟩
    · exact i3 a e

/-- C3: on a pool that satisfies the invariant with the free lists `fl`, when
`buddy_malloc` succeeds with pointer `p`, the call `buddy_free` of `p` right
after it returns and restores the free lists: every list of the pool again
holds the blocks `fl k`, in the same order, each with tag `BLOCK_AVAIL` and
`kval = k`, and the link cells of every sentinel and every free block are what
they were before the allocation. -/
theorem malloc_free_round_trip (c : Consts) (_hc : c.Valid) (s : State)
    (fl : Nat → List Nat) (res : List (Nat × Nat)) (I : Inv c s fl res) (size : Nat)
    (s1 : State) (p : Nat) (hm : buddy_malloc c s PoolPtr.addr size = some (s1, p))
    (hp : p ≠ 0) :
    ∃ s2, buddy_free c s1 PoolPtr.addr p = some s2 ∧ Inv c s2 fl res ∧
      ∀ k, k < c.MAX_K →
        IsList s2 k (fl k) ∧
        s2.next (Ptr.sentinel k) = s.next (Ptr.sentinel k) ∧
        s2.prev (Ptr.sentinel k) = s.prev (Ptr.sentinel k) ∧
        ∀ a ∈ fl k, s2.tag (Ptr.block a) = Tag.BLOCK_AVAIL ∧ s2.kval (Ptr.block a) = k ∧
          s2.next (Ptr.block a) = s.next (Ptr.block a) ∧
          s2.prev (Ptr.block a) = s.prev (Ptr.block a) := by
  have hsz : size ≠ 0 := by
    intro h0
    rw [malloc_early c s PoolPtr.addr size (Or.inr (Or.inr h0))] at hm
    simp only [Option.some.injEq, Prod.mk.injEq] at hm
    exact hp hm.2.symm
  have hSM : c.SMALLEST_K ≤ c.MAX_K := by
    have := I.kval_m_ge
    have := I.kval_m_lt
    omega
  rcases malloc_cases c s fl res size I hsz with ⟨e, -⟩ | ⟨j, B, rest, s1a, hkj, hj, hlow, e, I1, f⟩
  · rw [e] at hm
    simp only [Option.some.injEq, Prod.mk.injEq] at hm
    exact absurd hm.2.symm hp
  · rw [e] at hm
    simp only [Option.some.injEq, Prod.mk.injEq] at hm
    obtain ⟨h1, h2⟩ := hm
    subst h1 h2
    obtain ⟨s2, e2, I2, f2, -⟩ := free_ok c s1a _ _ B _ I1 (List.mem_cons_self _ _)
    rw [List.erase_cons_head, f.1, f.2.1,
      freeLists_split c s.base s.kval_m fl res I.tiling j B _ rest (btok_ge c hSM _) hkj hj]
      at I2
    refine ⟨s2, e2, I2, ?_⟩
    intro k hk
    have hl2 := I2.heap.lists k hk
    have hl := I.heap.lists k hk
    obtain ⟨c1, c2, c3⟩ := chain_cells_eq s.next s.prev s2.next s2.prev _ (fl k) _ hl hl2
    refine ⟨hl2, c1, c2, ?_⟩
    intro a ha
    exact ⟨(I2.heap.free_hdr k a ha).1, (I2.heap.free_hdr k a ha).2, (c3 a ha).1, (c3 a ha).2⟩

theorem malloc_free_round_trip_witness :
    ∃ s2, buddy_free labConsts allocState PoolPtr.addr 4120 = some s2 ∧
      Inv labConsts s2 (fun k => if k = initState.kval_m then [initState.base] else []) [] ∧
      ∀ k, k < labConsts.MAX_K →
        IsList s2 k ((fun k => if k = initState.kval_m then [initState.base] else []) k) ∧
        s2.next (Ptr.sentinel k) = initState.next (Ptr.sentinel k) ∧
        s2.prev (Ptr.sentinel k) = initState.prev (Ptr.sentinel k) ∧
        ∀ a ∈ (fun k => if k = initState.kval_m then [initState.base] else []) k,
          s2.tag (Ptr.block a) = Tag.BLOCK_AVAIL ∧ s2.kval (Ptr.block a) = k ∧
          s2.next (Ptr.block a) = initState.next (Ptr.block a) ∧
          s2.prev (Ptr.block a) = initState.prev (Ptr.block a) :=
  malloc_free_round_trip labConsts (by decide) initState _ [] initState_inv 1 allocState 4120
    allocState_eq (by decide)


theorem perm_cons_erase_pair (x : Nat × Nat) :
    ∀ (l : List (Nat × Nat)), x ∈ l → List.Perm l (x :: l.erase x) := by
  intro l
  induction l with
  | nil => intro h; simp at h
  | cons y l ih =>
    intro h
    by_cases hxy : y = x
    · subst hxy
      rw [List.erase_cons_head]
    · have hx : x ∈ l := by
        rcases List.mem_cons.1 h with e | e
        · exact absurd e.symm hxy
        · exact e
      rw [List.erase_cons_tail (by simpa using hxy)]
      exact ((ih hx).cons y).trans (List.Perm.swap x y _)

/-- After a sequence of successful allocations the invariant holds, and the
reserved blocks are those of before and the blocks of the returned pointers. -/
theorem malloc_all_inv (c : Consts) :
    ∀ (ns : List Nat) (s : State) (fl : Nat → List Nat) (res : List (Nat × Nat)) (s1 : State)
      (ptrs : List Nat), Inv c s fl res → malloc_all c s ns = some (s1, ptrs) →
      ∃ fl1 res1, Inv c s1 fl1 res1 ∧ SameFrame s1 s ∧
        List.Perm (res1.map fun b => b.1 + c.HDR) (ptrs ++ res.map fun b => b.1 + c.HDR) := by
  intro ns
  induction ns with
  | nil =>
    intro s fl res s1 ptrs I h
    simp only [malloc_all, Option.some.injEq, Prod.mk.injEq] at h
    obtain ⟨h1, h2⟩ := h
    subst h1 h2
    exact ⟨fl, res, I, SameFrame.refl _, by simp⟩
  | cons n ns ih =>
    intro s fl res s1 ptrs I h
    simp only [malloc_all] at h
    by_cases hn : n = 0
    · rw [malloc_early c s PoolPtr.addr n (Or.inr (Or.inr hn))] at h
      simp at h
    · rcases malloc_cases c s fl res n I hn with ⟨e, -⟩ | ⟨j, B, rest, sa, -, -, -, e, Ia, f⟩
      · rw [e] at h
        simp at h
      · rw [e] at h
        have hB := (Ia.tiling.block B _ (Or.inr (Or.inl (List.mem_cons_self _ _)))).2.2.1
        have hbp := Ia.base_pos
        simp only [Option.some_bind] at h
        rw [if_neg (by omega)] at h
        cases hrec : malloc_all c sa ns with
        | none => rw [hrec] at h; simp at h
        | some r =>
          rw [hrec] at h
          simp only [Option.some_bind, Option.some.injEq, Prod.mk.injEq] at h
          obtain ⟨h1, h2⟩ := h
          subst h1 h2
          obtain ⟨fl1, res1, I1, f1, hperm⟩ := ih sa _ _ r.1 r.2 Ia hrec
          refine ⟨fl1, res1, I1, SameFrame.trans f1 f, ?_⟩
          refine hperm.trans ?_
          simp only [List.map_cons, List.cons_append]
          exact List.perm_middle

/-- Freeing every reserved block, in any order, empties the set of reserved
blocks. -/
theorem free_all_inv (c : Consts) :
    ∀ (ps : List Nat) (s : State) (fl : Nat → List Nat) (res : List (Nat × Nat)),
      Inv c s fl res → List.Perm ps (res.map fun b => b.1 + c.HDR) →
      ∃ s1 fl1, free_all c s ps = some s1 ∧ Inv c s1 fl1 [] ∧ SameFrame s1 s := by
  intro ps
  induction ps with
  | nil =>
    intro s fl res I hp
    have : res = [] := by
      have := hp.length_eq
      simp only [List.length_nil, List.length_map] at this
      exact List.length_eq_zero.1 this.symm
    subst this
    exact ⟨s, fl, rfl, I, SameFrame.refl _⟩
  | cons p ps ih =>
    intro s fl res I hp
    have hmem : p ∈ res.map fun b => b.1 + c.HDR := hp.subset (List.mem_cons_self _ _)
    obtain ⟨⟨a, k⟩, hak, rfl⟩ := List.mem_map.1 hmem
    obtain ⟨s1, e, I1, f, -⟩ := free_ok c s fl res a k I hak
    have hp1 : List.Perm ps ((res.erase (a, k)).map fun b => b.1 + c.HDR) := by
      have h1 : List.Perm res ((a, k) :: res.erase (a, k)) := perm_cons_erase_pair (a, k) res hak
      have h2 := (h1.map fun b => b.1 + c.HDR)
      simp only [List.map_cons] at h2
      exact (hp.trans h2).cons_inv
    obtain ⟨s2, fl2, e2, I2, f2⟩ := ih s1 _ _ I1 hp1
    refine ⟨s2, fl2, ?_, I2, SameFrame.trans f2 f⟩
    simp only [free_all]
    rw [e]
    exact e2


theorem fiveState_eq :
    malloc_all labConsts initState [100, 200, 300, 400, 500] =
      some (fiveState, [4120, 4376, 4632, 5144, 6168]) := by
  rfl

theorem labMmap_ok : MapOk labMmap := by
  intro len a h
  unfold labMmap at h
  split at h
  · simp only [Option.some.injEq] at h
    subst h
    have : (2 : Nat) ^ 32 + 4096 < 2 ^ 64 := by norm_num
    omega
  · simp at h

theorem buddy_init_some_lt (c : Consts) (mmap : Nat → Option Nat) (s s0 : State)
    (size mem : Nat) (hm : mmap (2 ^ btok c (init_size c size)) = some mem)
    (h0 : buddy_init c mmap s PoolPtr.addr size = some s0) :
    btok c (init_size c size) < c.MAX_K := by
  by_contra hlt
  have : deref c (Ptr.sentinel (btok c (init_size c size))) = none := by
    simp [deref, Ptr.valid, hlt]
  simp [buddy_init, hm, this] at h0

/-- Two pools in the full state with the same arena have the same sentinel
cells and the same header of the block at `base`. -/
theorem full_cells_eq (c : Consts) (s s1 : State) (h : Full c s) (h1 : Full c s1)
    (hb : s1.base = s.base) (hM : s1.kval_m = s.kval_m) :
    (∀ i, i < c.MAX_K → s1.tag (Ptr.sentinel i) = s.tag (Ptr.sentinel i) ∧
      s1.kval (Ptr.sentinel i) = s.kval (Ptr.sentinel i) ∧
      s1.next (Ptr.sentinel i) = s.next (Ptr.sentinel i) ∧
      s1.prev (Ptr.sentinel i) = s.prev (Ptr.sentinel i)) ∧
    s1.tag (Ptr.block s.base) = s.tag (Ptr.block s.base) ∧
    s1.kval (Ptr.block s.base) = s.kval (Ptr.block s.base) ∧
    s1.next (Ptr.block s.base) = s.next (Ptr.block s.base) ∧
    s1.prev (Ptr.block s.base) = s.prev (Ptr.block s.base) := by
  obtain ⟨f1, f2, f3, f4, f5, f6, f7, f8⟩ := h
  obtain ⟨g1, g2, g3, g4, g5, g6, g7, g8⟩ := h1
  simp only [hb, hM] at g2 g3 g4 g5 g6 g7 g8
  refine ⟨?_, by rw [f5, g5], by rw [f6, g6], by rw [f7, g7], by rw [f8, g8]⟩
  intro i hi
  refine ⟨by rw [(f1 i hi).1, (g1 i hi).1], by rw [(f1 i hi).2, (g1 i hi).2], ?_, ?_⟩
  · by_cases hiM : i = s.kval_m
    · subst hiM
      rw [f3, g3]
    · rw [(f2 i hi hiM).1, (g2 i hi hiM).1]
  · by_cases hiM : i = s.kval_m
    · subst hiM
      rw [f4, g4]
    · rw [(f2 i hi hiM).2, (g2 i hi hiM).2]

/-- C4: on a freshly initialised pool, after any sequence of allocations that
`buddy_malloc` all serves, freeing the returned pointers in any order (each
once) returns and leaves the pool in the full state, which is the state after
`buddy_init`: the same arena, every sentinel cell and the header of the block
at `base` as they were, that block alone on list `kval_m` with tag
`BLOCK_AVAIL` and `kval = kval_m`, and every other list empty. -/
theorem free_all_restores_init (c : Consts) (hc : c.Valid) (mmap : Nat → Option Nat)
    (hmap : MapOk mmap) (s s0 : State) (size mem : Nat)
    (hm : mmap (2 ^ btok c (init_size c size)) = some mem)
    (h0 : buddy_init c mmap s PoolPtr.addr size = some s0)
    (sizes : List Nat) (s1 : State) (ptrs : List Nat)
    (hall : malloc_all c s0 sizes = some (s1, ptrs))
    (order : List Nat) (hperm : List.Perm order ptrs) :
    ∃ s2, free_all c s1 order = some s2 ∧ Full c s2 ∧ Full c s0 ∧ SameFrame s2 s0 ∧
      (∀ i, i < c.MAX_K → s2.tag (Ptr.sentinel i) = s0.tag (Ptr.sentinel i) ∧
        s2.kval (Ptr.sentinel i) = s0.kval (Ptr.sentinel i) ∧
        s2.next (Ptr.sentinel i) = s0.next (Ptr.sentinel i) ∧
        s2.prev (Ptr.sentinel i) = s0.prev (Ptr.sentinel i)) ∧
      s2.tag (Ptr.block s0.base) = s0.tag (Ptr.block s0.base) ∧
      s2.kval (Ptr.block s0.base) = s0.kval (Ptr.block s0.base) ∧
      s2.next (Ptr.block s0.base) = s0.next (Ptr.block s0.base) ∧
      s2.prev (Ptr.block s0.base) = s0.prev (Ptr.block s0.base) := by
  have hk := buddy_init_some_lt c mmap s s0 size mem hm h0
  have hok := buddy_init_ok c mmap s size mem hk hm
  rw [hok] at h0
  simp only [Option.some.injEq] at h0
  have hF0 : Full c s0 := h0 ▸ buddy_init_full c s _ mem
  obtain ⟨e1, e2, e3, e4, e5, -⟩ := init_fill_spec c s (btok c (init_size c size)) mem
  obtain ⟨m1, m2⟩ := hmap _ _ hm
  obtain ⟨c1, c2, c3, c4, c5⟩ := hc
  have I0 : Inv c s0 (fun k => if k = s0.kval_m then [s0.base] else []) [] := by
    apply inv_of_full c s0 hF0
    · rw [← h0]
      show 0 < (init_fill c s (btok c (init_size c size)) mem).base
      rw [e4]; exact m1
    · rw [← h0]
      show (init_fill c s (btok c (init_size c size)) mem).numbytes =
        2 ^ (init_fill c s (btok c (init_size c size)) mem).kval_m
      rw [e3, e2]
    · rw [← h0]
      show c.SMALLEST_K ≤ (init_fill c s (btok c (init_size c size)) mem).kval_m
      rw [e2]
      exact btok_ge c (by omega) _
    · rw [← h0]
      show (init_fill c s (btok c (init_size c size)) mem).kval_m < c.MAX_K
      rw [e2]; exact hk
    · rw [← h0]
      show (init_fill c s (btok c (init_size c size)) mem).base +
        (init_fill c s (btok c (init_size c size)) mem).numbytes < 2 ^ 64
      rw [e4, e3]; exact m2
  obtain ⟨fl1, res1, I1, f1, hp1⟩ := malloc_all_inv c sizes s0 _ _ s1 ptrs I0 hall
  simp only [List.map_nil, List.append_nil] at hp1
  obtain ⟨s2, fl2, e, I2, f2⟩ := free_all_inv c order s1 fl1 res1 I1 (hperm.trans hp1.symm)
  have hF2 := full_of_inv c s2 fl2 I2
  have f := SameFrame.trans f2 f1
  exact ⟨s2, e, hF2, hF0, f, full_cells_eq c s0 s2 hF0 hF2 f.1 f.2.1⟩

theorem free_all_restores_init_witness :
    ∃ s2, free_all labConsts fiveState [4632, 4120, 6168, 4376, 5144] = some s2 ∧
      Full labConsts s2 ∧ Full labConsts initState ∧ SameFrame s2 initState ∧
      (∀ i, i < labConsts.MAX_K →
        s2.tag (Ptr.sentinel i) = initState.tag (Ptr.sentinel i) ∧
        s2.kval (Ptr.sentinel i) = initState.kval (Ptr.sentinel i) ∧
        s2.next (Ptr.sentinel i) = initState.next (Ptr.sentinel i) ∧
        s2.prev (Ptr.sentinel i) = initState.prev (Ptr.sentinel i)) ∧
      s2.tag (Ptr.block initState.base) = initState.tag (Ptr.block initState.base) ∧
      s2.kval (Ptr.block initState.base) = initState.kval (Ptr.block initState.base) ∧
      s2.next (Ptr.block initState.base) = initState.next (Ptr.block initState.base) ∧
      s2.prev (Ptr.block initState.base) = initState.prev (Ptr.block initState.base) :=
  free_all_restores_init labConsts (by decide) labMmap labMmap_ok
    zeroState initState (2 ^ 20) 4096 (by decide)
    (initState_eq ▸ rfl) [100, 200, 300, 400, 500] fiveState [4120, 4376, 4632, 5144, 6168]
    fiveState_eq [4632, 4120, 6168, 4376, 5144] (by decide)


/-! ## Reallocation -/

/-- Copying payload bytes keeps the invariant: it reads and writes no header
cell. -/
theorem inv_memcpy (c : Consts) (s : State) (fl : Nat → List Nat) (res : List (Nat × Nat))
    (dst src n : Nat) (I : Inv c s fl res) : Inv c (memcpy s dst src n) fl res :=
  ⟨I.base_pos, I.numbytes_eq, I.kval_m_ge, I.kval_m_lt, I.no_wrap, I.tiling,
    ⟨I.heap.sent, I.heap.lists, I.heap.free_hdr, I.heap.res_hdr, I.heap.hold_hdr⟩⟩

theorem old_size_eq (c : Consts) (hc : c.Valid) (k : Nat) (h1 : c.SMALLEST_K ≤ k)
    (h2 : k < c.MAX_K) : (2 ^ k + 2 ^ 64 - c.HDR) % 2 ^ 64 = 2 ^ k - c.HDR := by
  obtain ⟨c1, c2, c3, c4, c5⟩ := hc
  have hle : 2 ^ c.SMALLEST_K ≤ 2 ^ k := Nat.pow_le_pow_right (by norm_num) h1
  have hlt : 2 ^ k < 2 ^ 64 := Nat.pow_lt_pow_right (by norm_num) (by omega)
  have : 2 ^ k + 2 ^ 64 - c.HDR = (2 ^ k - c.HDR) + 2 ^ 64 := by omega
  rw [this, Nat.add_mod_right, Nat.mod_eq_of_lt (by omega)]

/-- On a pool that satisfies the invariant, for the pointer `a + HDR` of a
reserved block of class `old_k` and a request `size > 0` whose class is above
`old_k`, when the inner `buddy_malloc` succeeds with pointer `q`,
`buddy_realloc` returns `q`; the first `2^old_k - HDR` payload bytes at `q` are
the bytes of the old payload before the call; the new block is
`BLOCK_RESERVED` with the class of the request; and the old block was freed:
its tag is `BLOCK_AVAIL` and the invariant holds with the old block no longer
reserved and the new block reserved. -/
theorem realloc_grow_preserves (c : Consts) (hc : c.Valid) (s : State)
    (fl : Nat → List Nat) (res : List (Nat × Nat)) (I : Inv c s fl res) (a old_k : Nat)
    (ha : (a, old_k) ∈ res) (size : Nat) (hsz : size ≠ 0)
    (hgrow : old_k < btok c ((size + c.HDR) % 2 ^ 64)) (s1 : State) (q : Nat)
    (hm : buddy_malloc c s PoolPtr.addr size = some (s1, q)) (hq : q ≠ 0) :
    ∃ s3, buddy_realloc c s PoolPtr.addr (a + c.HDR) size = some (s3, q) ∧
      (∀ i, i < 2 ^ old_k - c.HDR → s3.data (q + i) = s.data (a + c.HDR + i)) ∧
      s3.tag (Ptr.block (q - c.HDR)) = Tag.BLOCK_RESERVED ∧
      s3.kval (Ptr.block (q - c.HDR)) = btok c ((size + c.HDR) % 2 ^ 64) ∧
      s3.tag (Ptr.block a) = Tag.BLOCK_AVAIL ∧
      ∃ fl3, Inv c s3 fl3
        ((q - c.HDR, btok c ((size + c.HDR) % 2 ^ 64)) :: res.erase (a, old_k)) := by
  have hL : Live fl res none a old_k := Or.inr (Or.inl ha)
  have hblk := I.tiling.block a old_k hL
  have hkv := (I.heap.res_hdr a old_k ha).2
  have hbp := I.base_pos
  have hMM := I.kval_m_lt
  have hage := hblk.2.2.1
  rcases malloc_cases c s fl res size I hsz with ⟨e, -⟩ | ⟨j, B, rest, s1a, -, -, -, e, I1, f⟩
  · rw [e] at hm
    simp only [Option.some.injEq, Prod.mk.injEq] at hm
    exact absurd hm.2.symm hq
  · rw [e] at hm
    simp only [Option.some.injEq, Prod.mk.injEq] at hm
    obtain ⟨h1, h2⟩ := hm
    subst h1 h2
    generalize hk : btok c ((size + c.HDR) % 2 ^ 64) = k at *
    have hos := old_size_eq c hc old_k hblk.1 (by have := hblk.2.1; omega)
    have I2 := inv_memcpy c s1a _ _ (B + c.HDR) (a + c.HDR) (2 ^ old_k - c.HDR) I1
    obtain ⟨s3, e3, I3, f3, t3⟩ := free_ok c _ _ _ a old_k I2 (List.mem_cons_of_mem _ ha)
    have hne : (B, k) ≠ (a, old_k) := by
      intro he
      simp only [Prod.mk.injEq] at he
      omega
    rw [List.erase_cons_tail (by simpa using hne)] at I3
    have hr := I3.heap.res_hdr B k (List.mem_cons_self _ _)
    refine ⟨s3, ?_, ?_, ?_, ?_, ?_, ⟨_, by rw [Nat.add_sub_cancel]; exact I3⟩⟩
    · unfold buddy_realloc
      rw [if_neg (by simp), if_neg (by omega), if_neg hsz]
      simp only [Nat.add_sub_cancel, hkv, hk, hos]
      rw [if_neg (by omega), e]
      simp only [Option.some_bind]
      rw [if_neg (by omega), e3]
      rfl
    · intro i hi
      rw [f3.2.2.2.2]
      simp only [memcpy]
      rw [if_pos (by omega), f.2.2.2.2]
      congr 1
      omega
    · rw [Nat.add_sub_cancel]; exact hr.1
    · rw [Nat.add_sub_cancel]; exact hr.2
    · rw [t3]
      simp


set_option maxRecDepth 100000 in
theorem allocState_kval_m : allocState.kval_m = 20 := by
  rfl

set_option maxRecDepth 100000 in
theorem growState_eq :
    buddy_malloc labConsts allocState PoolPtr.addr 100 = some (growState, 4248) := by
  rfl

theorem allocState_inv : Inv labConsts allocState allocLists [(4096, 6)] := by
  obtain ⟨s1, e, I1, -⟩ := malloc_ok labConsts initState _ [] 1 initState_inv (by decide) 20 4096
    [] (by decide) (by rw [initState_fields.1, initState_fields.2.1]; rfl)
    (fun i h1 h2 => by
      have : i ≠ initState.kval_m := by rw [initState_fields.2.1]; omega
      simp [this])
  rw [allocState_eq] at e
  simp only [Option.some.injEq, Prod.mk.injEq] at e
  rw [← e.1] at I1
  have h6 : btok labConsts ((1 + labConsts.HDR) % 2 ^ 64) = 6 := by decide
  rw [h6, initState_fields.1, initState_fields.2.1] at I1
  exact I1

theorem realloc_grow_preserves_witness :
    ∃ s3, buddy_realloc labConsts allocState PoolPtr.addr (4096 + labConsts.HDR) 100 =
        some (s3, 4248) ∧
      (∀ i, i < 2 ^ 6 - labConsts.HDR →
        s3.data (4248 + i) = allocState.data (4096 + labConsts.HDR + i)) ∧
      s3.tag (Ptr.block (4248 - labConsts.HDR)) = Tag.BLOCK_RESERVED ∧
      s3.kval (Ptr.block (4248 - labConsts.HDR)) =
        btok labConsts ((100 + labConsts.HDR) % 2 ^ 64) ∧
      s3.tag (Ptr.block 4096) = Tag.BLOCK_AVAIL ∧
      ∃ fl3, Inv labConsts s3 fl3
        ((4248 - labConsts.HDR, btok labConsts ((100 + labConsts.HDR) % 2 ^ 64)) ::
          [(4096, 6)].erase (4096, 6)) :=
  realloc_grow_preserves labConsts (by decide) allocState allocLists [(4096, 6)]
    allocState_inv 4096 6 (by simp) 100 (by decide) (by decide)
    growState 4248 growState_eq (by decide)

theorem inv_setErrno (c : Consts) (s : State) (fl : Nat → List Nat) (res : List (Nat × Nat))
    (e : Nat) (I : Inv c s fl res) : Inv c (setErrno s e) fl res :=
  ⟨I.base_pos, I.numbytes_eq, I.kval_m_ge, I.kval_m_lt, I.no_wrap, I.tiling,
    ⟨I.heap.sent, I.heap.lists, I.heap.free_hdr, I.heap.res_hdr, I.heap.hold_hdr⟩⟩

/-- C10: on a pool that satisfies the invariant, for the pointer `a + HDR` of
a reserved block of class `old_k` and a request `size > 0` whose class is above
`old_k`, when the inner `buddy_malloc` returns null, `buddy_realloc` returns
null and no cell of the pool has changed: the old block is still
`BLOCK_RESERVED` with `kval = old_k`, the payload bytes, all headers and all
free lists are as before (only `errno` is set, to `ENOMEM`); and on a null pool
`buddy_realloc` returns null with `errno = ENOMEM`. -/
theorem realloc_failure_atomic (c : Consts) (_hc : c.Valid) (s : State)
    (fl : Nat → List Nat) (res : List (Nat × Nat)) (I : Inv c s fl res) (a old_k : Nat)
    (ha : (a, old_k) ∈ res) (size : Nat) (hsz : size ≠ 0)
    (hgrow : old_k < btok c ((size + c.HDR) % 2 ^ 64)) (s1 : State)
    (hm : buddy_malloc c s PoolPtr.addr size = some (s1, 0)) :
    (∃ s2, buddy_realloc c s PoolPtr.addr (a + c.HDR) size = some (s2, 0) ∧
      s2.tag (Ptr.block a) = Tag.BLOCK_RESERVED ∧ s2.kval (Ptr.block a) = old_k ∧
      s2.tag = s.tag ∧ s2.kval = s.kval ∧ s2.next = s.next ∧ s2.prev = s.prev ∧
      s2.data = s.data ∧ s2.base = s.base ∧ s2.kval_m = s.kval_m ∧
      s2.numbytes = s.numbytes ∧ s2.errno = ENOMEM ∧ Inv c s2 fl res) ∧
    ∀ ptr n, buddy_realloc c s PoolPtr.null ptr n = some (setErrno s ENOMEM, 0) := by
  have hL : Live fl res none a old_k := Or.inr (Or.inl ha)
  have hblk := I.tiling.block a old_k hL
  have hr := I.heap.res_hdr a old_k ha
  have hbp := I.base_pos
  have hage := hblk.2.2.1
  have hs1 := ((malloc_total c s fl res size I hsz).2 s1 hm).1
  subst hs1
  refine ⟨⟨setErrno s ENOMEM, ?_, hr.1, hr.2, rfl, rfl, rfl, rfl, rfl, rfl, rfl, rfl, rfl,
    inv_setErrno c s fl res ENOMEM I⟩, ?_⟩
  · unfold buddy_realloc
    rw [if_neg (by simp), if_neg (by omega), if_neg hsz]
    simp only [Nat.add_sub_cancel, hr.2]
    rw [if_neg (by omega), hm]
    rfl
  · intro ptr n
    unfold buddy_realloc
    rw [if_pos rfl]

theorem realloc_failure_atomic_witness :
    (∃ s2, buddy_realloc labConsts allocState PoolPtr.addr (4096 + labConsts.HDR) (2 ^ 21) =
        some (s2, 0) ∧
      s2.tag (Ptr.block 4096) = Tag.BLOCK_RESERVED ∧ s2.kval (Ptr.block 4096) = 6 ∧
      s2.tag = allocState.tag ∧ s2.kval = allocState.kval ∧ s2.next = allocState.next ∧
      s2.prev = allocState.prev ∧ s2.data = allocState.data ∧ s2.base = allocState.base ∧
      s2.kval_m = allocState.kval_m ∧ s2.numbytes = allocState.numbytes ∧
      s2.errno = ENOMEM ∧
      Inv labConsts s2 allocLists [(4096, 6)]) ∧
    ∀ ptr n, buddy_realloc labConsts allocState PoolPtr.null ptr n =
      some (setErrno allocState ENOMEM, 0) :=
  realloc_failure_atomic labConsts (by decide) allocState allocLists [(4096, 6)]
    allocState_inv 4096 6 (by simp) (2 ^ 21) (by decide) (by decide)
    (setErrno allocState ENOMEM)
    (malloc_empty labConsts allocState PoolPtr.addr (2 ^ 21)
      (by rw [allocState_kval_m]; decide)
      (fun j h1 h2 => by
        have : btok labConsts ((2 ^ 21 + labConsts.HDR) % 2 ^ 64) = 22 := by decide
        rw [this] at h1
        rw [allocState_kval_m] at h2
        omega))

/-! ## Reachable pools -/

/-- The pointers `ps` are the payload addresses of the reserved blocks. -/
theorem live_erase (c : Consts) (s : State) (fl : Nat → List Nat) (res : List (Nat × Nat))
    (I : Inv c s fl res) (ps : List Nat) (hn : ps.Nodup)
    (hps : ∀ p, p ∈ ps ↔ ∃ a k, (a, k) ∈ res ∧ p = a + c.HDR) (a k : Nat)
    (ha : (a, k) ∈ res) :
    ∀ p, p ∈ ps.erase (a + c.HDR) ↔ ∃ a1 k1, (a1, k1) ∈ res.erase (a, k) ∧ p = a1 + c.HDR := by
  intro p
  rw [hn.mem_erase_iff, hps]
  constructor
  · rintro ⟨hne, a1, k1, h1, rfl⟩
    refine ⟨a1, k1, ?_, rfl⟩
    rw [I.tiling.res_nodup.mem_erase_iff]
    refine ⟨?_, h1⟩
    intro he
    simp only [Prod.mk.injEq] at he
    exact hne (by rw [he.1])
  · rintro ⟨a1, k1, h1, rfl⟩
    rw [I.tiling.res_nodup.mem_erase_iff] at h1
    refine ⟨?_, a1, k1, h1.2, rfl⟩
    intro he
    have hea : a1 = a := by omega
    subst hea
    have := live_class_unique c _ _ fl res none I.tiling a1 k1 k (Or.inr (Or.inl h1.2))
      (Or.inr (Or.inl ha))
    subst this
    exact h1.1 rfl

theorem live_cons (c : Consts) (res : List (Nat × Nat)) (ps : List Nat)
    (hps : ∀ p, p ∈ ps ↔ ∃ a k, (a, k) ∈ res ∧ p = a + c.HDR) (B k : Nat) :
    ∀ p, p ∈ (B + c.HDR) :: ps ↔ ∃ a1 k1, (a1, k1) ∈ (B, k) :: res ∧ p = a1 + c.HDR := by
  intro p
  rw [List.mem_cons, hps]
  constructor
  · rintro (h | ⟨a1, k1, h1, h2⟩)
    · exact ⟨B, k, List.mem_cons_self _ _, h⟩
    · exact ⟨a1, k1, List.mem_cons_of_mem _ h1, h2⟩
  · rintro ⟨a1, k1, h1, h2⟩
    rcases List.mem_cons.1 h1 with h | h
    · simp only [Prod.mk.injEq] at h
      left
      rw [h2, h.1]
    · exact Or.inr ⟨a1, k1, h, h2⟩

/-- A pointer that `buddy_malloc` returns is not among the live pointers. -/
theorem fresh_pointer (c : Consts) (s : State) (fl : Nat → List Nat) (res : List (Nat × Nat))
    (B k : Nat) (I : Inv c s fl ((B, k) :: res)) (ps : List Nat)
    (hps : ∀ p, p ∈ ps ↔ ∃ a k, (a, k) ∈ res ∧ p = a + c.HDR) : B + c.HDR ∉ ps := by
  intro h
  obtain ⟨a1, k1, h1, h2⟩ := (hps _).1 h
  have hea : a1 = B := by omega
  subst hea
  have := live_class_unique c _ _ fl _ none I.tiling a1 k1 k
    (Or.inr (Or.inl (List.mem_cons_of_mem _ h1))) (Or.inr (Or.inl (List.mem_cons_self _ _)))
  subst this
  exact (List.nodup_cons.1 I.tiling.res_nodup).1 h1

/-- The effect of `buddy_malloc` on a pool that satisfies the invariant. -/
theorem malloc_inv (c : Consts) (s s1 : State) (fl : Nat → List Nat) (res : List (Nat × Nat))
    (I : Inv c s fl res) (n p : Nat) (hm : buddy_malloc c s PoolPtr.addr n = some (s1, p)) :
    (p = 0 ∧ Inv c s1 fl res) ∨
    (p ≠ 0 ∧ ∃ fl1 B k, p = B + c.HDR ∧ Inv c s1 fl1 ((B, k) :: res)) := by
  by_cases hn : n = 0
  · rw [malloc_early c s PoolPtr.addr n (Or.inr (Or.inr hn))] at hm
    simp only [Option.some.injEq, Prod.mk.injEq] at hm
    left
    exact ⟨hm.2.symm, hm.1 ▸ inv_setErrno c s fl res ENOMEM I⟩
  · rcases malloc_cases c s fl res n I hn with ⟨e, -⟩ | ⟨j, B, rest, sa, -, -, -, e, Ia, f⟩
    · rw [e] at hm
      simp only [Option.some.injEq, Prod.mk.injEq] at hm
      left
      exact ⟨hm.2.symm, hm.1 ▸ inv_setErrno c s fl res ENOMEM I⟩
    · rw [e] at hm
      simp only [Option.some.injEq, Prod.mk.injEq] at hm
      right
      have hB := (Ia.tiling.block B _ (Or.inr (Or.inl (List.mem_cons_self _ _)))).2.2.1
      have hbp := Ia.base_pos
      exact ⟨by omega, _, B, _, hm.2.symm, hm.1 ▸ Ia⟩

/-- The effect of `buddy_realloc` of a live pointer on a pool that satisfies
the invariant. -/
theorem realloc_inv (c : Consts) (s s1 : State) (fl : Nat → List Nat)
    (res : List (Nat × Nat)) (I : Inv c s fl res) (a k n q : Nat) (ha : (a, k) ∈ res)
    (hr : buddy_realloc c s PoolPtr.addr (a + c.HDR) n = some (s1, q)) :
    (n = 0 ∧ ∃ fl1, Inv c s1 fl1 (res.erase (a, k))) ∨
    (n ≠ 0 ∧ (q = 0 ∨ q = a + c.HDR) ∧ Inv c s1 fl res) ∨
    (n ≠ 0 ∧ q ≠ 0 ∧ q ≠ a + c.HDR ∧ ∃ fl1 B k1, q = B + c.HDR ∧
      Inv c s1 fl1 ((B, k1) :: res.erase (a, k))) := by
  have hL : Live fl res none a k := Or.inr (Or.inl ha)
  have hage := (I.tiling.block a k hL).2.2.1
  have hbp := I.base_pos
  have hkv := (I.heap.res_hdr a k ha).2
  unfold buddy_realloc at hr
  rw [if_neg (by simp), if_neg (by omega)] at hr
  by_cases hn : n = 0
  · rw [if_pos hn] at hr
    obtain ⟨s2, e2, I2, -, -⟩ := free_ok c s fl res a k I ha
    rw [e2] at hr
    simp only [Option.map_some', Option.some.injEq, Prod.mk.injEq] at hr
    left
    exact ⟨hn, _, hr.1 ▸ I2⟩
  · rw [if_neg hn] at hr
    simp only [Nat.add_sub_cancel, hkv] at hr
    by_cases hfit : btok c ((n + c.HDR) % 2 ^ 64) ≤ k
    · rw [if_pos hfit] at hr
      simp only [Option.some.injEq, Prod.mk.injEq] at hr
      right; left
      exact ⟨hn, Or.inr hr.2.symm, hr.1 ▸ I⟩
    · rw [if_neg hfit] at hr
      rcases malloc_cases c s fl res n I hn with ⟨e, -⟩ | ⟨j, B, rest, sa, -, -, -, e, Ia, f⟩
      · rw [e] at hr
        simp only [Option.some_bind, if_true, Option.some.injEq, Prod.mk.injEq] at hr
        right; left
        exact ⟨hn, Or.inl hr.2.symm, hr.1 ▸ inv_setErrno c s fl res ENOMEM I⟩
      · rw [e] at hr
        have hB := (Ia.tiling.block B _ (Or.inr (Or.inl (List.mem_cons_self _ _)))).2.2.1
        have hbp1 := Ia.base_pos
        simp only [Option.some_bind] at hr
        rw [if_neg (by omega)] at hr
        have I2 := inv_memcpy c sa _ _ (B + c.HDR) (a + c.HDR)
          ((2 ^ k + 2 ^ 64 - c.HDR) % 2 ^ 64) Ia
        obtain ⟨s3, e3, I3, -, -⟩ := free_ok c _ _ _ a k I2 (List.mem_cons_of_mem _ ha)
        rw [e3] at hr
        simp only [Option.map_some', Option.some.injEq, Prod.mk.injEq] at hr
        have hne : (B, btok c ((n + c.HDR) % 2 ^ 64)) ≠ (a, k) := by
          intro he
          simp only [Prod.mk.injEq] at he
          omega
        rw [List.erase_cons_tail (by simpa using hne)] at I3
        have hBa : B ≠ a := by
          intro he
          subst he
          have := live_class_unique c _ _ _ _ none Ia.tiling B _ k
            (Or.inr (Or.inl (List.mem_cons_self _ _)))
            (Or.inr (Or.inl (List.mem_cons_of_mem _ ha)))
          omega
        right; right
        exact ⟨hn, by omega, by omega, _, B, _, hr.2.symm, hr.1 ▸ I3⟩

/-- Every reachable pool satisfies the invariant, and the live pointers are the
payload addresses of the reserved blocks, each once. -/
theorem reach_inv (c : Consts) (s : State) (ps : List Nat) (h : Reach c s ps) :
    ∃ fl res, Inv c s fl res ∧ ps.Nodup ∧
      ∀ p, p ∈ ps ↔ ∃ a k, (a, k) ∈ res ∧ p = a + c.HDR := by
  induction h with
  | init mmap s s0 size mem hmap hm h0 =>
    have hk := buddy_init_some_lt c mmap s s0 size mem hm h0
    have hok := buddy_init_ok c mmap s size mem hk hm
    rw [hok] at h0
    simp only [Option.some.injEq] at h0
    have hF0 : Full c s0 := h0 ▸ buddy_init_full c s _ mem
    obtain ⟨e1, e2, e3, e4, e5, -⟩ := init_fill_spec c s (btok c (init_size c size)) mem
    obtain ⟨m1, m2⟩ := hmap _ _ hm
    have hSM : c.SMALLEST_K ≤ c.MAX_K := by
      by_contra hlt
      have : btok c (init_size c size) = c.SMALLEST_K := by
        unfold btok
        have : c.MAX_K - c.SMALLEST_K = 0 := by omega
        rw [this]
        rfl
      omega
    refine ⟨fun k => if k = s0.kval_m then [s0.base] else [], [], ?_, List.nodup_nil,
      fun p => by simp⟩
    apply inv_of_full c s0 hF0
    · rw [← h0]
      show 0 < (init_fill c s (btok c (init_size c size)) mem).base
      rw [e4]; exact m1
    · rw [← h0]
      show (init_fill c s (btok c (init_size c size)) mem).numbytes =
        2 ^ (init_fill c s (btok c (init_size c size)) mem).kval_m
      rw [e3, e2]
    · rw [← h0]
      show c.SMALLEST_K ≤ (init_fill c s (btok c (init_size c size)) mem).kval_m
      rw [e2]
      exact btok_ge c hSM _
    · rw [← h0]
      show (init_fill c s (btok c (init_size c size)) mem).kval_m < c.MAX_K
      rw [e2]; exact hk
    · rw [← h0]
      show (init_fill c s (btok c (init_size c size)) mem).base +
        (init_fill c s (btok c (init_size c size)) mem).numbytes < 2 ^ 64
      rw [e4, e3]; exact m2
  | malloc s s1 ps n p _ hm ih =>
    obtain ⟨fl, res, I, hn, hps⟩ := ih
    rcases malloc_inv c s s1 fl res I n p hm with ⟨h0, I1⟩ | ⟨h0, fl1, B, k, hp, I1⟩
    · rw [if_pos h0]
      exact ⟨fl, res, I1, hn, hps⟩
    · rw [if_neg h0, hp]
      exact ⟨fl1, _, I1, List.nodup_cons.2 ⟨fresh_pointer c s1 fl1 res B k I1 ps hps, hn⟩,
        live_cons c res ps hps B k⟩
  | free s s1 ps p _ hp hf ih =>
    obtain ⟨fl, res, I, hn, hps⟩ := ih
    obtain ⟨a, k, ha, rfl⟩ := (hps p).1 hp
    obtain ⟨s2, e2, I2, -, -⟩ := free_ok c s fl res a k I ha
    rw [e2] at hf
    simp only [Option.some.injEq] at hf
    exact ⟨_, _, hf ▸ I2, hn.erase _, live_erase c s fl res I ps hn hps a k ha⟩
  | realloc_null s s1 ps n q _ hr ih =>
    obtain ⟨fl, res, I, hn, hps⟩ := ih
    have hm : buddy_malloc c s PoolPtr.addr n = some (s1, q) := by
      unfold buddy_realloc at hr
      rw [if_neg (by simp), if_pos rfl] at hr
      exact hr
    rcases malloc_inv c s s1 fl res I n q hm with ⟨h0, I1⟩ | ⟨h0, fl1, B, k, hp, I1⟩
    · rw [if_pos h0]
      exact ⟨fl, res, I1, hn, hps⟩
    · rw [if_neg h0, hp]
      exact ⟨fl1, _, I1, List.nodup_cons.2 ⟨fresh_pointer c s1 fl1 res B k I1 ps hps, hn⟩,
        live_cons c res ps hps B k⟩
  | realloc s s1 ps p n q _ hp hr ih =>
    obtain ⟨fl, res, I, hn, hps⟩ := ih
    obtain ⟨a, k, ha, rfl⟩ := (hps p).1 hp
    rcases realloc_inv c s s1 fl res I a k n q ha hr with
      ⟨h0, fl1, I1⟩ | ⟨h0, hq, I1⟩ | ⟨h0, hq0, hqp, fl1, B, k1, hqB, I1⟩
    · rw [if_pos h0]
      exact ⟨fl1, _, I1, hn.erase _, live_erase c s fl res I ps hn hps a k ha⟩
    · rw [if_neg h0, if_pos hq]
      exact ⟨fl, res, I1, hn, hps⟩
    · rw [if_neg h0, if_neg (by simp [hq0, hqp]), hqB]
      have hpe := live_erase c s fl res I ps hn hps a k ha
      exact ⟨fl1, _, I1,
        List.nodup_cons.2 ⟨fresh_pointer c s1 fl1 _ B k1 I1 _ hpe, hn.erase _⟩,
        live_cons c _ _ hpe B k1⟩
  | store s ps d _ ih =>
    obtain ⟨fl, res, I, hn, hps⟩ := ih
    exact ⟨fl, res, ⟨I.base_pos, I.numbytes_eq, I.kval_m_ge, I.kval_m_lt, I.no_wrap, I.tiling,
      ⟨I.heap.sent, I.heap.lists, I.heap.free_hdr, I.heap.res_hdr, I.heap.hold_hdr⟩⟩, hn, hps⟩

/-- Every reachable pool is well-formed. -/
theorem reach_wellFormed (c : Consts) (s : State) (ps : List Nat) (h : Reach c s ps) :
    WellFormed c s := by
  obtain ⟨fl, res, I, -, -⟩ := reach_inv c s ps h
  exact ⟨fl, res, I⟩

/-! ## Reallocation in place, null pointer and zero size -/

/-- A request that fits the block of class `k` has a class of at most `k`. -/
theorem btok_fits (c : Consts) (hc : c.Valid) (k m : Nat) (hk : c.SMALLEST_K ≤ k)
    (hk2 : k < 64) (hm : m + c.HDR ≤ 2 ^ k) : btok c ((m + c.HDR) % 2 ^ 64) ≤ k := by
  obtain ⟨h1, h2, h3, h4, h5⟩ := hc
  have hlt : 2 ^ k < 2 ^ 64 := Nat.pow_lt_pow_right (by norm_num) hk2
  rw [Nat.mod_eq_of_lt (by omega)]
  exact btok_least c (by omega) _ k hk hm

/-- The pointer of a reserved block is not null and leads back to its
header. -/
theorem res_ptr (c : Consts) (s : State) (fl : Nat → List Nat) (res : List (Nat × Nat))
    (I : Inv c s fl res) (a k : Nat) (ha : (a, k) ∈ res) :
    a + c.HDR ≠ 0 ∧ a + c.HDR - c.HDR = a ∧ s.kval (Ptr.block a) = k ∧
      s.tag (Ptr.block a) = Tag.BLOCK_RESERVED ∧ c.SMALLEST_K ≤ k ∧ k ≤ s.kval_m := by
  have hb := I.tiling.block a k (Or.inr (Or.inl ha))
  have hpos := I.base_pos
  have hh := I.heap.res_hdr a k ha
  exact ⟨by have := hb.2.2.1; omega, by omega, hh.2, hh.1, hb.1, hb.2.1⟩

/-- For the pointer of a reserved block and a request `size > 0` of a class
that is at most the class of the block, `buddy_realloc` returns the pointer and
the state it was given. -/
theorem realloc_same (c : Consts) (s : State) (fl : Nat → List Nat)
    (res : List (Nat × Nat)) (I : Inv c s fl res) (a old_k : Nat) (ha : (a, old_k) ∈ res)
    (size : Nat) (hsz : size ≠ 0) (hle : btok c ((size + c.HDR) % 2 ^ 64) ≤ old_k) :
    buddy_realloc c s PoolPtr.addr (a + c.HDR) size = some (s, a + c.HDR) := by
  obtain ⟨hp0, hpa, hkv, -, hk1, hk2⟩ := res_ptr c s fl res I a old_k ha
  unfold buddy_realloc
  rw [if_neg (by decide : ¬ PoolPtr.addr = PoolPtr.null), if_neg hp0, if_neg hsz]
  simp only [hpa, hkv]
  rw [if_pos hle]

/-- The result of `buddy_malloc` depends on a non-zero request through its
class only. -/
theorem malloc_congr (c : Consts) (s : State) (pool : PoolPtr) (n m : Nat) (hn : n ≠ 0)
    (hm : m ≠ 0) (h : btok c ((n + c.HDR) % 2 ^ 64) = btok c ((m + c.HDR) % 2 ^ 64)) :
    buddy_malloc c s pool n = buddy_malloc c s pool m := by
  unfold buddy_malloc
  simp only [hn, hm, h]

/-- For the pointer `a + HDR` of a reserved block of class `old_k` and a
request `size > 0` whose class `btok (size + HDR)` is at most `old_k`,
`buddy_realloc` returns the same pointer and the state it was given: no header,
payload byte or list changes.  This is so for every size that fits the block,
and so for the size a block was allocated for and every smaller one. -/
theorem realloc_in_place (c : Consts) (hc : c.Valid) (s : State) (fl : Nat → List Nat)
    (res : List (Nat × Nat)) (I : Inv c s fl res) (a old_k : Nat) (ha : (a, old_k) ∈ res) :
    (∀ size, size ≠ 0 → btok c ((size + c.HDR) % 2 ^ 64) ≤ old_k →
      buddy_realloc c s PoolPtr.addr (a + c.HDR) size = some (s, a + c.HDR)) ∧
    (∀ n m, n + c.HDR ≤ 2 ^ old_k → 0 < m → m ≤ n →
      buddy_realloc c s PoolPtr.addr (a + c.HDR) m = some (s, a + c.HDR)) := by
  obtain ⟨hp0, hpa, hkv, -, hk1, hk2⟩ := res_ptr c s fl res I a old_k ha
  refine ⟨fun size hsz hle => realloc_same c s fl res I a old_k ha size hsz hle,
    fun n m hn hm hmn => realloc_same c s fl res I a old_k ha m (by omega) ?_⟩
  have hM := I.kval_m_lt
  exact btok_fits c hc old_k m hk1 (by have := hc.2.2.1; omega) (by omega)

theorem realloc_in_place_witness :
    buddy_realloc labConsts allocState PoolPtr.addr 4120 40 = some (allocState, 4120) ∧
      buddy_realloc labConsts allocState PoolPtr.addr 4120 1 = some (allocState, 4120) :=
  ⟨(realloc_in_place labConsts (by decide) allocState allocLists [(4096, 6)] allocState_inv
      4096 6 (by simp)).1 40 (by decide) (by decide),
   (realloc_in_place labConsts (by decide) allocState allocLists [(4096, 6)] allocState_inv
      4096 6 (by simp)).2 40 1 (by decide) (by decide) (by decide)⟩

/-- A request larger than the arena whose sum with the header size does not
wrap has a class above `kval_m`. -/
theorem btok_oversize (c : Consts) (hc : c.Valid) (s : State) (size : Nat)
    (hM : s.kval_m < c.MAX_K) (hn : s.numbytes = 2 ^ s.kval_m) (hsz : s.numbytes < size)
    (hnw : size + c.HDR < 2 ^ 64) : s.kval_m < btok c ((size + c.HDR) % 2 ^ 64) := by
  obtain ⟨h1, h2, h3, h4, h5⟩ := hc
  rw [Nat.mod_eq_of_lt hnw]
  by_contra hle
  have hcov := btok_covers c (by omega) (size + c.HDR) (by omega)
  have : 2 ^ btok c (size + c.HDR) ≤ 2 ^ s.kval_m :=
    Nat.pow_le_pow_right (by norm_num) (by omega)
  omega

/-- For a request larger than the arena whose sum with the header size does
not wrap, `buddy_malloc` returns null with `errno = ENOMEM`. -/
theorem malloc_oversize (c : Consts) (hc : c.Valid) (s : State) (pool : PoolPtr) (size : Nat)
    (hM : s.kval_m < c.MAX_K) (hn : s.numbytes = 2 ^ s.kval_m) (hsz : s.numbytes < size)
    (hnw : size + c.HDR < 2 ^ 64) :
    buddy_malloc c s pool size = some (setErrno s ENOMEM, 0) := by
  have hlt := btok_oversize c hc s size hM hn hsz hnw
  exact malloc_empty c s pool size hM (fun j h1 h2 => by omega)

/-- For a request larger than the arena whose sum with the header size does
not wrap, `buddy_realloc` of a reserved block returns null and changes `errno`
only. -/
theorem realloc_oversize (c : Consts) (hc : c.Valid) (s : State) (fl : Nat → List Nat)
    (res : List (Nat × Nat)) (I : Inv c s fl res) (a k : Nat) (ha : (a, k) ∈ res)
    (size : Nat) (hsz : s.numbytes < size) (hnw : size + c.HDR < 2 ^ 64) :
    buddy_realloc c s PoolPtr.addr (a + c.HDR) size = some (setErrno s ENOMEM, 0) := by
  obtain ⟨hp0, hpa, hkv, -, hk1, hk2⟩ := res_ptr c s fl res I a k ha
  have hlt := btok_oversize c hc s size I.kval_m_lt I.numbytes_eq hsz hnw
  have hm := malloc_oversize c hc s PoolPtr.addr size I.kval_m_lt I.numbytes_eq hsz hnw
  unfold buddy_realloc
  rw [if_neg (by decide : ¬ PoolPtr.addr = PoolPtr.null), if_neg hp0,
    if_neg (by omega : ¬ size = 0)]
  simp only [hpa, hkv]
  rw [if_neg (by omega), hm]
  rfl

set_option maxRecDepth 100000 in
/-- C12, the code at the failing input: on the pool of `2^20` bytes the call
`buddy_malloc(&pool, SIZE_MAX)` computes `total_size = SIZE_MAX + 24 = 23`
modulo `2^64`, class 6, and returns the payload pointer 4120 of a 64-byte
block; and `buddy_realloc(&pool, p, SIZE_MAX)` of the pointer `p` of a 64-byte
block computes class 6 as well and returns `p`. -/
theorem oversize_request_wraps :
    initState.numbytes < 2 ^ 64 - 1 ∧ allocState.numbytes < 2 ^ 64 - 1 ∧
      buddy_malloc labConsts initState PoolPtr.addr (2 ^ 64 - 1) = some (allocState, 4120) ∧
      buddy_realloc labConsts allocState PoolPtr.addr 4120 (2 ^ 64 - 1) =
        some (allocState, 4120) :=
  ⟨by decide, by decide,
   (malloc_congr labConsts initState PoolPtr.addr (2 ^ 64 - 1) 1 (by decide) (by decide)
      (by decide)).trans allocState_eq,
   realloc_same labConsts allocState allocLists [(4096, 6)] allocState_inv 4096 6 (by simp)
      (2 ^ 64 - 1) (by decide) (by decide)⟩

/-- C13: on a non-null pool, `buddy_realloc` with a null pointer is
`buddy_malloc` with the same size (same result, same state), and
`buddy_realloc` with a non-null pointer and size `0` returns null and the state
`buddy_free` of that pointer leaves; for the pointer of a reserved block of a
well-formed pool both calls return. -/
theorem realloc_null_or_zero (c : Consts) (s : State) :
    (∀ size, buddy_realloc c s PoolPtr.addr 0 size = buddy_malloc c s PoolPtr.addr size) ∧
    (∀ ptr, ptr ≠ 0 →
      buddy_realloc c s PoolPtr.addr ptr 0 =
        (buddy_free c s PoolPtr.addr ptr).map fun s1 => (s1, 0)) ∧
    (∀ fl res a k, Inv c s fl res → (a, k) ∈ res →
      ∃ s1, buddy_free c s PoolPtr.addr (a + c.HDR) = some s1 ∧
        buddy_realloc c s PoolPtr.addr (a + c.HDR) 0 = some (s1, 0)) := by
  have h2 : ∀ ptr, ptr ≠ 0 →
      buddy_realloc c s PoolPtr.addr ptr 0 =
        (buddy_free c s PoolPtr.addr ptr).map fun s1 => (s1, 0) := by
    intro ptr hp
    unfold buddy_realloc
    rw [if_neg (by decide : ¬ PoolPtr.addr = PoolPtr.null), if_neg hp, if_pos rfl]
  refine ⟨fun size => ?_, h2, ?_⟩
  · unfold buddy_realloc
    rw [if_neg (by decide : ¬ PoolPtr.addr = PoolPtr.null), if_pos rfl]
  · intro fl res a k I ha
    obtain ⟨s1, hf, -⟩ := free_ok c s fl res a k I ha
    refine ⟨s1, hf, ?_⟩
    rw [h2 _ (res_ptr c s fl res I a k ha).1, hf]
    rfl

set_option maxRecDepth 100000 in
theorem realloc_null_or_zero_witness :
    buddy_realloc labConsts initState PoolPtr.addr 0 1 = some (allocState, 4120) ∧
      (4120 ≠ 0 ∧ buddy_realloc labConsts allocState PoolPtr.addr 4120 0 =
        (buddy_free labConsts allocState PoolPtr.addr 4120).map fun s1 => (s1, 0)) ∧
      ∃ s1, buddy_free labConsts allocState PoolPtr.addr 4120 = some s1 ∧
        buddy_realloc labConsts allocState PoolPtr.addr 4120 0 = some (s1, 0) :=
  ⟨((realloc_null_or_zero labConsts initState).1 1).trans allocState_eq,
   ⟨by decide, (realloc_null_or_zero labConsts allocState).2.1 4120 (by decide)⟩,
   (realloc_null_or_zero labConsts allocState).2.2 allocLists [(4096, 6)] 4096 6
     allocState_inv (by simp)⟩

/-- C14: `buddy_destroy` leaves `base` null and the other fields as they were,
unmapping the arena when `base` was not null; on a null pool, on an all-zero
pool and on a destroyed pool it changes nothing and unmaps nothing, so a second
`buddy_destroy` has no effect; and after `buddy_destroy` every `buddy_malloc`
returns null with `errno = ENOMEM`. -/
theorem buddy_destroy_idempotent (c : Consts) (s : State) :
    (buddy_destroy s PoolPtr.addr).base = 0 ∧
    buddy_destroy s PoolPtr.addr = { s with base := 0 } ∧
    (s.base ≠ 0 → destroy_unmaps s PoolPtr.addr = some (s.base, s.numbytes)) ∧
    (buddy_destroy s PoolPtr.null = s ∧ destroy_unmaps s PoolPtr.null = none) ∧
    (buddy_destroy zeroState PoolPtr.addr = zeroState ∧
      destroy_unmaps zeroState PoolPtr.addr = none) ∧
    (∀ pool, buddy_destroy (buddy_destroy s pool) pool = buddy_destroy s pool) ∧
    destroy_unmaps (buddy_destroy s PoolPtr.addr) PoolPtr.addr = none ∧
    ∀ pool size, buddy_malloc c (buddy_destroy s PoolPtr.addr) pool size =
      some (setErrno (buddy_destroy s PoolPtr.addr) ENOMEM, 0) ∧
      (setErrno (buddy_destroy s PoolPtr.addr) ENOMEM).errno = ENOMEM := by
  have hb : (buddy_destroy s PoolPtr.addr).base = 0 := by
    unfold buddy_destroy
    by_cases h : s.base = 0
    · rw [if_pos (Or.inr h)]; exact h
    · rw [if_neg (by simp [h])]
  refine ⟨hb, ?_, ?_, ⟨?_, ?_⟩, ⟨rfl, rfl⟩, ?_, ?_, ?_⟩
  · unfold buddy_destroy
    by_cases h : s.base = 0
    · rw [if_pos (Or.inr h)]
      cases s
      simp only at h
      subst h
      rfl
    · rw [if_neg (by simp [h])]
  · intro h
    unfold destroy_unmaps
    rw [if_neg (by simp [h])]
  · unfold buddy_destroy
    rw [if_pos (Or.inl rfl)]
  · unfold destroy_unmaps
    rw [if_pos (Or.inl rfl)]
  · intro pool
    cases pool
    · unfold buddy_destroy
      simp
    · have : buddy_destroy (buddy_destroy s PoolPtr.addr) PoolPtr.addr =
          buddy_destroy s PoolPtr.addr := by
        generalize buddy_destroy s PoolPtr.addr = s1 at hb ⊢
        unfold buddy_destroy
        rw [if_pos (Or.inr hb)]
      exact this
  · unfold destroy_unmaps
    rw [if_pos (Or.inr hb)]
  · intro pool size
    exact ⟨malloc_early c _ pool size (Or.inr (Or.inl hb)), rfl⟩

theorem buddy_destroy_idempotent_witness :
    initState.base ≠ 0 ∧ destroy_unmaps initState PoolPtr.addr = some (4096, 2 ^ 20) ∧
      (buddy_destroy initState PoolPtr.addr).base = 0 :=
  ⟨by decide, (buddy_destroy_idempotent labConsts initState).2.2.1 (by decide),
   (buddy_destroy_idempotent labConsts initState).1⟩

/-! ## The buddy computation -/

/-- An offset inside the arena that is a multiple of `2^k` leaves room for a
whole block of class `k`. -/
theorem aligned_block_fits (k M o : Nat) (hk : k ≤ M) (hd : 2 ^ k ∣ o) (ho : o < 2 ^ M) :
    o + 2 ^ k ≤ 2 ^ M := by
  obtain ⟨q, rfl⟩ := hd
  have hM : 2 ^ M = 2 ^ k * 2 ^ (M - k) := by
    rw [← pow_add]
    congr 1
    omega
  rw [hM] at ho ⊢
  have hq : q < 2 ^ (M - k) := Nat.lt_of_mul_lt_mul_left ho
  calc 2 ^ k * q + 2 ^ k = 2 ^ k * (q + 1) := by ring
    _ ≤ 2 ^ k * 2 ^ (M - k) := Nat.mul_le_mul_left _ hq

/-- The value of `buddy_calc` for a block at or above `base`, when the arena
ends below `2^64` and the shift is defined. -/
theorem buddy_calc_value (s : State) (block : Nat) (h0 : block ≠ 0) (hb : s.base ≤ block)
    (h64 : block < 2 ^ 64) (hw : s.base + s.numbytes < 2 ^ 64)
    (hk : s.kval (Ptr.block block) < 64) :
    buddy_calc s PoolPtr.addr block =
      if buddyAddr s.base block (s.kval (Ptr.block block)) < s.base + s.numbytes
      then buddyAddr s.base block (s.kval (Ptr.block block)) else 0 := by
  have hcond : ¬ (PoolPtr.addr = PoolPtr.null ∨ block = 0 ∨ block < s.base) := by
    rintro (h | h | h)
    · exact absurd h (by decide)
    · exact h0 h
    · omega
  have hp : 2 ^ s.kval (Ptr.block block) < 2 ^ 64 := Nat.pow_lt_pow_right (by norm_num) hk
  have hx : (block - s.base) ^^^ 2 ^ s.kval (Ptr.block block) < 2 ^ 64 :=
    Nat.xor_lt_two_pow (by omega) hp
  unfold buddy_calc buddyAddr
  rw [if_neg hcond]
  simp only []
  rw [Nat.mod_eq_of_lt hw]
  generalize (block - s.base) ^^^ 2 ^ s.kval (Ptr.block block) = bo at hx ⊢
  by_cases hlt : s.base + bo < 2 ^ 64
  · rw [Nat.mod_eq_of_lt hlt]
    split_ifs <;> omega
  · have hmod : (s.base + bo) % 2 ^ 64 = s.base + bo - 2 ^ 64 := by
      rw [Nat.mod_eq_sub_mod (by omega), Nat.mod_eq_of_lt (by omega)]
    rw [hmod]
    split_ifs <;> omega

/-- C15: `buddy_calc` returns null when the pool is null, the block is null or
the block lies below `base`; otherwise, for a block at offset `o` from `base`
with class `k`, it returns `base + (o XOR 2^k)` when that address lies in
`[base, base + numbytes)` and null when it does not; and for a block inside the
arena at an offset that is a multiple of `2^k`, `k < kval_m`, the result is not
null, lies inside the arena and is `2^k` above or below the block. -/
theorem buddy_calc_spec (s : State) (block : Nat) :
    (∀ pool, pool = PoolPtr.null ∨ block = 0 ∨ block < s.base →
      buddy_calc s pool block = 0) ∧
    (block ≠ 0 → s.base ≤ block → block < 2 ^ 64 → s.base + s.numbytes < 2 ^ 64 →
      s.kval (Ptr.block block) < 64 →
      buddy_calc s PoolPtr.addr block =
        if buddyAddr s.base block (s.kval (Ptr.block block)) < s.base + s.numbytes
        then buddyAddr s.base block (s.kval (Ptr.block block)) else 0) ∧
    (∀ k, 0 < s.base → s.numbytes = 2 ^ s.kval_m → s.base + s.numbytes < 2 ^ 64 →
      s.kval (Ptr.block block) = k → k < s.kval_m → s.base ≤ block →
      block < s.base + s.numbytes → 2 ^ k ∣ block - s.base →
      buddy_calc s PoolPtr.addr block ≠ 0 ∧ s.base ≤ buddy_calc s PoolPtr.addr block ∧
      buddy_calc s PoolPtr.addr block < s.base + s.numbytes ∧
      (buddy_calc s PoolPtr.addr block = block + 2 ^ k ∨
        buddy_calc s PoolPtr.addr block + 2 ^ k = block)) := by
  refine ⟨fun pool h => ?_, buddy_calc_value s block, ?_⟩
  · unfold buddy_calc
    rw [if_pos h]
  · intro k hpos hn hw hkv hk hb hlt hd
    have hpM := Nat.two_pow_pos s.kval_m
    have hM64 : s.kval_m < 64 := by
      have h1 : 2 ^ s.kval_m < 2 ^ 64 := by omega
      exact (Nat.pow_lt_pow_iff_right (by norm_num)).1 h1
    have hfit := aligned_block_fits k s.kval_m (block - s.base) (by omega) hd (by omega)
    have hB : IsBlock ⟨0, 0, 0, 0⟩ s.base s.kval_m block k :=
      ⟨Nat.zero_le _, by omega, hb, hd, by omega⟩
    have hB1 := isBlock_buddy _ s.base s.kval_m block k hB hk
    have hv := buddy_calc_value s block (by omega) hb (by omega) hw (by omega)
    rw [hkv] at hv
    have hin : buddyAddr s.base block k < s.base + s.numbytes := by
      have h1 := hB1.2.2.2.2
      have h2 := Nat.two_pow_pos k
      omega
    rw [if_pos hin] at hv
    rw [hv]
    refine ⟨by have := hB1.2.2.1; omega, hB1.2.2.1, hin, ?_⟩
    rcases buddy_cases _ s.base s.kval_m block k hB hk with h | h
    · exact Or.inl h.1
    · exact Or.inr h.1

set_option maxRecDepth 100000 in
theorem buddy_calc_spec_witness :
    buddy_calc allocState PoolPtr.null 4096 = 0 ∧
      buddy_calc allocState PoolPtr.addr 4096 = 4160 ∧
      (buddy_calc allocState PoolPtr.addr 4160 ≠ 0 ∧
        4096 ≤ buddy_calc allocState PoolPtr.addr 4160 ∧
        buddy_calc allocState PoolPtr.addr 4160 < 4096 + 2 ^ 20 ∧
        (buddy_calc allocState PoolPtr.addr 4160 = 4160 + 2 ^ 6 ∨
          buddy_calc allocState PoolPtr.addr 4160 + 2 ^ 6 = 4160)) :=
  ⟨(buddy_calc_spec allocState 4096).1 PoolPtr.null (Or.inl rfl),
   (buddy_calc_spec allocState 4096).2.1 (by decide) (by decide) (by decide) (by decide)
     (by decide),
   (buddy_calc_spec allocState 4160).2.2 6 (by decide) (by decide) (by decide) (by decide)
     (by decide) (by decide) (by decide) (by decide)⟩

/-! ## The first allocation on a fresh pool -/

/-- A pool that `buddy_init` returned satisfies the invariant: the one block at
`base` is on the list of the top class and no block is reserved. -/
theorem buddy_init_some_inv (c : Consts) (mmap : Nat → Option Nat) (hmap : MapOk mmap)
    (s s0 : State) (size mem : Nat) (hm : mmap (2 ^ btok c (init_size c size)) = some mem)
    (h0 : buddy_init c mmap s PoolPtr.addr size = some s0) :
    Inv c s0 (fun k => if k = s0.kval_m then [s0.base] else []) [] ∧
      s0.base = mem ∧ s0.kval_m = btok c (init_size c size) := by
  have hk := buddy_init_some_lt c mmap s s0 size mem hm h0
  have hok := buddy_init_ok c mmap s size mem hk hm
  rw [hok] at h0
  simp only [Option.some.injEq] at h0
  have hF0 : Full c s0 := h0 ▸ buddy_init_full c s _ mem
  obtain ⟨e1, e2, e3, e4, e5, -⟩ := init_fill_spec c s (btok c (init_size c size)) mem
  obtain ⟨m1, m2⟩ := hmap _ _ hm
  have hSM : c.SMALLEST_K ≤ c.MAX_K := by
    by_contra hlt
    have : btok c (init_size c size) = c.SMALLEST_K := by
      unfold btok
      have : c.MAX_K - c.SMALLEST_K = 0 := by omega
      rw [this]
      rfl
    omega
  have hb : s0.base = mem := by
    rw [← h0]
    exact e4
  have hM : s0.kval_m = btok c (init_size c size) := by
    rw [← h0]
    exact e2
  have hn : s0.numbytes = 2 ^ btok c (init_size c size) := by
    rw [← h0]
    exact e3
  refine ⟨?_, hb, hM⟩
  apply inv_of_full c s0 hF0
  · rw [hb]; exact m1
  · rw [hn, hM]
  · rw [hM]; exact btok_ge c hSM _
  · rw [hM]; exact hk
  · rw [hb, hn]; exact m2

/-- C19 (amended): on a pool fresh from `buddy_init`, with top class `M`, for a
request `size > 0` whose class `k = btok (size + HDR)` is at most `M`, `buddy_malloc`
returns the payload of the block at offset 0, whose header ends with `kval = k`
and tag `BLOCK_RESERVED`; afterwards the list of every class `j` with
`k ≤ j < M` holds exactly the upper half at offset `2^j`, with tag
`BLOCK_AVAIL` and `kval = j`, and the list of class `M` and the lists of the
classes below `k` are empty. -/
theorem malloc_split_cascade (c : Consts) (mmap : Nat → Option Nat) (hmap : MapOk mmap)
    (s s0 : State) (size0 mem : Nat) (hm : mmap (2 ^ btok c (init_size c size0)) = some mem)
    (h0 : buddy_init c mmap s PoolPtr.addr size0 = some s0) (size : Nat) (hsz : 0 < size)
    (hk : btok c ((size + c.HDR) % 2 ^ 64) ≤ s0.kval_m) :
    ∃ s1, buddy_malloc c s0 PoolPtr.addr size = some (s1, s0.base + c.HDR) ∧
      s1.kval (Ptr.block s0.base) = btok c ((size + c.HDR) % 2 ^ 64) ∧
      s1.tag (Ptr.block s0.base) = Tag.BLOCK_RESERVED ∧
      (∀ j, btok c ((size + c.HDR) % 2 ^ 64) ≤ j → j < s0.kval_m →
        IsList s1 j [s0.base + 2 ^ j] ∧
        s1.tag (Ptr.block (s0.base + 2 ^ j)) = Tag.BLOCK_AVAIL ∧
        s1.kval (Ptr.block (s0.base + 2 ^ j)) = j) ∧
      (∀ j, j < c.MAX_K → j < btok c ((size + c.HDR) % 2 ^ 64) ∨ s0.kval_m ≤ j →
        IsList s1 j []) := by
  obtain ⟨I0, -, -⟩ := buddy_init_some_inv c mmap hmap s s0 size0 mem hm h0
  obtain ⟨s1, hmal, I1, -⟩ := malloc_ok c s0 _ [] size I0 (by omega) s0.kval_m s0.base []
    hk (by simp) (fun i _ hi => by simp; omega)
  have hsplit : ∀ j, (btok c ((size + c.HDR) % 2 ^ 64) ≤ j ∧ j < s0.kval_m →
      splitLists (Function.update (fun k => if k = s0.kval_m then [s0.base] else [])
        s0.kval_m []) s0.base (btok c ((size + c.HDR) % 2 ^ 64)) s0.kval_m j =
        [s0.base + 2 ^ j]) ∧
      (¬ (btok c ((size + c.HDR) % 2 ^ 64) ≤ j ∧ j < s0.kval_m) →
      splitLists (Function.update (fun k => if k = s0.kval_m then [s0.base] else [])
        s0.kval_m []) s0.base (btok c ((size + c.HDR) % 2 ^ 64)) s0.kval_m j = []) := by
    intro j
    constructor
    · intro hj
      unfold splitLists
      rw [if_pos hj, Function.update_noteq (by omega), if_neg (by omega)]
    · intro hj
      unfold splitLists
      rw [if_neg hj]
      by_cases hjM : j = s0.kval_m
      · rw [hjM, Function.update_same]
      · rw [Function.update_noteq hjM, if_neg hjM]
  have hres := I1.heap.res_hdr s0.base _ (List.mem_cons_self _ _)
  refine ⟨s1, hmal, hres.2, hres.1, ?_, ?_⟩
  · intro j hj1 hj2
    have hl := I1.heap.lists j (by have := I0.kval_m_lt; omega)
    have hmem := I1.heap.free_hdr j (s0.base + 2 ^ j)
    rw [(hsplit j).1 ⟨hj1, hj2⟩] at hl hmem
    exact ⟨hl, hmem (List.mem_singleton_self _)⟩
  · intro j hj hcase
    have hl := I1.heap.lists j hj
    rw [(hsplit j).2 (by omega)] at hl
    exact hl

set_option maxRecDepth 100000 in
theorem malloc_split_cascade_witness :
    ∃ s1, buddy_malloc labConsts initState PoolPtr.addr 1 = some (s1, 4120) ∧
      s1.kval (Ptr.block 4096) = 6 ∧ s1.tag (Ptr.block 4096) = Tag.BLOCK_RESERVED ∧
      (∀ j, 6 ≤ j → j < 20 →
        IsList s1 j [4096 + 2 ^ j] ∧
        s1.tag (Ptr.block (4096 + 2 ^ j)) = Tag.BLOCK_AVAIL ∧
        s1.kval (Ptr.block (4096 + 2 ^ j)) = j) ∧
      (∀ j, j < 48 → j < 6 ∨ 20 ≤ j → IsList s1 j []) :=
  malloc_split_cascade labConsts labMmap labMmap_ok zeroState initState (2 ^ 20) 4096
    (by decide) (initState_eq ▸ rfl) 1 (by decide) (by decide)

/-- C19 as stated fails for the request of `0` bytes: its class
`btok (0 + HDR) = 6` is at most the top class 20 of the fresh pool, and
`buddy_malloc` takes its `size == 0` exit and returns null with
`errno = ENOMEM`, no block. -/
theorem malloc_split_cascade_counterexample :
    buddy_init labConsts labMmap zeroState PoolPtr.addr (2 ^ 20) = some initState ∧
      btok labConsts ((0 + labConsts.HDR) % 2 ^ 64) ≤ initState.kval_m ∧
      buddy_malloc labConsts initState PoolPtr.addr 0 = some (setErrno initState ENOMEM, 0) :=
  ⟨initState_eq ▸ rfl, by decide, malloc_early labConsts initState PoolPtr.addr 0
    (Or.inr (Or.inr rfl))⟩

/-- C20, the code at the failing input: for the request `2^47 + 1` with a
mapping that succeeds, `btok` returns `48 = MAX_K`, which is not below `MAX_K`;
`buddy_init` stores it as `kval_m` and indexes `avail[48]`, which is not one of
the `MAX_K` sentinels. -/
theorem buddy_init_class_overflow :
    btok labConsts (init_size labConsts (2 ^ 47 + 1)) = 48 ∧
      ¬ btok labConsts (init_size labConsts (2 ^ 47 + 1)) < labConsts.MAX_K ∧
      (init_fill labConsts zeroState (btok labConsts (init_size labConsts (2 ^ 47 + 1)))
        4096).kval_m = labConsts.MAX_K ∧
      deref labConsts (Ptr.sentinel (btok labConsts (init_size labConsts (2 ^ 47 + 1)))) = none ∧
      buddy_init labConsts (fun _ => some 4096) zeroState PoolPtr.addr (2 ^ 47 + 1) = none := by
  have h : btok labConsts (init_size labConsts (2 ^ 47 + 1)) = 48 := by decide
  refine ⟨h, by decide, ?_, ?_, ?_⟩
  · rw [h]
    rfl
  · rw [h]
    rfl
  · simp only [buddy_init, if_neg (by decide : ¬ PoolPtr.addr = PoolPtr.null), h]
    rfl

/-! ## The invariants of reachable pools -/

/-- The blocks of `allBlocks` are the free and the reserved blocks. -/
theorem mem_allBlocks (c : Consts) (base M : Nat) (fl : Nat → List Nat)
    (res : List (Nat × Nat)) (T : Tiling c base M fl res none) (a k : Nat) :
    (a, k) ∈ allBlocks fl res M ↔ a ∈ fl k ∨ (a, k) ∈ res := by
  unfold allBlocks
  simp only [List.mem_append, List.mem_flatMap, List.mem_range, List.mem_map, Prod.mk.injEq]
  constructor
  · rintro (h | ⟨j, -, z, hz, rfl, rfl⟩)
    · exact Or.inr h
    · exact Or.inl hz
  · rintro (h | h)
    · have hb := T.block a k (Or.inl h)
      exact Or.inr ⟨k, by have := hb.2.1; omega, a, h, rfl, rfl⟩
    · exact Or.inl h

/-- No block is listed twice in `allBlocks`. -/
theorem allBlocks_nodup (c : Consts) (base M : Nat) (fl : Nat → List Nat)
    (res : List (Nat × Nat)) (T : Tiling c base M fl res none) :
    (allBlocks fl res M).Nodup := by
  unfold allBlocks
  rw [List.nodup_append]
  refine ⟨T.res_nodup, ?_, ?_⟩
  · rw [List.nodup_flatMap]
    constructor
    · intro k _
      exact (T.nodup k).map (fun x y hxy => (Prod.mk.injEq _ _ _ _ ▸ hxy).1)
    · apply List.Nodup.pairwise_of_forall_ne (List.nodup_range _)
      intro i _ j _ hij
      show List.Disjoint _ _
      intro b hb hb1
      simp only [List.mem_map] at hb hb1
      obtain ⟨x, -, rfl⟩ := hb
      obtain ⟨y, -, hy⟩ := hb1
      simp only [Prod.mk.injEq] at hy
      exact hij hy.2.symm
  · intro b hb hb1
    simp only [List.mem_flatMap, List.mem_range, List.mem_map] at hb1
    obtain ⟨k, -, z, hz, rfl⟩ := hb1
    exact T.res_free z k hb hz

/-- Intervals `[a, a + 2^k)` that lie in `[lo, lo + n)`, do not overlap and
cover it have lengths that add up to `n`. -/
theorem partition_sum (L : List (Nat × Nat)) (lo n : Nat) (hn : L.Nodup)
    (hin : ∀ b ∈ L, lo ≤ b.1 ∧ b.1 + 2 ^ b.2 ≤ lo + n)
    (hdis : ∀ b ∈ L, ∀ b1 ∈ L, b ≠ b1 → b.1 + 2 ^ b.2 ≤ b1.1 ∨ b1.1 + 2 ^ b1.2 ≤ b.1)
    (hcov : ∀ x, lo ≤ x → x < lo + n → ∃ b ∈ L, b.1 ≤ x ∧ x < b.1 + 2 ^ b.2) :
    (L.map fun b => 2 ^ b.2).sum = n := by
  have hU : L.toFinset.biUnion (fun b => Finset.Ico b.1 (b.1 + 2 ^ b.2)) =
      Finset.Ico lo (lo + n) := by
    ext x
    simp only [Finset.mem_biUnion, List.mem_toFinset, Finset.mem_Ico]
    constructor
    · rintro ⟨b, hb, h1, h2⟩
      have := hin b hb
      omega
    · rintro ⟨h1, h2⟩
      obtain ⟨b, hb, h3, h4⟩ := hcov x h1 h2
      exact ⟨b, hb, h3, h4⟩
  have hd : ∀ b ∈ L.toFinset, ∀ b1 ∈ L.toFinset, b ≠ b1 →
      Disjoint (Finset.Ico b.1 (b.1 + 2 ^ b.2)) (Finset.Ico b1.1 (b1.1 + 2 ^ b1.2)) := by
    intro b hb b1 hb1 hne
    rw [Finset.disjoint_left]
    intro x hx hx1
    rw [Finset.mem_Ico] at hx hx1
    rcases hdis b (List.mem_toFinset.1 hb) b1 (List.mem_toFinset.1 hb1) hne with h | h <;> omega
  have hcard := Finset.card_biUnion hd
  rw [hU, Nat.card_Ico] at hcard
  simp only [Nat.card_Ico, Nat.add_sub_cancel_left] at hcard
  rw [List.sum_toFinset _ hn] at hcard
  exact hcard.symm

/-- The links along a list are consistent: following `next` and then `prev`,
or `prev` and then `next`, leads back to the node. -/
theorem chain_links (nx pv : Ptr → Ptr) (h : Ptr) :
    ∀ (l : List Nat) (p : Ptr), Chain nx pv h p l →
      pv (nx p) = p ∧ nx (pv h) = h ∧
      ∀ a ∈ l, pv (nx (Ptr.block a)) = Ptr.block a ∧ nx (pv (Ptr.block a)) = Ptr.block a := by
  intro l
  induction l with
  | nil =>
    intro p hc
    obtain ⟨h1, h2⟩ := hc
    exact ⟨by rw [h1, h2], by rw [h2, h1], fun a ha => absurd ha (List.not_mem_nil a)⟩
  | cons b l ih =>
    intro p hc
    obtain ⟨h1, h2, h3⟩ := hc
    obtain ⟨i1, i2, i3⟩ := ih (Ptr.block b) h3
    refine ⟨by rw [h1, h2], i2, ?_⟩
    intro a ha
    rcases List.mem_cons.1 ha with rfl | ha
    · exact ⟨i1, by rw [h2, h1]⟩
    · exact i3 a ha

/-- The free and the reserved blocks are the existing blocks between
operations. -/
theorem live_of_mem (fl : Nat → List Nat) (res : List (Nat × Nat)) (a k : Nat)
    (h : a ∈ fl k ∨ (a, k) ∈ res) : Live fl res none a k :=
  h.elim Or.inl fun h1 => Or.inr (Or.inl h1)

/-- The pool after `buddy_init(&pool, 2^20)` and `buddy_malloc(&pool, 1)` is
reachable, with the one pointer 4120 returned and not yet freed. -/
theorem reach_allocState : Reach labConsts allocState [4120] :=
  Reach.malloc initState allocState [] 1 4120
    (Reach.init labMmap zeroState initState (2 ^ 20) 4096 labMmap_ok (by decide)
      (initState_eq ▸ rfl)) allocState_eq

/-- C16: in every reachable pool the blocks on the free lists (`fl k` is the
list of sentinel `k`) and the reserved blocks (the blocks of the pointers
returned and not yet freed) tile the arena: each has a class `k` with
`SMALLEST_K ≤ k ≤ kval_m`, an offset that is a multiple of `2^k` and its `2^k`
bytes inside the arena, no two of them overlap, every byte of the arena lies in
one of them, and their sizes `2^kval` add up to `2^kval_m`; so the payloads of
two different live pointers do not overlap and lie inside the arena. -/
theorem reach_tiling (c : Consts) (s : State) (ps : List Nat) (h : Reach c s ps) :
    ∃ (fl : Nat → List Nat) (res : List (Nat × Nat)),
      ((∀ k, k < c.MAX_K → IsList s k (fl k)) ∧ (∀ k, s.kval_m < k → fl k = []) ∧
        (∀ p, p ∈ ps ↔ ∃ a k, (a, k) ∈ res ∧ p = a + c.HDR) ∧ ps.Nodup ∧
        ∀ b ∈ allBlocks fl res s.kval_m, s.kval (Ptr.block b.1) = b.2) ∧
      s.numbytes = 2 ^ s.kval_m ∧
      (∀ b ∈ allBlocks fl res s.kval_m, IsBlock c s.base s.kval_m b.1 b.2) ∧
      (allBlocks fl res s.kval_m).Nodup ∧
      (∀ b ∈ allBlocks fl res s.kval_m, ∀ b1 ∈ allBlocks fl res s.kval_m, b ≠ b1 →
        b.1 + 2 ^ b.2 ≤ b1.1 ∨ b1.1 + 2 ^ b1.2 ≤ b.1) ∧
      (∀ x, s.base ≤ x → x < s.base + s.numbytes →
        ∃ b ∈ allBlocks fl res s.kval_m, b.1 ≤ x ∧ x < b.1 + 2 ^ b.2) ∧
      ((allBlocks fl res s.kval_m).map fun b => 2 ^ b.2).sum = 2 ^ s.kval_m ∧
      (∀ p ∈ ps, s.base + c.HDR ≤ p ∧
        p - c.HDR + 2 ^ s.kval (Ptr.block (p - c.HDR)) ≤ s.base + s.numbytes) ∧
      ∀ p ∈ ps, ∀ q ∈ ps, p ≠ q →
        p - c.HDR + 2 ^ s.kval (Ptr.block (p - c.HDR)) ≤ q - c.HDR ∨
        q - c.HDR + 2 ^ s.kval (Ptr.block (q - c.HDR)) ≤ p - c.HDR := by
  obtain ⟨fl, res, I, hnd, hps⟩ := reach_inv c s ps h
  have T := I.tiling
  have hmem := mem_allBlocks c s.base s.kval_m fl res T
  have hblk : ∀ b ∈ allBlocks fl res s.kval_m, IsBlock c s.base s.kval_m b.1 b.2 := by
    rintro ⟨a, k⟩ hb
    exact T.block a k (live_of_mem fl res a k ((hmem a k).1 hb))
  have hdis : ∀ b ∈ allBlocks fl res s.kval_m, ∀ b1 ∈ allBlocks fl res s.kval_m, b ≠ b1 →
      b.1 + 2 ^ b.2 ≤ b1.1 ∨ b1.1 + 2 ^ b1.2 ≤ b.1 := by
    rintro ⟨a, k⟩ hb ⟨a1, k1⟩ hb1 hne
    exact T.disjoint a k a1 k1 (live_of_mem fl res a k ((hmem a k).1 hb))
      (live_of_mem fl res a1 k1 ((hmem a1 k1).1 hb1)) hne
  have hcov : ∀ x, s.base ≤ x → x < s.base + 2 ^ s.kval_m →
      ∃ b ∈ allBlocks fl res s.kval_m, b.1 ≤ x ∧ x < b.1 + 2 ^ b.2 := by
    intro x h1 h2
    obtain ⟨a, k, hL, h3, h4⟩ := T.cover x h1 h2
    rcases hL with hL | hL | hL
    · exact ⟨(a, k), (hmem a k).2 (Or.inl hL), h3, h4⟩
    · exact ⟨(a, k), (hmem a k).2 (Or.inr hL), h3, h4⟩
    · exact absurd hL (by simp)
  have hres : ∀ p ∈ ps, ∃ a k, (a, k) ∈ res ∧ p - c.HDR = a ∧
      s.kval (Ptr.block (p - c.HDR)) = k ∧ p = a + c.HDR := by
    intro p hp
    obtain ⟨a, k, hak, rfl⟩ := (hps p).1 hp
    refine ⟨a, k, hak, by omega, ?_, rfl⟩
    rw [Nat.add_sub_cancel]
    exact (I.heap.res_hdr a k hak).2
  refine ⟨fl, res, ⟨I.heap.lists, ?_, hps, hnd, ?_⟩, I.numbytes_eq, hblk,
    allBlocks_nodup c s.base s.kval_m fl res T, hdis, ?_, ?_, ?_, ?_⟩
  · intro k hk
    rw [List.eq_nil_iff_forall_not_mem]
    intro a ha
    have := (T.block a k (Or.inl ha)).2.1
    omega
  · rintro ⟨a, k⟩ hb
    rcases (hmem a k).1 hb with h1 | h1
    · exact (I.heap.free_hdr k a h1).2
    · exact (I.heap.res_hdr a k h1).2
  · intro x h1 h2
    rw [I.numbytes_eq] at h2
    exact hcov x h1 h2
  · exact partition_sum _ s.base (2 ^ s.kval_m) (allBlocks_nodup c s.base s.kval_m fl res T)
      (fun b hb => ⟨(hblk b hb).2.2.1, (hblk b hb).2.2.2.2⟩) hdis hcov
  · intro p hp
    obtain ⟨a, k, hak, e1, e2, e3⟩ := hres p hp
    have hb := T.block a k (Or.inr (Or.inl hak))
    rw [e2, e1, I.numbytes_eq]
    exact ⟨by have := hb.2.2.1; omega, hb.2.2.2.2⟩
  · intro p hp q hq hne
    obtain ⟨a, k, hak, e1, e2, e3⟩ := hres p hp
    obtain ⟨a1, k1, hak1, f1, f2, f3⟩ := hres q hq
    rw [e2, f2, e1, f1]
    apply T.disjoint a k a1 k1 (Or.inr (Or.inl hak)) (Or.inr (Or.inl hak1))
    intro heq
    simp only [Prod.mk.injEq] at heq
    apply hne
    rw [e3, f3, heq.1]

theorem reach_tiling_witness :
    Reach labConsts allocState [4120] ∧
      ∃ (fl : Nat → List Nat) (res : List (Nat × Nat)),
        (∀ k, k < 48 → IsList allocState k (fl k)) ∧
        (∀ p, p ∈ [4120] ↔ ∃ a k, (a, k) ∈ res ∧ p = a + 24) ∧
        (∀ b ∈ allBlocks fl res allocState.kval_m,
          IsBlock labConsts allocState.base allocState.kval_m b.1 b.2) ∧
        ((allBlocks fl res allocState.kval_m).map fun b => 2 ^ b.2).sum =
          2 ^ allocState.kval_m := by
  obtain ⟨fl, res, h1, -, h3, -, -, -, h7, -⟩ :=
    reach_tiling labConsts allocState [4120] reach_allocState
  exact ⟨reach_allocState, fl, res, h1.1, h1.2.2.1, h3, h7⟩

/-- C17: in every reachable pool, for every class `k` the sentinel `avail[k]`
has tag `BLOCK_UNUSED` and `kval = k`; its list is a circular doubly-linked
list that returns to the sentinel, with `next` then `prev` and `prev` then
`next` leading back to every node; every block on it has tag `BLOCK_AVAIL` and
`kval = k`, is on it once and on no other list, and is not the block of a
pointer returned and not yet freed. -/
theorem reach_free_lists (c : Consts) (s : State) (ps : List Nat) (h : Reach c s ps) :
    ∃ fl : Nat → List Nat, ∀ k, k < c.MAX_K →
      s.tag (Ptr.sentinel k) = Tag.BLOCK_UNUSED ∧ s.kval (Ptr.sentinel k) = k ∧
      IsList s k (fl k) ∧
      s.prev (s.next (Ptr.sentinel k)) = Ptr.sentinel k ∧
      s.next (s.prev (Ptr.sentinel k)) = Ptr.sentinel k ∧
      (fl k).Nodup ∧
      ∀ a ∈ fl k,
        s.tag (Ptr.block a) = Tag.BLOCK_AVAIL ∧ s.kval (Ptr.block a) = k ∧
        s.prev (s.next (Ptr.block a)) = Ptr.block a ∧
        s.next (s.prev (Ptr.block a)) = Ptr.block a ∧
        (∀ j, j ≠ k → a ∉ fl j) ∧
        s.tag (Ptr.block a) ≠ Tag.BLOCK_RESERVED ∧ a + c.HDR ∉ ps := by
  obtain ⟨fl, res, I, -, hps⟩ := reach_inv c s ps h
  refine ⟨fl, fun k hk => ?_⟩
  obtain ⟨l1, l2, l3⟩ := chain_links s.next s.prev (Ptr.sentinel k) (fl k) (Ptr.sentinel k)
    (I.heap.lists k hk)
  refine ⟨(I.heap.sent k hk).1, (I.heap.sent k hk).2, I.heap.lists k hk, l1, l2,
    I.tiling.nodup k, fun a ha => ?_⟩
  have hh := I.heap.free_hdr k a ha
  refine ⟨hh.1, hh.2, (l3 a ha).1, (l3 a ha).2, ?_, ?_, ?_⟩
  · intro j hj haj
    exact hj (lists_disjoint c s.base s.kval_m fl res none I.tiling a j k haj ha)
  · rw [hh.1]
    decide
  · intro hp
    obtain ⟨a1, k1, hak, e⟩ := (hps _).1 hp
    have : a = a1 := by omega
    subst this
    exact free_not_res c s.base s.kval_m fl res none I.tiling a k k1 ha hak

theorem reach_free_lists_witness :
    Reach labConsts allocState [4120] ∧
      ∃ fl : Nat → List Nat, ∀ k, k < 48 →
        allocState.tag (Ptr.sentinel k) = Tag.BLOCK_UNUSED ∧
        allocState.kval (Ptr.sentinel k) = k ∧ IsList allocState k (fl k) ∧
        allocState.prev (allocState.next (Ptr.sentinel k)) = Ptr.sentinel k ∧
        allocState.next (allocState.prev (Ptr.sentinel k)) = Ptr.sentinel k ∧
        (fl k).Nodup ∧
        ∀ a ∈ fl k,
          allocState.tag (Ptr.block a) = Tag.BLOCK_AVAIL ∧ allocState.kval (Ptr.block a) = k ∧
          allocState.prev (allocState.next (Ptr.block a)) = Ptr.block a ∧
          allocState.next (allocState.prev (Ptr.block a)) = Ptr.block a ∧
          (∀ j, j ≠ k → a ∉ fl j) ∧
          allocState.tag (Ptr.block a) ≠ Tag.BLOCK_RESERVED ∧ a + 24 ∉ [4120] :=
  ⟨reach_allocState, reach_free_lists labConsts allocState [4120] reach_allocState⟩

/-- C18: in every reachable pool no block on the free list of a class
`k < kval_m` has its buddy, the block at offset `offset XOR 2^k`, on the free
list of class `k` as well (`fl k` is the list of sentinel `k`). -/
theorem reach_eager (c : Consts) (s : State) (ps : List Nat) (h : Reach c s ps) :
    ∃ fl : Nat → List Nat, (∀ k, k < c.MAX_K → IsList s k (fl k)) ∧
      ∀ k a, a ∈ fl k → k < s.kval_m →
        buddyAddr s.base a k ∉ fl k ∧
        ¬ (s.tag (Ptr.block (buddyAddr s.base a k)) = Tag.BLOCK_AVAIL ∧
          s.kval (Ptr.block (buddyAddr s.base a k)) = k ∧
          ∃ j, buddyAddr s.base a k ∈ fl j) := by
  obtain ⟨fl, res, I, -, -⟩ := reach_inv c s ps h
  refine ⟨fl, I.heap.lists, fun k a ha hk => ⟨I.tiling.eager k a ha hk, ?_⟩⟩
  rintro ⟨-, h2, j, hj⟩
  have := (I.heap.free_hdr j _ hj).2
  rw [h2] at this
  subst this
  exact I.tiling.eager k a ha hk hj

theorem reach_eager_witness :
    Reach labConsts allocState [4120] ∧
      ∃ fl : Nat → List Nat, (∀ k, k < 48 → IsList allocState k (fl k)) ∧
        ∀ k a, a ∈ fl k → k < allocState.kval_m →
          buddyAddr allocState.base a k ∉ fl k ∧
          ¬ (allocState.tag (Ptr.block (buddyAddr allocState.base a k)) = Tag.BLOCK_AVAIL ∧
            allocState.kval (Ptr.block (buddyAddr allocState.base a k)) = k ∧
            ∃ j, buddyAddr allocState.base a k ∈ fl j) :=
  ⟨reach_allocState, reach_eager labConsts allocState [4120] reach_allocState⟩

/-! ## Iteration counts of the loops -/

/-- The counting loop of `btok` computes what the loop computes, and its count
is the increase of `k`. -/
theorem btok_loop_n_eq (c : Consts) (bytes : Nat) :
    ∀ fuel k, btok_loop_n c bytes fuel k =
      (btok_loop c bytes fuel k, btok_loop c bytes fuel k - k) ∧
      k ≤ btok_loop c bytes fuel k := by
  intro fuel
  induction fuel with
  | zero =>
    intro k
    simp only [btok_loop_n, btok_loop]
    exact ⟨by rw [Nat.sub_self], le_refl _⟩
  | succ n ih =>
    intro k
    simp only [btok_loop_n, btok_loop]
    by_cases hcond : 2 ^ k < bytes ∧ k < c.MAX_K
    · rw [if_pos hcond, if_pos hcond]
      obtain ⟨e, hle⟩ := ih (k + 1)
      rw [e]
      refine ⟨?_, by omega⟩
      simp only [Prod.mk.injEq, true_and]
      omega
    · rw [if_neg hcond, if_neg hcond]
      exact ⟨by rw [Nat.sub_self], le_refl _⟩

/-- More fuel than `MAX_K - k` does not change the result of the loop of
`btok`: the loop has ended by then. -/
theorem btok_loop_fuel (c : Consts) (bytes : Nat) :
    ∀ fuel k, c.MAX_K ≤ k + fuel →
      btok_loop c bytes fuel k = btok_loop c bytes (c.MAX_K - k) k := by
  intro fuel
  induction fuel with
  | zero =>
    intro k hk
    have : c.MAX_K - k = 0 := by omega
    rw [this]
  | succ n ih =>
    intro k hk
    by_cases hcond : 2 ^ k < bytes ∧ k < c.MAX_K
    · have hM : c.MAX_K - k = (c.MAX_K - (k + 1)) + 1 := by omega
      rw [hM]
      simp only [btok_loop]
      rw [if_pos hcond, if_pos hcond]
      exact ih (k + 1) (by omega)
    · have hl : btok_loop c bytes (n + 1) k = k := by
        simp only [btok_loop]
        rw [if_neg hcond]
      rw [hl]
      cases hM : c.MAX_K - k with
      | zero => rfl
      | succ m =>
        simp only [btok_loop]
        rw [if_neg hcond]

/-- The counting split loop computes what the split loop computes, and its
count is `current_k - k`. -/
theorem malloc_split_n_eq (c : Consts) (k B : Nat) :
    ∀ fuel (s : State) (cur : Nat),
      malloc_split_n c k B fuel s cur =
        (malloc_split c k B fuel s cur).map fun s1 => (s1, cur - k) := by
  intro fuel
  induction fuel with
  | zero =>
    intro s cur
    simp only [malloc_split_n, malloc_split]
    by_cases h : cur > k
    · rw [if_pos h, if_pos h]
      rfl
    · rw [if_neg h, if_neg h]
      have : cur - k = 0 := by omega
      rw [this]
      rfl
  | succ n ih =>
    intro s cur
    simp only [malloc_split_n, malloc_split]
    by_cases h : cur > k
    · rw [if_pos h, if_pos h]
      cases hp : list_push c (setKval (setTag s (Ptr.block (B + 2 ^ (cur - 1)))
          Tag.BLOCK_AVAIL) (Ptr.block (B + 2 ^ (cur - 1))) (cur - 1)) (cur - 1)
          (Ptr.block (B + 2 ^ (cur - 1))) with
      | none => rfl
      | some s3 =>
        simp only [Option.some_bind]
        rw [ih]
        cases malloc_split c k B n (setKval s3 (Ptr.block B) (cur - 1)) (cur - 1) with
        | none => rfl
        | some s5 =>
          simp only [Option.map_some']
          have : cur - 1 - k + 1 = cur - k := by omega
          rw [this]
    · rw [if_neg h, if_neg h]
      have : cur - k = 0 := by omega
      rw [this]
      rfl

/-- More fuel does not change a result of the split loop. -/
theorem malloc_split_fuel (c : Consts) (k B : Nat) :
    ∀ fuel (s : State) (cur : Nat) (r : State), malloc_split c k B fuel s cur = some r →
      ∀ m, malloc_split c k B (fuel + m) s cur = some r := by
  intro fuel
  induction fuel with
  | zero =>
    intro s cur r h m
    simp only [malloc_split] at h
    by_cases hc : cur > k
    · rw [if_pos hc] at h
      exact absurd h (by simp)
    · rw [if_neg hc] at h
      cases m with
      | zero => simp only [malloc_split]; rw [if_neg hc]; exact h
      | succ m =>
        rw [Nat.zero_add]
        simp only [malloc_split]
        rw [if_neg hc]
        exact h
  | succ n ih =>
    intro s cur r h m
    have hf : n + 1 + m = (n + m) + 1 := by omega
    rw [hf]
    simp only [malloc_split] at h ⊢
    by_cases hc : cur > k
    · rw [if_pos hc] at h ⊢
      cases hp : list_push c (setKval (setTag s (Ptr.block (B + 2 ^ (cur - 1)))
          Tag.BLOCK_AVAIL) (Ptr.block (B + 2 ^ (cur - 1))) (cur - 1)) (cur - 1)
          (Ptr.block (B + 2 ^ (cur - 1))) with
      | none =>
        rw [hp] at h
        exact absurd h (by simp)
      | some s3 =>
        rw [hp] at h
        simp only [Option.some_bind] at h ⊢
        exact ih _ _ r h m
    · rw [if_neg hc] at h ⊢
      exact h

/-- The function `list_remove` writes link cells only. -/
theorem list_remove_kval (c : Consts) (s s1 : State) (x : Ptr)
    (h : list_remove c s x = some s1) : s1.kval = s.kval ∧ s1.kval_m = s.kval_m := by
  unfold list_remove at h
  simp only [Option.bind_eq_some] at h
  obtain ⟨x1, -, p, -, n, -, h⟩ := h
  simp only [Option.some.injEq] at h
  subst h
  exact ⟨rfl, rfl⟩

/-- The counting coalescing loop computes what the coalescing loop
computes. -/
theorem free_loop_n_eq (c : Consts) :
    ∀ fuel (s : State) (b : Nat),
      (free_loop_n c fuel s b).map Prod.fst = free_loop c fuel s b := by
  intro fuel
  induction fuel with
  | zero =>
    intro s b
    simp only [free_loop_n, free_loop]
    by_cases h : s.kval (Ptr.block b) < s.kval_m
    · rw [if_pos h, if_pos h]
      rfl
    · rw [if_neg h, if_neg h]
      rfl
  | succ n ih =>
    intro s b
    simp only [free_loop_n, free_loop]
    by_cases h : s.kval (Ptr.block b) < s.kval_m
    · rw [if_pos h, if_pos h]
      generalize buddy_calc s PoolPtr.addr b = buddy
      by_cases h2 : buddy = 0 ∨ s.tag (Ptr.block buddy) ≠ Tag.BLOCK_AVAIL ∨
          s.kval (Ptr.block buddy) ≠ s.kval (Ptr.block b)
      · rw [if_pos h2, if_pos h2]
        rfl
      · rw [if_neg h2, if_neg h2]
        cases hr : list_remove c s (Ptr.block buddy) with
        | none => rfl
        | some s1 =>
          simp only [Option.some_bind]
          rw [← ih]
          simp only [Option.map_map]
          rfl
    · rw [if_neg h, if_neg h]
      rfl

/-- Every iteration of the coalescing loop but one that leaves by `break`
raises the class of the block in hand, and the loop is entered below the top
class only: the count of iterations is at most the distance of the class to
`kval_m`. -/
theorem free_loop_n_le (c : Consts) :
    ∀ fuel (s : State) (b : Nat) (r : State × Nat) (n : Nat),
      free_loop_n c fuel s b = some (r, n) → s.kval (Ptr.block b) ≤ s.kval_m →
      s.kval (Ptr.block b) + n ≤ s.kval_m := by
  intro fuel
  induction fuel with
  | zero =>
    intro s b r n h hle
    simp only [free_loop_n] at h
    by_cases hc : s.kval (Ptr.block b) < s.kval_m
    · rw [if_pos hc] at h
      exact absurd h (by simp)
    · rw [if_neg hc] at h
      simp only [Option.some.injEq, Prod.mk.injEq] at h
      omega
  | succ m ih =>
    intro s b r n h hle
    simp only [free_loop_n] at h
    by_cases hc : s.kval (Ptr.block b) < s.kval_m
    · rw [if_pos hc] at h
      generalize buddy_calc s PoolPtr.addr b = buddy at h
      by_cases h2 : buddy = 0 ∨ s.tag (Ptr.block buddy) ≠ Tag.BLOCK_AVAIL ∨
          s.kval (Ptr.block buddy) ≠ s.kval (Ptr.block b)
      · rw [if_pos h2] at h
        simp only [Option.some.injEq, Prod.mk.injEq] at h
        omega
      · rw [if_neg h2] at h
        have hkb : s.kval (Ptr.block buddy) = s.kval (Ptr.block b) := by
          by_contra hne
          exact h2 (Or.inr (Or.inr hne))
        cases hr : list_remove c s (Ptr.block buddy) with
        | none =>
          rw [hr] at h
          exact absurd h (by simp)
        | some s1 =>
          rw [hr] at h
          simp only [Option.some_bind] at h
          obtain ⟨hk1, hM1⟩ := list_remove_kval c s s1 _ hr
          have hb1 : s.kval (Ptr.block (if buddy < b then buddy else b)) =
              s.kval (Ptr.block b) := by
            split_ifs
            · exact hkb
            · rfl
          generalize (if buddy < b then buddy else b) = b1 at hb1 h
          have hk2 : (setKval s1 (Ptr.block b1) (s1.kval (Ptr.block b1) + 1)).kval
              (Ptr.block b1) = s.kval (Ptr.block b) + 1 := by
            show Function.update s1.kval (Ptr.block b1) _ (Ptr.block b1) = _
            rw [Function.update_same, hk1, hb1]
          have hM2 : (setKval s1 (Ptr.block b1) (s1.kval (Ptr.block b1) + 1)).kval_m =
              s.kval_m := hM1
          rw [Option.map_eq_some'] at h
          obtain ⟨⟨r1, n1⟩, hf, hrn⟩ := h
          simp only [Prod.mk.injEq] at hrn
          have := ih _ b1 r1 n1 hf (by rw [hk2, hM2]; omega)
          rw [hk2, hM2] at this
          omega
    · rw [if_neg hc] at h
      simp only [Option.some.injEq, Prod.mk.injEq] at h
      omega

/-- More fuel does not change a result of the counting coalescing loop. -/
theorem free_loop_n_fuel (c : Consts) :
    ∀ fuel (s : State) (b : Nat) (r : (State × Nat) × Nat),
      free_loop_n c fuel s b = some r → ∀ m, free_loop_n c (fuel + m) s b = some r := by
  intro fuel
  induction fuel with
  | zero =>
    intro s b r h m
    simp only [free_loop_n] at h
    by_cases hc : s.kval (Ptr.block b) < s.kval_m
    · rw [if_pos hc] at h
      exact absurd h (by simp)
    · rw [if_neg hc] at h
      cases m with
      | zero => simp only [free_loop_n]; rw [if_neg hc]; exact h
      | succ m =>
        rw [Nat.zero_add]
        simp only [free_loop_n]
        rw [if_neg hc]
        exact h
  | succ n ih =>
    intro s b r h m
    have hf : n + 1 + m = (n + m) + 1 := by omega
    rw [hf]
    simp only [free_loop_n] at h ⊢
    by_cases hc : s.kval (Ptr.block b) < s.kval_m
    · rw [if_pos hc] at h ⊢
      generalize buddy_calc s PoolPtr.addr b = buddy at h ⊢
      by_cases h2 : buddy = 0 ∨ s.tag (Ptr.block buddy) ≠ Tag.BLOCK_AVAIL ∨
          s.kval (Ptr.block buddy) ≠ s.kval (Ptr.block b)
      · rw [if_pos h2] at h ⊢
        exact h
      · rw [if_neg h2] at h ⊢
        cases hr : list_remove c s (Ptr.block buddy) with
        | none =>
          rw [hr] at h
          exact absurd h (by simp)
        | some s1 =>
          rw [hr] at h
          simp only [Option.some_bind] at h ⊢
          rw [Option.map_eq_some'] at h ⊢
          obtain ⟨r1, hf1, hr1⟩ := h
          exact ⟨r1, ih _ _ r1 hf1 m, hr1⟩
    · rw [if_neg hc] at h ⊢
      exact h

/-- The steps of a `buddy_malloc` that finds a victim: the head `B` of the
lowest list `j` with a member leaves its list, the split loop runs from class
`j` down to the class `k` of the request, and the block is marked reserved. -/
theorem malloc_steps (c : Consts) (s : State) (fl : Nat → List Nat) (res : List (Nat × Nat))
    (size : Nat) (I : Inv c s fl res) (hsz : size ≠ 0) (j B : Nat) (rest : List Nat)
    (hkj : btok c ((size + c.HDR) % 2 ^ 64) ≤ j) (hj : fl j = B :: rest)
    (hlow : ∀ i, btok c ((size + c.HDR) % 2 ^ 64) ≤ i → i < j → fl i = []) :
    ∃ s1 s2, list_remove c s (Ptr.block B) = some s1 ∧
      malloc_split c (btok c ((size + c.HDR) % 2 ^ 64)) B
        (j - btok c ((size + c.HDR) % 2 ^ 64)) s1 j = some s2 ∧
      buddy_malloc c s PoolPtr.addr size =
        some (setTag s2 (Ptr.block B) Tag.BLOCK_RESERVED, B + c.HDR) ∧
      c.SMALLEST_K ≤ btok c ((size + c.HDR) % 2 ^ 64) ∧ j ≤ s.kval_m := by
  have hB : B ∈ fl j := by rw [hj]; exact List.mem_cons_self _ _
  have hblk := I.tiling.block B j (Or.inl hB)
  have hjM : j ≤ s.kval_m := hblk.2.1
  have hMM := I.kval_m_lt
  have hSM : c.SMALLEST_K ≤ c.MAX_K := by
    have := I.kval_m_ge
    omega
  generalize hkdef : btok c ((size + c.HDR) % 2 ^ 64) = k at *
  have hk : c.SMALLEST_K ≤ k := by rw [← hkdef]; exact btok_ge c hSM _
  have hhead : s.next (Ptr.sentinel j) = Ptr.block B := by
    have := I.heap.lists j (by omega)
    rw [hj] at this
    exact this.1
  have hsearch : malloc_search c s (s.kval_m + 1 - k) k = some (j, Ptr.block B) := by
    rw [← hhead]
    apply malloc_search_some c s hMM j hjM (by rw [hhead]; simp) _ k rfl hkj
    intro i h1 h2
    exact (isList_nil_iff s i (fl i) (I.heap.lists i (by omega))).2 (hlow i h1 h2)
  obtain ⟨s1, e1, I1, e2, -, -⟩ := inv_take c s fl res B j I hB
  have hjk : j = k + (j - k) := by omega
  rw [hjk] at I1
  obtain ⟨s2, e6, -, -⟩ := malloc_split_spec c res B k hk (j - k) s1 _ I1
  rw [← hjk] at e6
  refine ⟨s1, s2, e1, e6, ?_, hk, hjM⟩
  unfold buddy_malloc
  have hb := I.base_pos
  rw [if_neg (by simp; omega)]
  simp only [hkdef, hsearch, Option.some_bind, e1, e6]

/-- The steps of `buddy_free` on the pointer of a reserved block of class `k`:
the block is marked available, the coalescing loop returns with a block of a
class of at most `kval_m`, and that block is put on the list of its class. -/
theorem free_steps (c : Consts) (s : State) (fl : Nat → List Nat) (res : List (Nat × Nat))
    (a k : Nat) (I : Inv c s fl res) (ha : (a, k) ∈ res) :
    ∃ r, free_loop c (s.kval_m - k) (setTag s (Ptr.block a) Tag.BLOCK_AVAIL) a = some r ∧
      r.1.kval (Ptr.block r.2) ≤ s.kval_m ∧
      (setTag s (Ptr.block a) Tag.BLOCK_AVAIL).kval (Ptr.block a) = k ∧
      buddy_free c s PoolPtr.addr (a + c.HDR) =
        list_push c r.1 (r.1.kval (Ptr.block r.2)) (Ptr.block r.2) := by
  have I0 := inv_release c s fl res a k I ha
  have hkv := (I0.heap.hold_hdr a k rfl).2
  obtain ⟨s1, e1, I1, -, f1, -⟩ := free_loop_spec c _ (s.kval_m - k) _ fl a k I0 rfl
  have hM : (setTag s (Ptr.block a) Tag.BLOCK_AVAIL).kval_m = s.kval_m := rfl
  have hkv1 := (I1.heap.hold_hdr _ _ rfl).2
  have hle := (I1.tiling.block _ _ (Or.inr (Or.inr rfl))).2.1
  rw [f1.2.1, hM] at hle
  refine ⟨_, e1, by rw [hkv1]; exact hle, hkv, ?_⟩
  unfold buddy_free
  have hge := (I.tiling.block a k (Or.inr (Or.inl ha))).2.2.1
  have hbp := I.base_pos
  rw [if_neg (by simp; omega)]
  simp only [Nat.add_sub_cancel]
  rw [hkv, hM, e1]
  rfl

/-- C21: on a well-formed pool with top class `M = kval_m`, the split loop of
`buddy_malloc` runs exactly `j - k` times (`j` the class of the victim, `k` the
class of the request) and the coalescing loop of `buddy_free` of a block of
class `kval` runs at most `M - kval` times (the iteration that leaves by
`break` counted), whatever fuel above that is supplied; both counts are at most `M - SMALLEST_K`; and the loop of `btok` runs
`btok bytes - SMALLEST_K` times, at most `MAX_K - SMALLEST_K`. -/
theorem loop_bounds (c : Consts) (hc : c.Valid) (s : State) (fl : Nat → List Nat)
    (res : List (Nat × Nat)) (I : Inv c s fl res) :
    (∀ size j B rest, size ≠ 0 → btok c ((size + c.HDR) % 2 ^ 64) ≤ j → fl j = B :: rest →
      (∀ i, btok c ((size + c.HDR) % 2 ^ 64) ≤ i → i < j → fl i = []) →
      ∃ s1 s2, list_remove c s (Ptr.block B) = some s1 ∧
        (∀ fuel, j - btok c ((size + c.HDR) % 2 ^ 64) ≤ fuel →
          malloc_split_n c (btok c ((size + c.HDR) % 2 ^ 64)) B fuel s1 j =
            some (s2, j - btok c ((size + c.HDR) % 2 ^ 64))) ∧
        buddy_malloc c s PoolPtr.addr size =
          some (setTag s2 (Ptr.block B) Tag.BLOCK_RESERVED, B + c.HDR) ∧
        j - btok c ((size + c.HDR) % 2 ^ 64) ≤ s.kval_m - c.SMALLEST_K) ∧
    (∀ a kval, (a, kval) ∈ res →
      ∃ r n, (∀ fuel, s.kval_m - kval ≤ fuel →
          free_loop_n c fuel (setTag s (Ptr.block a) Tag.BLOCK_AVAIL) a = some (r, n)) ∧
        n ≤ s.kval_m - kval ∧ s.kval_m - kval ≤ s.kval_m - c.SMALLEST_K ∧
        buddy_free c s PoolPtr.addr (a + c.HDR) =
          list_push c r.1 (r.1.kval (Ptr.block r.2)) (Ptr.block r.2)) ∧
    (∀ bytes fuel, c.MAX_K - c.SMALLEST_K ≤ fuel →
      btok_loop_n c bytes fuel c.SMALLEST_K = (btok c bytes, btok c bytes - c.SMALLEST_K) ∧
      btok c bytes - c.SMALLEST_K ≤ c.MAX_K - c.SMALLEST_K) := by
  obtain ⟨h1, h2, h3, h4, h5⟩ := hc
  have hSM : c.SMALLEST_K ≤ c.MAX_K := by omega
  refine ⟨?_, ?_, ?_⟩
  · intro size j B rest hsz hkj hj hlow
    obtain ⟨s1, s2, e1, e2, e3, hk, hjM⟩ :=
      malloc_steps c s fl res size I hsz j B rest hkj hj hlow
    refine ⟨s1, s2, e1, ?_, e3, by omega⟩
    intro fuel hf
    rw [malloc_split_n_eq]
    have := malloc_split_fuel c _ B _ s1 j s2 e2 (fuel - (j - btok c ((size + c.HDR) % 2 ^ 64)))
    rw [Nat.add_sub_cancel' hf] at this
    rw [this]
    rfl
  · intro a kval ha
    obtain ⟨r, e1, hle, hkv, e2⟩ := free_steps c s fl res a kval I ha
    have hblk := I.tiling.block a kval (Or.inr (Or.inl ha))
    have hmap := free_loop_n_eq c (s.kval_m - kval) (setTag s (Ptr.block a) Tag.BLOCK_AVAIL) a
    rw [e1, Option.map_eq_some'] at hmap
    obtain ⟨⟨r1, n⟩, hn, hr1⟩ := hmap
    simp only at hr1
    subst hr1
    have hb := free_loop_n_le c _ _ a r1 n hn (by
      rw [hkv]
      exact hblk.2.1)
    rw [hkv] at hb
    have hM : (setTag s (Ptr.block a) Tag.BLOCK_AVAIL).kval_m = s.kval_m := rfl
    rw [hM] at hb
    have hk1 := hblk.1
    refine ⟨r1, n, ?_, by omega, by omega, e2⟩
    intro fuel hf
    have := free_loop_n_fuel c _ _ a _ hn (fuel - (s.kval_m - kval))
    rw [Nat.add_sub_cancel' hf] at this
    exact this
  · intro bytes fuel hf
    have hle := btok_le c hSM bytes
    refine ⟨?_, by omega⟩
    rw [(btok_loop_n_eq c bytes fuel c.SMALLEST_K).1,
      btok_loop_fuel c bytes fuel c.SMALLEST_K (by omega)]
    rfl

set_option maxRecDepth 100000 in
theorem loop_bounds_witness :
    (∃ s1 s2, list_remove labConsts initState (Ptr.block 4096) = some s1 ∧
        (∀ fuel, 20 - 6 ≤ fuel →
          malloc_split_n labConsts 6 4096 fuel s1 20 = some (s2, 20 - 6)) ∧
        buddy_malloc labConsts initState PoolPtr.addr 1 =
          some (setTag s2 (Ptr.block 4096) Tag.BLOCK_RESERVED, 4096 + 24) ∧
        20 - 6 ≤ 20 - 6) ∧
      (∃ r n, (∀ fuel, 20 - 6 ≤ fuel →
          free_loop_n labConsts fuel (setTag allocState (Ptr.block 4096) Tag.BLOCK_AVAIL)
            4096 = some (r, n)) ∧
        n ≤ 20 - 6 ∧ 20 - 6 ≤ 20 - 6 ∧
        buddy_free labConsts allocState PoolPtr.addr (4096 + 24) =
          list_push labConsts r.1 (r.1.kval (Ptr.block r.2)) (Ptr.block r.2)) ∧
      btok_loop_n labConsts 1025 42 6 = (11, 5) :=
  ⟨(loop_bounds labConsts (by decide) initState _ [] initState_inv).1 1 20 4096 []
      (by decide) (by decide) (by decide) (fun i h1 h2 => if_neg (by
        have : initState.kval_m = 20 := by decide
        omega)),
   (loop_bounds labConsts (by decide) allocState allocLists [(4096, 6)] allocState_inv).2.1
      4096 6 (by simp),
   ((loop_bounds labConsts (by decide) allocState allocLists [(4096, 6)] allocState_inv).2.2
      1025 42 (by decide)).1⟩

/-! ## Reallocation of a block that was returned for a wrapped request -/

/-- The steps of a growing `buddy_realloc`: for the pointer of a reserved block
of class `old_k` and a request of a class above `old_k`, when the inner
`buddy_malloc` returns the pointer `q`, the call copies
`2^old_k - HDR` bytes, the payload size of the old block, from the old pointer
to `q`, frees the old pointer and returns `q`. -/
theorem realloc_grow_steps (c : Consts) (hc : c.Valid) (s : State)
    (fl : Nat → List Nat) (res : List (Nat × Nat)) (I : Inv c s fl res) (a old_k : Nat)
    (ha : (a, old_k) ∈ res) (size : Nat) (hsz : size ≠ 0)
    (hgrow : old_k < btok c ((size + c.HDR) % 2 ^ 64)) (s1 : State) (q : Nat)
    (hm : buddy_malloc c s PoolPtr.addr size = some (s1, q)) (hq : q ≠ 0) :
    ∃ s3, buddy_free c (memcpy s1 q (a + c.HDR) (2 ^ old_k - c.HDR)) PoolPtr.addr
        (a + c.HDR) = some s3 ∧
      buddy_realloc c s PoolPtr.addr (a + c.HDR) size = some (s3, q) := by
  have hblk := I.tiling.block a old_k (Or.inr (Or.inl ha))
  have hkv := (I.heap.res_hdr a old_k ha).2
  have hbp := I.base_pos
  have hMM := I.kval_m_lt
  have hage := hblk.2.2.1
  rcases malloc_cases c s fl res size I hsz with ⟨e, -⟩ | ⟨j, B, rest, s1a, -, -, -, e, I1, f⟩
  · rw [e] at hm
    simp only [Option.some.injEq, Prod.mk.injEq] at hm
    exact absurd hm.2.symm hq
  · rw [e] at hm
    simp only [Option.some.injEq, Prod.mk.injEq] at hm
    obtain ⟨h1, h2⟩ := hm
    subst h1 h2
    generalize hk : btok c ((size + c.HDR) % 2 ^ 64) = k at *
    have hos := old_size_eq c hc old_k hblk.1 (by have := hblk.2.1; omega)
    have I2 := inv_memcpy c s1a _ _ (B + c.HDR) (a + c.HDR) (2 ^ old_k - c.HDR) I1
    obtain ⟨s3, e3, -⟩ := free_ok c _ _ _ a old_k I2 (List.mem_cons_of_mem _ ha)
    refine ⟨s3, e3, ?_⟩
    unfold buddy_realloc
    rw [if_neg (by simp), if_neg (by omega), if_neg hsz]
    simp only [Nat.add_sub_cancel, hkv, hk, hos]
    rw [if_neg (by omega), e]
    simp only [Option.some_bind]
    rw [if_neg (by omega), e3]
    rfl

set_option maxRecDepth 100000 in
/-- C9, the code at the failing input: the pointer 4120 is what
`buddy_malloc(&pool, SIZE_MAX)` returns on the pool of `2^20` bytes, a 64-byte
block with 40 payload bytes; `buddy_realloc` of it to 100 bytes allocates the
128-byte block of the pointer 4248, calls `memcpy(4248, 4120, 40)`, frees 4120
and returns 4248: 40 bytes are copied, fewer than the 100 bytes and than the
`SIZE_MAX` bytes that were requested. -/
theorem realloc_copies_block_payload :
    buddy_malloc labConsts initState PoolPtr.addr (2 ^ 64 - 1) = some (allocState, 4120) ∧
      buddy_malloc labConsts allocState PoolPtr.addr 100 = some (growState, 4248) ∧
      (∃ s3, buddy_free labConsts (memcpy growState 4248 4120 40) PoolPtr.addr 4120 = some s3 ∧
        buddy_realloc labConsts allocState PoolPtr.addr 4120 100 = some (s3, 4248)) ∧
      40 < 100 ∧ 100 < 2 ^ 64 - 1 :=
  ⟨(malloc_congr labConsts initState PoolPtr.addr (2 ^ 64 - 1) 1 (by decide) (by decide)
      (by decide)).trans allocState_eq,
   growState_eq,
   realloc_grow_steps labConsts (by decide) allocState allocLists [(4096, 6)] allocState_inv
     4096 6 (by simp) 100 (by decide) (by decide) growState 4248 growState_eq (by decide),
   by decide, by decide⟩

set_option maxRecDepth 100000 in
/-- C11, the code at the failing input: the pointer 4120 is what
`buddy_malloc(&pool, SIZE_MAX)` returns on the pool of `2^20` bytes, a block of
class 6; `buddy_realloc` of it to the smaller size 100 computes the class 7,
above 6, and returns another pointer, 4248, while `buddy_realloc` to the same
size `SIZE_MAX` returns 4120. -/
theorem realloc_smaller_moves :
    buddy_malloc labConsts initState PoolPtr.addr (2 ^ 64 - 1) = some (allocState, 4120) ∧
      100 < 2 ^ 64 - 1 ∧
      allocState.kval (Ptr.block 4096) = 6 ∧
      btok labConsts ((100 + labConsts.HDR) % 2 ^ 64) = 7 ∧
      (∃ s3, buddy_realloc labConsts allocState PoolPtr.addr 4120 100 = some (s3, 4248)) ∧
      4248 ≠ 4120 ∧
      buddy_realloc labConsts allocState PoolPtr.addr 4120 (2 ^ 64 - 1) =
        some (allocState, 4120) :=
  ⟨(malloc_congr labConsts initState PoolPtr.addr (2 ^ 64 - 1) 1 (by decide) (by decide)
      (by decide)).trans allocState_eq,
   by decide, (allocState_inv.heap.res_hdr 4096 6 (by simp)).2, by decide,
   (realloc_grow_steps labConsts (by decide) allocState allocLists [(4096, 6)] allocState_inv
     4096 6 (by simp) 100 (by decide) (by decide) growState 4248 growState_eq
     (by decide)).elim fun s3 h => ⟨s3, h.2⟩,
   by decide,
   realloc_same labConsts allocState allocLists [(4096, 6)] allocState_inv 4096 6 (by simp)
     (2 ^ 64 - 1) (by decide) (by decide)⟩

/-! ## Header writes and payload bytes -/

theorem hdrFrame_refl (P : Nat → Prop) (s : State) : HdrFrame P s s :=
  fun _ _ => ⟨rfl, rfl, rfl, rfl⟩

theorem hdrFrame_trans (P : Nat → Prop) (s2 s1 s : State) (h2 : HdrFrame P s2 s1)
    (h1 : HdrFrame P s1 s) : HdrFrame P s2 s := by
  intro x hx
  obtain ⟨a1, a2, a3, a4⟩ := h2 x hx
  obtain ⟨b1, b2, b3, b4⟩ := h1 x hx
  exact ⟨a1.trans b1, a2.trans b2, a3.trans b3, a4.trans b4⟩

/-- A write to the `tag` of a header outside `P`. -/
theorem hdrFrame_setTag (P : Nat → Prop) (s : State) (p : Ptr) (v : Tag)
    (h : ∀ b, p = Ptr.block b → ¬ P b) : HdrFrame P (setTag s p v) s := by
  intro x hx
  refine ⟨?_, rfl, rfl, rfl⟩
  show Function.update s.tag p v (Ptr.block x) = _
  rw [Function.update_noteq]
  intro he
  exact h x he.symm hx

/-- A write to the `kval` of a header outside `P`. -/
theorem hdrFrame_setKval (P : Nat → Prop) (s : State) (p : Ptr) (v : Nat)
    (h : ∀ b, p = Ptr.block b → ¬ P b) : HdrFrame P (setKval s p v) s := by
  intro x hx
  refine ⟨rfl, ?_, rfl, rfl⟩
  show Function.update s.kval p v (Ptr.block x) = _
  rw [Function.update_noteq]
  intro he
  exact h x he.symm hx

/-- A write to the `next` of a header outside `P`. -/
theorem hdrFrame_setNext (P : Nat → Prop) (s : State) (p v : Ptr)
    (h : ∀ b, p = Ptr.block b → ¬ P b) : HdrFrame P (setNext s p v) s := by
  intro x hx
  refine ⟨rfl, rfl, ?_, rfl⟩
  show Function.update s.next p v (Ptr.block x) = _
  rw [Function.update_noteq]
  intro he
  exact h x he.symm hx

/-- A write to the `prev` of a header outside `P`. -/
theorem hdrFrame_setPrev (P : Nat → Prop) (s : State) (p v : Ptr)
    (h : ∀ b, p = Ptr.block b → ¬ P b) : HdrFrame P (setPrev s p v) s := by
  intro x hx
  refine ⟨rfl, rfl, rfl, ?_⟩
  show Function.update s.prev p v (Ptr.block x) = _
  rw [Function.update_noteq]
  intro he
  exact h x he.symm hx

theorem deref_some (c : Consts) (p q : Ptr) (h : deref c p = some q) : q = p := by
  unfold deref at h
  split_ifs at h
  simp only [Option.some.injEq] at h
  exact h.symm

/-- The function `list_remove` writes the `next` of the predecessor and the
`prev` of the successor only. -/
theorem list_remove_frame (P : Nat → Prop) (c : Consts) (s s1 : State) (x : Ptr)
    (h : list_remove c s x = some s1) (hp : ∀ b, s.prev x = Ptr.block b → ¬ P b)
    (hn : ∀ b, s.next x = Ptr.block b → ¬ P b) : HdrFrame P s1 s := by
  unfold list_remove at h
  simp only [Option.bind_eq_some] at h
  obtain ⟨x1, hx1, p, hp1, n, hn1, h⟩ := h
  have e1 := deref_some c _ _ hx1
  subst e1
  have e2 := deref_some c _ _ hp1
  subst e2
  have e3 := deref_some c _ _ hn1
  have hnx : (setNext s (s.prev x1) (s.next x1)).next x1 = s.next x1 := by
    show Function.update s.next (s.prev x1) (s.next x1) x1 = _
    by_cases hx : x1 = s.prev x1
    · rw [← hx, Function.update_same]
    · rw [Function.update_noteq hx]
  rw [hnx] at e3
  subst e3
  simp only [Option.some.injEq] at h
  subst h
  exact hdrFrame_trans P _ _ _ (hdrFrame_setPrev P _ _ _ hn) (hdrFrame_setNext P _ _ _ hp)

/-- The function `list_push` writes the links of the new node, the `prev` of
the old head and the `next` of the sentinel only. -/
theorem list_push_frame (P : Nat → Prop) (c : Consts) (s s1 : State) (k x : Nat)
    (h : list_push c s k (Ptr.block x) = some s1) (hx : ¬ P x)
    (hh : ∀ b, s.next (Ptr.sentinel k) = Ptr.block b → ¬ P b) : HdrFrame P s1 s := by
  unfold list_push at h
  simp only [Option.bind_eq_some] at h
  obtain ⟨h0, hh0, x1, hx1, n, hn1, h⟩ := h
  have e1 := deref_some c _ _ hh0
  subst e1
  have e2 := deref_some c _ _ hx1
  subst e2
  have e3 := deref_some c _ _ hn1
  have hnx : (setPrev (setNext s (Ptr.block x) (s.next (Ptr.sentinel k))) (Ptr.block x)
      (Ptr.sentinel k)).next (Ptr.sentinel k) = s.next (Ptr.sentinel k) := by
    show Function.update s.next (Ptr.block x) (s.next (Ptr.sentinel k)) (Ptr.sentinel k) = _
    rw [Function.update_noteq (by simp)]
  rw [hnx] at e3
  subst e3
  simp only [Option.some.injEq] at h
  subst h
  have hxb : ∀ b, Ptr.block x = Ptr.block b → ¬ P b := by
    intro b hb
    simp only [Ptr.block.injEq] at hb
    rw [← hb]
    exact hx
  refine hdrFrame_trans P _ _ _ (hdrFrame_setNext P _ _ _ (fun b hb => by simp at hb)) ?_
  refine hdrFrame_trans P _ _ _ (hdrFrame_setPrev P _ _ _ hh) ?_
  exact hdrFrame_trans P _ _ _ (hdrFrame_setPrev P _ _ _ hxb) (hdrFrame_setNext P _ _ _ hxb)

/-- No address of an existing block other than the reserved block `(a, k)` lies
inside that block, and neither does any address inside such a block. -/
theorem not_inside_of_live (c : Consts) (base M : Nat) (fl : Nat → List Nat)
    (res : List (Nat × Nat)) (hold : Option (Nat × Nat)) (T : Tiling c base M fl res hold)
    (a k : Nat) (ha : (a, k) ∈ res) (z kz : Nat) (hz : Live fl res hold z kz)
    (hne : (z, kz) ≠ (a, k)) (w : Nat) (h1 : z ≤ w) (h2 : w < z + 2 ^ kz) :
    ¬ Inside a k w := by
  rintro ⟨h3, h4⟩
  rcases T.disjoint z kz a k hz (Or.inr (Or.inl ha)) hne with h | h <;> omega

/-- A member of a free list is not a reserved block. -/
theorem free_ne_res (c : Consts) (base M : Nat) (fl : Nat → List Nat)
    (res : List (Nat × Nat)) (hold : Option (Nat × Nat)) (T : Tiling c base M fl res hold)
    (a k z kz : Nat) (ha : (a, k) ∈ res) (hz : z ∈ fl kz) : (z, kz) ≠ (a, k) := by
  intro he
  simp only [Prod.mk.injEq] at he
  obtain ⟨e1, e2⟩ := he
  subst e1 e2
  exact T.res_free z kz ha hz

/-- The block in hand is not a reserved block. -/
theorem hold_ne_res (c : Consts) (base M : Nat) (fl : Nat → List Nat)
    (res : List (Nat × Nat)) (B K : Nat) (T : Tiling c base M fl res (some (B, K)))
    (a k : Nat) (ha : (a, k) ∈ res) : (B, K) ≠ (a, k) := by
  intro he
  simp only [Prod.mk.injEq] at he
  obtain ⟨e1, e2⟩ := he
  subst e1 e2
  exact (T.hold_free B K rfl).2 ha

/-- The head of a free list, when it is a block, is a member of the list. -/
theorem head_mem (s : State) (k : Nat) (l : List Nat) (h : IsList s k l) (b : Nat)
    (hb : s.next (Ptr.sentinel k) = Ptr.block b) : b ∈ l := by
  cases l with
  | nil =>
    have := h.1
    rw [hb] at this
    exact absurd this (by simp)
  | cons z l =>
    have := h.1
    rw [hb] at this
    simp only [Ptr.block.injEq] at this
    rw [this]
    exact List.mem_cons_self _ _

/-- The neighbours of a member of a free list and the heads of the free lists
are not inside a reserved block. -/
theorem links_outside (c : Consts) (s : State) (fl : Nat → List Nat) (res : List (Nat × Nat))
    (hold : Option (Nat × Nat)) (I : InvH c s fl res hold) (a k : Nat) (ha : (a, k) ∈ res) :
    (∀ B j, B ∈ fl j → ¬ Inside a k B) ∧
    (∀ B j, B ∈ fl j → ∀ b, s.prev (Ptr.block B) = Ptr.block b → ¬ Inside a k b) ∧
    (∀ B j, B ∈ fl j → ∀ b, s.next (Ptr.block B) = Ptr.block b → ¬ Inside a k b) ∧
    (∀ j, j < c.MAX_K → ∀ b, s.next (Ptr.sentinel j) = Ptr.block b → ¬ Inside a k b) := by
  have hmem : ∀ B j, B ∈ fl j → ¬ Inside a k B := by
    intro B j hB
    exact not_inside_of_live c _ _ fl res hold I.tiling a k ha B j (Or.inl hB)
      (free_ne_res c _ _ fl res hold I.tiling a k B j ha hB) B (le_refl _)
      (by have := Nat.two_pow_pos j; omega)
  refine ⟨hmem, ?_, ?_, ?_⟩
  · intro B j hB b hb
    have hj := class_lt_max c s fl res hold I B j (Or.inl hB)
    rcases chain_prev_mem s.next s.prev (Ptr.sentinel j) (fl j) (Ptr.sentinel j) B
      (I.heap.lists j hj) hB with h1 | ⟨z, hz, h1⟩
    · rw [h1] at hb
      exact absurd hb (by simp)
    · rw [h1] at hb
      simp only [Ptr.block.injEq] at hb
      rw [← hb]
      exact hmem z j hz
  · intro B j hB b hb
    have hj := class_lt_max c s fl res hold I B j (Or.inl hB)
    rcases chain_next_mem s.next s.prev (Ptr.sentinel j) (fl j) (Ptr.sentinel j) B
      (I.heap.lists j hj) hB with h1 | ⟨z, hz, h1⟩
    · rw [h1] at hb
      exact absurd hb (by simp)
    · rw [h1] at hb
      simp only [Ptr.block.injEq] at hb
      rw [← hb]
      exact hmem z j hz
  · intro j hj b hb
    exact hmem b j (head_mem s j (fl j) (I.heap.lists j hj) b hb)

/-- The split loop writes no header inside a reserved block. -/
theorem malloc_split_frame (c : Consts) (res : List (Nat × Nat)) (B k : Nat)
    (hk : c.SMALLEST_K ≤ k) (a ka : Nat) (ha : (a, ka) ∈ res) :
    ∀ n (s : State) (fl : Nat → List Nat), InvH c s fl res (some (B, k + n)) →
      ∃ s1, malloc_split c k B n s (k + n) = some s1 ∧ HdrFrame (Inside a ka) s1 s := by
  intro n
  induction n with
  | zero =>
    intro s fl I
    exact ⟨s, by simp [malloc_split], hdrFrame_refl _ s⟩
  | succ n ih =>
    intro s fl I
    obtain ⟨s3, e, I3, e1⟩ := inv_split_step c s fl res B (k + n) I (by omega)
    obtain ⟨s1, e4, f4⟩ := ih _ _ I3
    have hne := hold_ne_res c _ _ fl res B (k + n + 1) I.tiling a ka ha
    have hp := Nat.two_pow_pos (k + n)
    have hp1 : 2 ^ (k + n + 1) = 2 * 2 ^ (k + n) := by rw [pow_succ]; ring
    have hB : ¬ Inside a ka B :=
      not_inside_of_live c _ _ fl res _ I.tiling a ka ha B (k + n + 1) (Or.inr (Or.inr rfl))
        hne B (le_refl _) (by omega)
    have hU : ¬ Inside a ka (B + 2 ^ (k + n)) :=
      not_inside_of_live c _ _ fl res _ I.tiling a ka ha B (k + n + 1) (Or.inr (Or.inr rfl))
        hne _ (by omega) (by omega)
    have hUb : ∀ b, Ptr.block (B + 2 ^ (k + n)) = Ptr.block b → ¬ Inside a ka b := by
      intro b hb
      simp only [Ptr.block.injEq] at hb
      rw [← hb]
      exact hU
    have hBb : ∀ b, Ptr.block B = Ptr.block b → ¬ Inside a ka b := by
      intro b hb
      simp only [Ptr.block.injEq] at hb
      rw [← hb]
      exact hB
    have hkM : k + n < c.MAX_K := by
      have := (I.tiling.block B (k + n + 1) (Or.inr (Or.inr rfl))).2.1
      have := I.kval_m_lt
      omega
    have hhead := (links_outside c s fl res _ I a ka ha).2.2.2 (k + n) hkM
    have f3 : HdrFrame (Inside a ka) s3 s := by
      refine hdrFrame_trans _ _ _ _ (list_push_frame _ c _ s3 (k + n) _ e hU hhead) ?_
      exact hdrFrame_trans _ _ _ _ (hdrFrame_setKval _ _ _ _ hUb) (hdrFrame_setTag _ _ _ _ hUb)
    refine ⟨s1, ?_, hdrFrame_trans _ _ _ _ f4
      (hdrFrame_trans _ _ _ _ (hdrFrame_setKval _ _ _ _ hBb) f3)⟩
    simp only [malloc_split]
    rw [if_pos (by omega)]
    have : k + (n + 1) - 1 = k + n := by omega
    simp only [this]
    rw [e]
    simp only [Option.some_bind]
    exact e4

/-- The coalescing loop writes no header inside a reserved block. -/
theorem free_loop_frame (c : Consts) (res : List (Nat × Nat)) (a ka : Nat)
    (ha : (a, ka) ∈ res) :
    ∀ n (s : State) (fl : Nat → List Nat) (b k : Nat), InvH c s fl res (some (b, k)) →
      n = s.kval_m - k →
      ∃ r, free_loop c n s b = some r ∧ HdrFrame (Inside a ka) r.1 s := by
  intro n
  induction n with
  | zero =>
    intro s fl b k I hn
    have hkv := (I.heap.hold_hdr b k rfl).2
    have hkM := (I.tiling.block b k (Or.inr (Or.inr rfl))).2.1
    refine ⟨(s, b), ?_, hdrFrame_refl _ s⟩
    simp only [free_loop]
    rw [if_neg (by omega)]
  | succ n ih =>
    intro s fl b k I hn
    have hL : Live fl res (some (b, k)) b k := Or.inr (Or.inr rfl)
    have hkv := (I.heap.hold_hdr b k rfl).2
    have hk : k < s.kval_m := by omega
    obtain ⟨hbc, hb0⟩ := buddy_calc_eq c s fl res _ I b k hL hkv hk
    have htest := buddy_test_iff c s fl res b k I hk
    simp only [free_loop]
    rw [if_pos (by omega), hbc, hkv]
    by_cases hm : buddyAddr s.base b k ∈ fl k
    · have ht := htest.2 hm
      have hcond : ¬ (buddyAddr s.base b k = 0 ∨
          s.tag (Ptr.block (buddyAddr s.base b k)) ≠ Tag.BLOCK_AVAIL ∨
          s.kval (Ptr.block (buddyAddr s.base b k)) ≠ k) := by
        rintro (h | h | h)
        · exact hb0 h
        · exact h ht.1
        · exact h ht.2
      rw [if_neg hcond]
      obtain ⟨s1, e, I1, e1, et⟩ := inv_merge c s fl res b k I hk hm
      rw [e]
      simp only [Option.some_bind]
      obtain ⟨r, e3, f3⟩ := ih _ _ _ _ I1 (by
        have : (setKval s1
          (Ptr.block (if buddyAddr s.base b k < b then buddyAddr s.base b k else b))
          (s1.kval (Ptr.block (if buddyAddr s.base b k < b then buddyAddr s.base b k else b))
            + 1)).kval_m = s.kval_m := e1.2.1
        rw [this]; omega)
      obtain ⟨o1, o2, o3, -⟩ := links_outside c s fl res _ I a ka ha
      have hb : ¬ Inside a ka b :=
        not_inside_of_live c _ _ fl res _ I.tiling a ka ha b k hL
          (hold_ne_res c _ _ fl res b k I.tiling a ka ha) b (le_refl _)
          (by have := Nat.two_pow_pos k; omega)
      have hmin : ∀ z, Ptr.block (if buddyAddr s.base b k < b then buddyAddr s.base b k
          else b) = Ptr.block z → ¬ Inside a ka z := by
        intro z hz
        simp only [Ptr.block.injEq] at hz
        rw [← hz]
        split_ifs
        · exact o1 _ k hm
        · exact hb
      have f1 : HdrFrame (Inside a ka) s1 s :=
        list_remove_frame _ c s s1 _ e (o2 _ k hm) (o3 _ k hm)
      exact ⟨r, e3, hdrFrame_trans _ _ _ _ f3
        (hdrFrame_trans _ _ _ _ (hdrFrame_setKval _ _ _ _ hmin) f1)⟩
    · have hnt : buddyAddr s.base b k = 0 ∨
          s.tag (Ptr.block (buddyAddr s.base b k)) ≠ Tag.BLOCK_AVAIL ∨
          s.kval (Ptr.block (buddyAddr s.base b k)) ≠ k := by
        by_contra hcon
        push_neg at hcon
        exact hm (htest.1 ⟨hcon.2.1, hcon.2.2⟩)
      rw [if_pos hnt]
      exact ⟨(s, b), rfl, hdrFrame_refl _ s⟩

theorem hdrFrame_setErrno (P : Nat → Prop) (s : State) (e : Nat) :
    HdrFrame P (setErrno s e) s :=
  fun _ _ => ⟨rfl, rfl, rfl, rfl⟩

theorem hdrFrame_memcpy (P : Nat → Prop) (s : State) (dst src n : Nat) :
    HdrFrame P (memcpy s dst src n) s :=
  fun _ _ => ⟨rfl, rfl, rfl, rfl⟩

/-- The function `buddy_malloc` writes no header inside a reserved block. -/
theorem malloc_frame (c : Consts) (s : State) (fl : Nat → List Nat) (res : List (Nat × Nat))
    (I : Inv c s fl res) (a k : Nat) (ha : (a, k) ∈ res) (size : Nat) (r : State × Nat)
    (hm : buddy_malloc c s PoolPtr.addr size = some r) : HdrFrame (Inside a k) r.1 s := by
  by_cases hsz : size = 0
  · rw [malloc_early c s PoolPtr.addr size (Or.inr (Or.inr hsz))] at hm
    simp only [Option.some.injEq] at hm
    rw [← hm]
    exact hdrFrame_setErrno _ s _
  rcases malloc_cases c s fl res size I hsz with ⟨e, -⟩ | ⟨j, B, rest, s1a, hkj, hj, hlow, -, -, -⟩
  · rw [e] at hm
    simp only [Option.some.injEq] at hm
    rw [← hm]
    exact hdrFrame_setErrno _ s _
  · have hB : B ∈ fl j := by rw [hj]; exact List.mem_cons_self _ _
    have hblk := I.tiling.block B j (Or.inl hB)
    have hjM : j ≤ s.kval_m := hblk.2.1
    have hMM := I.kval_m_lt
    have hSM : c.SMALLEST_K ≤ c.MAX_K := by
      have := I.kval_m_ge
      omega
    generalize hkdef : btok c ((size + c.HDR) % 2 ^ 64) = k0 at *
    have hk : c.SMALLEST_K ≤ k0 := by rw [← hkdef]; exact btok_ge c hSM _
    have hhead : s.next (Ptr.sentinel j) = Ptr.block B := by
      have := I.heap.lists j (by omega)
      rw [hj] at this
      exact this.1
    have hsearch : malloc_search c s (s.kval_m + 1 - k0) k0 = some (j, Ptr.block B) := by
      rw [← hhead]
      apply malloc_search_some c s hMM j hjM (by rw [hhead]; simp) _ k0 rfl hkj
      intro i h1 h2
      exact (isList_nil_iff s i (fl i) (I.heap.lists i (by omega))).2 (hlow i h1 h2)
    obtain ⟨s1, e1, I1, -, -, -⟩ := inv_take c s fl res B j I hB
    obtain ⟨o1, o2, o3, -⟩ := links_outside c s fl res _ I a k ha
    have f1 : HdrFrame (Inside a k) s1 s :=
      list_remove_frame _ c s s1 _ e1 (o2 B j hB) (o3 B j hB)
    have hjk : j = k0 + (j - k0) := by omega
    rw [hjk] at I1
    obtain ⟨s2, e6, f2⟩ := malloc_split_frame c res B k0 hk a k ha (j - k0) s1 _ I1
    rw [← hjk] at e6
    have hr : buddy_malloc c s PoolPtr.addr size =
        some (setTag s2 (Ptr.block B) Tag.BLOCK_RESERVED, B + c.HDR) := by
      unfold buddy_malloc
      have hb := I.base_pos
      rw [if_neg (by simp; omega)]
      simp only [hkdef, hsearch, Option.some_bind, e1, e6]
    rw [hr] at hm
    simp only [Option.some.injEq] at hm
    rw [← hm]
    have hBb : ∀ b, Ptr.block B = Ptr.block b → ¬ Inside a k b := by
      intro b hb
      simp only [Ptr.block.injEq] at hb
      rw [← hb]
      exact o1 B j hB
    exact hdrFrame_trans _ _ _ _ (hdrFrame_setTag _ _ _ _ hBb) (hdrFrame_trans _ _ _ _ f2 f1)

/-- The function `buddy_free` of a reserved block writes no header inside
another reserved block. -/
theorem free_frame (c : Consts) (s : State) (fl : Nat → List Nat) (res : List (Nat × Nat))
    (I : Inv c s fl res) (a0 k0 : Nat) (ha0 : (a0, k0) ∈ res) (a k : Nat) (ha : (a, k) ∈ res)
    (hne : (a, k) ≠ (a0, k0)) (s2 : State)
    (hf : buddy_free c s PoolPtr.addr (a0 + c.HDR) = some s2) : HdrFrame (Inside a k) s2 s := by
  have I0 := inv_release c s fl res a0 k0 I ha0
  have har : (a, k) ∈ res.erase (a0, k0) := (List.mem_erase_of_ne hne).2 ha
  have hkv := (I0.heap.hold_hdr a0 k0 rfl).2
  obtain ⟨s1, e1, I1, hb1, f1, -⟩ := free_loop_spec c _ (s.kval_m - k0) _ fl a0 k0 I0 rfl
  obtain ⟨r, e1r, fr⟩ := free_loop_frame c _ a k har (s.kval_m - k0) _ fl a0 k0 I0 rfl
  rw [e1] at e1r
  simp only [Option.some.injEq] at e1r
  rw [← e1r] at fr
  have hb : (setTag s (Ptr.block a0) Tag.BLOCK_AVAIL).base = s.base := rfl
  have hM : (setTag s (Ptr.block a0) Tag.BLOCK_AVAIL).kval_m = s.kval_m := rfl
  rw [hb, hM] at e1 I1 hb1
  have hkv1 := (I1.heap.hold_hdr _ _ rfl).2
  obtain ⟨s2a, e2, -⟩ := inv_put c s1 _ _ _ _ I1 (by
    rw [f1.1, f1.2.1]; exact hb1)
  have hfe : buddy_free c s PoolPtr.addr (a0 + c.HDR) = some s2a := by
    unfold buddy_free
    have hge := (I.tiling.block a0 k0 (Or.inr (Or.inl ha0))).2.2.1
    have hbp := I.base_pos
    rw [if_neg (by simp; omega)]
    simp only [Nat.add_sub_cancel]
    rw [hkv, hM, e1]
    simp only [Option.some_bind]
    rw [hkv1]
    exact e2
  rw [hfe] at hf
  simp only [Option.some.injEq] at hf
  subst hf
  have hKM := class_lt_max c s1 _ _ _ I1 _ _ (Or.inr (Or.inr rfl))
  have hhold : ¬ Inside a k (coalesce s.base s.kval_m (s.kval_m - k0) fl a0 k0).2.1 :=
    not_inside_of_live c _ _ _ _ _ I1.tiling a k har _ _ (Or.inr (Or.inr rfl))
      (hold_ne_res c _ _ _ _ _ _ I1.tiling a k har) _ (le_refl _)
      (by have := Nat.two_pow_pos (coalesce s.base s.kval_m (s.kval_m - k0) fl a0 k0).2.2
          omega)
  have hhead := (links_outside c s1 _ _ _ I1 a k har).2.2.2 _ hKM
  have f2 : HdrFrame (Inside a k) s2a s1 := list_push_frame _ c s1 s2a _ _ e2 hhold hhead
  have ha0n : ∀ b, Ptr.block a0 = Ptr.block b → ¬ Inside a k b := by
    intro b hb
    simp only [Ptr.block.injEq] at hb
    rw [← hb]
    exact not_inside_of_live c _ _ fl res none I.tiling a k ha a0 k0 (Or.inr (Or.inl ha0))
      (fun h => hne h.symm) a0 (le_refl _) (by have := Nat.two_pow_pos k0; omega)
  exact hdrFrame_trans _ _ _ _ f2
    (hdrFrame_trans _ _ _ _ fr (hdrFrame_setTag _ _ _ _ ha0n))

/-- A frame for the addresses inside a block covers every header that shares a
byte with the payload of the block. -/
theorem untouched_of_frame (c : Consts) (s1 s : State) (a k : Nat)
    (h : HdrFrame (Inside a k) s1 s) : Untouched c s1 s (a + c.HDR) (a + 2 ^ k) := by
  intro x h1 h2
  exact h x ⟨by omega, h2⟩

/-- A growing `buddy_realloc` with the headers in the memory they manage: on a
pool that satisfies the invariant, for the pointer `a + HDR` of a reserved block
of class `old_k` and a request of a class above `old_k` that the inner
`buddy_malloc` serves with the pointer `q`: the header writes of that
`buddy_malloc` leave the bytes of the old payload alone, so `memcpy` reads what
the caller had there; the two blocks do not overlap and the copied bytes land
inside the new payload; and the header writes of the `buddy_free` that follows
leave the bytes of the new payload alone. -/
theorem realloc_grow_in_band (c : Consts) (hc : c.Valid) (s : State)
    (fl : Nat → List Nat) (res : List (Nat × Nat)) (I : Inv c s fl res) (a old_k : Nat)
    (ha : (a, old_k) ∈ res) (size : Nat) (hsz : size ≠ 0)
    (hgrow : old_k < btok c ((size + c.HDR) % 2 ^ 64)) (s1 : State) (q : Nat)
    (hm : buddy_malloc c s PoolPtr.addr size = some (s1, q)) (hq : q ≠ 0) :
    ∃ s3, buddy_realloc c s PoolPtr.addr (a + c.HDR) size = some (s3, q) ∧
      Untouched c s1 s (a + c.HDR) (a + 2 ^ old_k) ∧
      (a + 2 ^ old_k ≤ q - c.HDR ∨
        q - c.HDR + 2 ^ btok c ((size + c.HDR) % 2 ^ 64) ≤ a) ∧
      q + (2 ^ old_k - c.HDR) ≤ q - c.HDR + 2 ^ btok c ((size + c.HDR) % 2 ^ 64) ∧
      Untouched c s3 s1 q (q - c.HDR + 2 ^ btok c ((size + c.HDR) % 2 ^ 64)) ∧
      ∀ i, i < 2 ^ old_k - c.HDR → s3.data (q + i) = s.data (a + c.HDR + i) := by
  have hblk := I.tiling.block a old_k (Or.inr (Or.inl ha))
  have hfm := malloc_frame c s fl res I a old_k ha size _ hm
  obtain ⟨s3, e3, e4⟩ := realloc_grow_steps c hc s fl res I a old_k ha size hsz hgrow s1 q hm hq
  rcases malloc_cases c s fl res size I hsz with ⟨e, -⟩ | ⟨j, B, rest, s1a, -, -, -, e, I1, f⟩
  · rw [e] at hm
    simp only [Option.some.injEq, Prod.mk.injEq] at hm
    exact absurd hm.2.symm hq
  · rw [e] at hm
    simp only [Option.some.injEq, Prod.mk.injEq] at hm
    obtain ⟨h1, h2⟩ := hm
    subst h1 h2
    generalize hk : btok c ((size + c.HDR) % 2 ^ 64) = k at *
    have I2 := inv_memcpy c s1a _ _ (B + c.HDR) (a + c.HDR) (2 ^ old_k - c.HDR) I1
    have hne : (B, k) ≠ (a, old_k) := by
      intro he
      simp only [Prod.mk.injEq] at he
      omega
    have hff := free_frame c _ _ _ I2 a old_k (List.mem_cons_of_mem _ ha) B k
      (List.mem_cons_self _ _) hne s3 e3
    have hdis := I1.tiling.disjoint a old_k B k (Or.inr (Or.inl (List.mem_cons_of_mem _ ha)))
      (Or.inr (Or.inl (List.mem_cons_self _ _))) (fun h => hne h.symm)
    have hp : 2 ^ old_k < 2 ^ k := Nat.pow_lt_pow_right (by norm_num) hgrow
    have hh := hc.2.2.2.2
    have hpk : 2 ^ c.SMALLEST_K ≤ 2 ^ old_k := Nat.pow_le_pow_right (by norm_num) hblk.1
    obtain ⟨s3a, e5, hdata, -⟩ := realloc_grow_preserves c hc s fl res I a old_k ha size hsz
      (by rw [hk]; exact hgrow) s1a (B + c.HDR) e hq
    rw [e4] at e5
    simp only [Option.some.injEq, Prod.mk.injEq, and_true] at e5
    subst e5
    refine ⟨s3, e4, untouched_of_frame c _ _ a old_k hfm, ?_, ?_, ?_, ?_⟩
    · rw [Nat.add_sub_cancel]
      exact hdis
    · rw [Nat.add_sub_cancel]
      omega
    · rw [Nat.add_sub_cancel]
      have := untouched_of_frame c _ _ B k
        (hdrFrame_trans _ _ _ _ hff (hdrFrame_memcpy _ s1a _ _ _))
      exact this
    · exact hdata

/-- Writing payload bytes keeps the invariant. -/
theorem inv_data (c : Consts) (s : State) (fl : Nat → List Nat) (res : List (Nat × Nat))
    (d : Nat → Nat) (I : Inv c s fl res) : Inv c { s with data := d } fl res :=
  ⟨I.base_pos, I.numbytes_eq, I.kval_m_ge, I.kval_m_lt, I.no_wrap, I.tiling,
    ⟨I.heap.sent, I.heap.lists, I.heap.free_hdr, I.heap.res_hdr, I.heap.hold_hdr⟩⟩

set_option maxRecDepth 100000 in
theorem patternGrow_eq :
    buddy_malloc labConsts patternState PoolPtr.addr 100 = some (patternGrow, 4248) := by
  rfl

set_option maxRecDepth 100000 in
theorem realloc_grow_in_band_witness :
    ∃ s3, buddy_realloc labConsts patternState PoolPtr.addr 4120 100 = some (s3, 4248) ∧
      Untouched labConsts patternGrow patternState 4120 (4096 + 2 ^ 6) ∧
      Untouched labConsts s3 patternGrow 4248 (4224 + 2 ^ 7) ∧
      (∀ i, i < 40 → s3.data (4248 + i) = (4120 + i) % 251 + 1) ∧
      patternState.data 4248 ≠ (4120 + 0) % 251 + 1 := by
  obtain ⟨s3, h1, h2, -, -, h5, h6⟩ := realloc_grow_in_band labConsts (by decide) patternState
    allocLists [(4096, 6)] (inv_data labConsts allocState allocLists [(4096, 6)] _
      allocState_inv) 4096 6 (by simp) 100 (by decide) (by decide) patternGrow 4248
    patternGrow_eq (by decide)
  exact ⟨s3, h1, h2, h5, h6, by decide⟩

end Buddy
